import Mathlib

/-!
Verification of the MRC-generation core of the kosmo repository.

The Rust sources are shallowly embedded: machine integers (`u32`, `u64`)
become `Nat` (with explicit wrap-around only where the code can overflow),
`f64` counters that the code only increments, adds and divides exactly are
modelled as `ℚ`, fallible operations return `Option`, and stateful methods
become state-passing functions.  Every definition is translated from the
corresponding Rust item, keeping its name where Lean allows it.
-/

namespace Kosmo

/-- `src/access.rs`: the fields of `Access` consumed by the core
(`timestamp: u64`, `key: u64`, `size: u32`; the `command` and `ttl`
fields never reach the components verified here). -/
structure Access where
  timestamp : Nat
  key : Nat
  size : Nat
  deriving Repr, DecidableEq

/-- `src/cache.rs`: `Object { key, size }` (equality is by key). -/
structure Object where
  key : Nat
  size : Nat
  deriving Repr, DecidableEq

/-! ## LRU eviction map (`src/kosmo/eviction_map/lru_eviction_map.rs`) -/

/-- `LruEvictionMap { evicted_size: u64 }`. -/
structure LruEvictionMap where
  evicted_size : Nat
  deriving Repr, DecidableEq

namespace LruEvictionMap

/-- `LruEvictionMap::new`: `evicted_size = access.size - 1`
(`access.size > 0` for every access valid for MRC). -/
def new (access : Access) : LruEvictionMap :=
  { evicted_size := access.size - 1 }

/-- `EvictionMap::insert` for LRU: `self.evicted_size = size`. -/
def insert (m : LruEvictionMap) (size : Nat) : LruEvictionMap :=
  { m with evicted_size := size }

/-- `EvictionMap::exists_at` for LRU: `self.evicted_size < size`. -/
def exists_at (m : LruEvictionMap) (size : Nat) : Bool :=
  m.evicted_size < size

/-- `EvictionMap::reuse_distance` for LRU. -/
def reuse_distance (m : LruEvictionMap) (object : Object) : Nat :=
  if m.evicted_size > 0 then m.evicted_size else object.size

/-- `EvictionMap::update` for LRU: `evicted_size = access.size - 1`. -/
def update (m : LruEvictionMap) (access : Access) : LruEvictionMap :=
  { m with evicted_size := access.size - 1 }

end LruEvictionMap

/-! ## Fixed-rate SHARDS (`src/shards.rs`, `src/shards/fixed_rate.rs`)

`murmur3::hash128` comes from the external `fasthash` crate, so the hash is
an explicit parameter `hash : Nat → Nat` of the sampling functions; the code
around it is translated literally. -/

/-- `const MODULUS: u64 = 16777216` (= 2²⁴). -/
def MODULUS : Nat := 16777216

/-- `Shards::sample_key`: `t = hash(key) % MODULUS`; `Some t` iff
`t < global_t`. -/
def sample_key (hash : Nat → Nat) (global_t : Nat) (key : Nat) : Option Nat :=
  let t := hash key % MODULUS
  if t < global_t then some t else none

/-- `ShardsFixedRate { global_t, sampled_count, total_count }`. -/
structure ShardsFixedRate where
  global_t : Nat
  sampled_count : Nat
  total_count : Nat
  deriving Repr, DecidableEq

namespace ShardsFixedRate

/-- `ShardsFixedRate::new(global_t)`. -/
def new (global_t : Nat) : ShardsFixedRate :=
  { global_t := global_t, sampled_count := 0, total_count := 0 }

/-- `Shards::get_rate`: `global_t / 2²⁴` (exact in `f64`, modelled in ℚ). -/
def get_rate (s : ShardsFixedRate) : ℚ :=
  (s.global_t : ℚ) / (MODULUS : ℚ)

/-- `ShardsFixedRate::get_expected_count`:
`(rate * total_count as f64) as u64`, i.e. the floor of the product. -/
def get_expected_count (s : ShardsFixedRate) : Nat :=
  s.global_t * s.total_count / MODULUS

/-- `ShardsFixedRate::sample`: increment `total_count`; if the key is not
sampled return `false`, otherwise increment `sampled_count` and return
`true`. -/
def sample (hash : Nat → Nat) (s : ShardsFixedRate) (access : Access) :
    ShardsFixedRate × Bool :=
  let s := { s with total_count := s.total_count + 1 }
  match sample_key hash s.global_t access.key with
  | none => (s, false)
  | some _ => ({ s with sampled_count := s.sampled_count + 1 }, true)

/-- Folding a sequence of accesses through `sample`, discarding the
booleans (the drivers' outer loop). -/
def sampleAll (hash : Nat → Nat) (s : ShardsFixedRate) :
    List Access → ShardsFixedRate
  | [] => s
  | a :: rest => sampleAll hash (sample hash s a).1 rest

end ShardsFixedRate

/-! ## Histogram (`src/histogram.rs`)

`f64` bucket counts are modelled as `ℚ`: the code only ever sets them to
`1.0`, adds `1.0`, and multiplies by ratios of `u64`s, all of which the
claims use in ranges where `f64` arithmetic is exact. -/

/-- `pub const BUCKET_SIZE: u64 = 64 * 1024`. -/
def BUCKET_SIZE : Nat := 64 * 1024

/-- A view of the `&dyn Shards` argument as the histogram consumes it:
`get_global_t()` and `unscale(size)`. -/
structure ShardsView where
  global_t : Nat
  unscale : Nat → Nat

/-- `Bucket { size, count: f64, shards_global_t }`. -/
structure Bucket where
  size : Nat
  count : ℚ
  shards_global_t : Nat
  deriving Repr, DecidableEq

namespace Bucket

/-- `Bucket::new`: `count` starts at `1.0`;
`shards_global_t = shards_global_t.unwrap_or(0)`. -/
def new (size : Nat) (shards_global_t : Option Nat) : Bucket :=
  { size := size, count := 1, shards_global_t := shards_global_t.getD 0 }

/-- `Bucket::increment`: `count += 1.0`. -/
def increment (b : Bucket) : Bucket :=
  { b with count := b.count + 1 }

/-- `Bucket::rescale`: no-op if the stored `global_t` is `0` or unchanged;
otherwise multiply the count by `global_t / shards_global_t`. -/
def rescale (b : Bucket) (global_t : Nat) : Bucket :=
  if b.shards_global_t = 0 ∨ b.shards_global_t = global_t then b
  else
    { b with
        count := b.count * ((global_t : ℚ) / (b.shards_global_t : ℚ)),
        shards_global_t := global_t }

end Bucket

/-- `Histogram { infinity: Bucket, buckets: Vec<Bucket> }` (the vector is
kept sorted by size). -/
structure Histogram where
  infinity : Bucket
  buckets : List Bucket
  deriving Repr, DecidableEq

/-- `get_rounded_reuse_distance`: round up to the next multiple of
`BUCKET_SIZE` (the code divides in `f64` and takes `ceil`, exact for the
`u64` range the driver produces). -/
def get_rounded_reuse_distance (reuse_distance : Nat) : Nat :=
  ((reuse_distance + BUCKET_SIZE - 1) / BUCKET_SIZE) * BUCKET_SIZE

namespace Histogram

/-- `Histogram::new`: an infinity bucket of size `0` (born with count
`1.0`) and no finite buckets. -/
def new (shards : Option ShardsView) : Histogram :=
  { infinity := Bucket.new 0 (shards.map (·.global_t)), buckets := [] }

/-- The binary search + `insert`/`increment` of `Histogram::increment` on
the size-sorted bucket vector, written as a sorted-list traversal (on a
sorted vector `binary_search_by_key` finds exactly the position this scan
finds). -/
def incrementBuckets (shards : Option ShardsView) (rd : Nat) :
    List Bucket → List Bucket
  | [] => [Bucket.new rd (shards.map (·.global_t))]
  | b :: rest =>
      if b.size = rd then
        (match shards with
          | some sv => (b.rescale sv.global_t).increment
          | none => b.increment) :: rest
      else if rd < b.size then
        Bucket.new rd (shards.map (·.global_t)) :: b :: rest
      else
        b :: incrementBuckets shards rd rest

/-- `Histogram::increment`: `None` reuse distance goes to the infinity
bucket (rescaled first when SHARDS is active); otherwise the distance is
unscaled, rounded up to a `BUCKET_SIZE` multiple, and counted in the sorted
bucket vector. -/
def increment (h : Histogram) (shards : Option ShardsView)
    (reuse_distance : Option Nat) : Histogram :=
  match reuse_distance with
  | none =>
      let inf := match shards with
        | some sv => h.infinity.rescale sv.global_t
        | none => h.infinity
      { h with infinity := inf.increment }
  | some rd =>
      let rd := match shards with
        | some sv => sv.unscale rd
        | none => rd
      let rd := get_rounded_reuse_distance rd
      { h with buckets := incrementBuckets shards rd h.buckets }

/-- `Histogram::get_total`: infinity count plus every bucket count. -/
def get_total (h : Histogram) : ℚ :=
  h.infinity.count + (h.buckets.map (·.count)).sum

/-- `Histogram::get_corrected_total`: `get_total` plus the SHARDS
correction. -/
def get_corrected_total (h : Histogram) (correction : ℤ) : ℚ :=
  h.infinity.count + (h.buckets.map (·.count)).sum + (correction : ℚ)

/-- `k` consecutive cold (`reuse_distance = None`) increments. -/
def coldIncrements (h : Histogram) (shards : Option ShardsView) :
    Nat → Histogram
  | 0 => h
  | k + 1 => coldIncrements (h.increment shards none) shards k

end Histogram

/-! ## Curve (`src/curve.rs`)

`Curve { points: BTreeMap<u64, Point> }` is modelled as the ascending list
of `(size, miss_ratio)` pairs held by the B-tree map; the map's cursor
operations (`insert`, `upper_bound(..).prev()`, `lower_bound(..).next()`,
`last_key_value`) become the corresponding sorted-list operations. -/

/-- An MRC curve: the B-tree map's contents in ascending key order. -/
structure Curve where
  points : List (Nat × ℚ)
  deriving Repr, DecidableEq

namespace Curve

/-- `BTreeMap::insert` on the ascending pair list: replace the entry with
an equal key, otherwise place the new entry at its sorted position. -/
def btreeInsert (k : Nat) (v : ℚ) : List (Nat × ℚ) → List (Nat × ℚ)
  | [] => [(k, v)]
  | p :: rest =>
      if k = p.1 then (k, v) :: rest
      else if k < p.1 then (k, v) :: p :: rest
      else p :: btreeInsert k v rest

/-- `upper_bound(Bound::Included(&size)).prev()`: the entry with the
greatest key `≤ size` (the scan may stop at the first larger key because
the list is ascending). -/
def upperBoundPrev : List (Nat × ℚ) → Nat → Option (Nat × ℚ)
  | [], _ => none
  | p :: rest, size =>
      if p.1 ≤ size then some ((upperBoundPrev rest size).getD p) else none

/-- `lower_bound(Bound::Included(&size)).next()`: the entry with the least
key `≥ size`. -/
def lowerBoundNext : List (Nat × ℚ) → Nat → Option (Nat × ℚ)
  | [], _ => none
  | p :: rest, size =>
      if size ≤ p.1 then some p else lowerBoundNext rest size

/-- `Curve::get_miss_ratio`: the four-way match on the two cursors from
`src/curve.rs`. -/
def get_miss_ratio (c : Curve) (size : Nat) : ℚ :=
  match upperBoundPrev c.points size, lowerBoundNext c.points size with
  | some prev_point, some next_point =>
      if size = next_point.1 then next_point.2 else prev_point.2
  | none, some next_point =>
      if size = next_point.1 then next_point.2 else 1
  | some prev_point, none => prev_point.2
  | none, none =>
      match c.points.getLast? with
      | some point => point.2
      | none => 1

/-- The loop body of `Curve::from_corrected_histogram`: fold the buckets,
carrying the running `current` count and the remaining `correction`, and
insert `Point(size, 1 - current/total)` after each bucket. -/
def correctedLoop (total : ℚ) :
    List Bucket → List (Nat × ℚ) → ℚ → ℚ → List (Nat × ℚ)
  | [], points, _, _ => points
  | b :: rest, points, current, correction =>
      let current1 := current + b.count
      let state :=
        if correction > 0 ∨ |correction| < current1 then
          (current1 + correction, (0 : ℚ))
        else if correction < 0 then
          ((0 : ℚ), correction + current1)
        else
          (current1, correction)
      correctedLoop total rest
        (btreeInsert b.size (1 - state.1 / total) points) state.1 state.2

/-- `Curve::from_corrected_histogram`: apply the SHARDS correction while
accumulating the histogram's bucket counts (`shards.get_correction()` is
the integer `correction` argument). -/
def from_corrected_histogram (h : Histogram) (correction : ℤ) : Curve :=
  { points :=
      correctedLoop (h.get_corrected_total correction) h.buckets [] 0
        (correction : ℚ) }

end Curve

/-! ## Fixed-size SHARDS (`src/shards/fixed_size.rs`)

The `BTreeSet<Entry>` is modelled as its iteration-order list: ascending in
the `Entry` ordering `other.t.cmp(&self.t)`, i.e. *descending* in `t`.
Membership and position use only `t`, exactly as the reversed `Ord` does;
`PartialEq` (by key) plays no role inside a `BTreeSet`.  The `FxHashSet`
of keys is modelled as a duplicate-free list. -/

/-- `Entry { key: Key, t: u64 }`. -/
structure Entry where
  key : Nat
  t : Nat
  deriving Repr, DecidableEq

/-- `BTreeSet<Entry>::contains`: equality under the `Ord` implementation,
which compares only `t`. -/
def entriesContains (entries : List Entry) (e : Entry) : Bool :=
  entries.any (fun x => x.t = e.t)

/-- `BTreeSet<Entry>::insert` on the descending-`t` list: keep the existing
element when an `Ord`-equal one is present, else splice at the sorted
position. -/
def entriesInsert (e : Entry) : List Entry → List Entry
  | [] => [e]
  | x :: rest =>
      if e.t = x.t then x :: rest
      else if x.t < e.t then e :: x :: rest
      else x :: entriesInsert e rest

/-- `FxHashSet<Key>::insert` (as a duplicate-free list). -/
def keysInsert (k : Nat) (keys : List Nat) : List Nat :=
  if k ∈ keys then keys else k :: keys

/-- `ShardsFixedSize` state; `expected_count: f64` is modelled in ℚ. -/
structure ShardsFixedSize where
  global_t : Nat
  s_max : Nat
  sampled_count : Nat
  total_count : Nat
  expected_count : ℚ
  entries : List Entry
  keys : List Nat
  deriving Repr, DecidableEq

namespace ShardsFixedSize

/-- `ShardsFixedSize::new(global_t, s_max)`. -/
def new (global_t s_max : Nat) : ShardsFixedSize :=
  { global_t := global_t, s_max := s_max, sampled_count := 0,
    total_count := 0, expected_count := 0, entries := [], keys := [] }

/-- `Shards::get_rate` for the fixed-size variant. -/
def get_rate (s : ShardsFixedSize) : ℚ :=
  (s.global_t : ℚ) / (MODULUS : ℚ)

/-- `ShardsFixedSize::get_expected_count`. -/
def get_expected_count (s : ShardsFixedSize) : Nat :=
  ⌊s.expected_count + (s.total_count : ℚ) * s.get_rate⌋₊

/-- `ShardsFixedSize::get_correction`: always `0`. -/
def get_correction (_ : ShardsFixedSize) : Int := 0

/-- `ShardsFixedSize::sample`: count the access, test the key's hash
against `global_t`, and on success add the entry — unless an entry with an
equal `t` is already present, in which case neither the entry set nor the
key set changes. -/
def sample (hash : Nat → Nat) (s : ShardsFixedSize) (access : Access) :
    ShardsFixedSize × Bool :=
  let s := { s with total_count := s.total_count + 1 }
  match sample_key hash s.global_t access.key with
  | none => (s, false)
  | some t =>
      let s := { s with sampled_count := s.sampled_count + 1 }
      let entry : Entry := ⟨access.key, t⟩
      if entriesContains s.entries entry then (s, true)
      else
        ({ s with
            entries := entriesInsert entry s.entries,
            keys := keysInsert access.key s.keys }, true)

/-- `ShardsFixedSize::get_removal`: nothing to drain while the entry set is
within `s_max`; otherwise pop the first entry of the descending-`t` set
(the largest `t`), lower `global_t` to its `t`, fold the pending expected
count, reset `total_count` and return the evicted key. -/
def get_removal (s : ShardsFixedSize) : ShardsFixedSize × Option Nat :=
  if s.entries.length ≤ s.s_max then (s, none)
  else
    match s.entries with
    | [] => (s, none)
    | entry :: rest =>
        let s1 := { s with global_t := entry.t }
        ({ s1 with
            entries := rest,
            keys := s1.keys.filter (· ≠ entry.key),
            expected_count :=
              s1.expected_count + (s1.total_count : ℚ) * s1.get_rate,
            total_count := 0 }, some entry.key)

end ShardsFixedSize

/-- A concrete fixed-size SHARDS state used to exercise `get_removal`:
`global_t = 100`, `s_max = 1`, two sampled entries with hashes `80 > 10`. -/
def exampleFixedSizeState : ShardsFixedSize :=
  ⟨100, 1, 2, 2, 0, [⟨5, 80⟩, ⟨9, 10⟩], [5, 9]⟩

/-! ## The cache protocol (`src/cache.rs`)

The trait `Cache` implements `get`, `set`, `del` and `has` once, on top of
the per-policy required methods.  A `CacheMethods σ` value bundles the
required methods of one cache with state type `σ` (the trait's vtable); the
provided methods are translated once, generically, exactly as the trait
defines them. -/

/-- The required methods of the `Cache` trait. -/
structure CacheMethods (σ : Type) where
  size : σ → Nat
  increment_count : σ → σ
  increment_hits : σ → σ
  process_get : σ → Access → σ × Bool
  process_set : σ → Access → σ
  process_del : σ → Nat → σ
  process_has : σ → Nat → Bool
  reduce : σ → Nat → σ
  resize : σ → Nat → σ

namespace CacheMethods

variable {σ : Type}

/-- `Cache::get` (provided method): reject an access larger than the
cache's size before touching any counter, then count it and classify
hit/miss. -/
def get (m : CacheMethods σ) (s : σ) (access : Access) : σ × Bool :=
  if access.size > m.size s then (s, false)
  else
    let s := m.increment_count s
    let r := m.process_get s access
    if r.2 then (m.increment_hits r.1, true) else (r.1, false)

/-- `Cache::set` (provided method): reject oversize accesses, otherwise
defer to the policy. -/
def set (m : CacheMethods σ) (s : σ) (access : Access) : σ :=
  if access.size > m.size s then s else m.process_set s access

/-- `Cache::del`. -/
def del (m : CacheMethods σ) (s : σ) (key : Nat) : σ :=
  m.process_del s key

/-- `Cache::has`. -/
def has (m : CacheMethods σ) (s : σ) (key : Nat) : Bool :=
  m.process_has s key

/-- `Cache::handle_self_populating`. -/
def handle_self_populating (m : CacheMethods σ) (s : σ) (access : Access) :
    σ × Bool :=
  let r := m.get s access
  if r.2 then (r.1, true) else (m.set r.1 access, false)

end CacheMethods

/-- One step of the driver-visible cache protocol (the operations claim C8
quantifies over). -/
inductive CacheOp where
  | get (access : Access)
  | set (access : Access)
  | del (key : Nat)
  | reduce (target : Nat)
  | resize (size : Nat)
  deriving Repr, DecidableEq

/-- Apply one protocol operation through the trait methods. -/
def applyOp {σ : Type} (m : CacheMethods σ) (s : σ) : CacheOp → σ
  | .get a => (CacheMethods.get m s a).1
  | .set a => CacheMethods.set m s a
  | .del k => CacheMethods.del m s k
  | .reduce n => m.reduce s n
  | .resize n => m.resize s n

/-- Run a sequence of protocol operations. -/
def runOps {σ : Type} (m : CacheMethods σ) (s : σ) (ops : List CacheOp) : σ :=
  ops.foldl (applyOp m) s

/-- `(l.map f).sum`: the total size of the objects in a policy structure. -/
def sizesSum {α : Type} (f : α → Nat) (l : List α) : Nat :=
  (l.map f).sum

/-! ## FIFO cache (`src/cache/fifo_cache.rs`)

The `VecList` is modelled as a list with the front at the head; the hash
index `map` (an optimization locating stack nodes by key) is derived from
the stack by key search, which the `VecList`/map synchronisation invariant
makes equivalent. -/

structure FifoCache where
  max_size : Nat
  current_size : Nat
  count : ℚ
  hits : ℚ
  stack : List Object
  deriving Repr, DecidableEq

namespace FifoCache

/-- `FifoCache::new`. -/
def new (size : Nat) : FifoCache :=
  { max_size := size, current_size := 0, count := 0, hits := 0, stack := [] }

/-- `Cache::size` for FIFO: `max_size`. -/
def size (c : FifoCache) : Nat := c.max_size

/-- `miss_ratio`: `1 - hits/count`, `0` when no access was counted. -/
def miss_ratio (c : FifoCache) : ℚ :=
  if c.count > 0 then 1 - c.hits / c.count else 0

def increment_count (c : FifoCache) : FifoCache :=
  { c with count := c.count + 1 }

def increment_hits (c : FifoCache) : FifoCache :=
  { c with hits := c.hits + 1 }

/-- `process_has`: membership in the key index. -/
def process_has (c : FifoCache) (key : Nat) : Bool :=
  c.stack.any (fun o => o.key = key)

/-- `process_get`: FIFO does not move objects on a hit. -/
def process_get (c : FifoCache) (access : Access) : FifoCache × Bool :=
  (c, c.process_has access.key)

/-- The `while current_size > target` eviction loop of `reduce`, with the
pops counted by `fuel` (each pass removes one object, so `stack.length`
passes suffice; on an empty stack the Rust loop could only spin, which the
`current_size = Σ sizes` invariant rules out). -/
def reduceFuel : Nat → FifoCache → Nat → FifoCache
  | 0, c, _ => c
  | fuel + 1, c, target =>
      if c.current_size ≤ target then c
      else
        match c.stack.getLast? with
        | none => c
        | some object =>
            reduceFuel fuel
              { c with
                  stack := c.stack.dropLast,
                  current_size := c.current_size - object.size } target

/-- `reduce`. -/
def reduce (c : FifoCache) (target_size : Nat) : FifoCache :=
  reduceFuel c.stack.length c target_size

/-- `process_set`: reject oversize or duplicate keys, evict down to
`max_size - access.size`, then push the object at the front. -/
def process_set (c : FifoCache) (access : Access) : FifoCache :=
  if access.size > c.max_size ∨ c.process_has access.key then c
  else
    let c := c.reduce (c.max_size - access.size)
    { c with
        stack := ⟨access.key, access.size⟩ :: c.stack,
        current_size := c.current_size + access.size }

/-- `process_del`: remove the indexed object, if present. -/
def process_del (c : FifoCache) (key : Nat) : FifoCache :=
  match c.stack.find? (fun o => o.key = key) with
  | none => c
  | some object =>
      { c with
          stack := c.stack.erase object,
          current_size := c.current_size - object.size }

/-- `resize`: reduce, then adopt the new `max_size`. -/
def resize (c : FifoCache) (s : Nat) : FifoCache :=
  let c := c.reduce s
  { c with max_size := s }

/-- `rescale`. -/
def rescale (c : FifoCache) (ratio : ℚ) : FifoCache :=
  { c with count := c.count * ratio, hits := c.hits * ratio }

/-- The FIFO cache's `Cache` vtable. -/
def methods : CacheMethods FifoCache :=
  { size := size, increment_count := increment_count,
    increment_hits := increment_hits, process_get := process_get,
    process_set := process_set, process_del := process_del,
    process_has := process_has, reduce := reduce, resize := resize }

end FifoCache

/-! ## LFU cache (`src/cache/lfu_cache.rs`)

`count_lists` is a list of frequency buckets ordered by ascending count
(front = lowest); each bucket's `VecList` has its front at the head.  The
`map`'s node indices are derived by key search, equivalent under the
map/lists synchronisation invariant. -/

/-- `CountList { count, list }`. -/
structure CountList where
  count : Nat
  list : List Object
  deriving Repr, DecidableEq

structure LfuCache where
  max_size : Nat
  current_size : Nat
  count : ℚ
  hits : ℚ
  count_lists : List CountList
  deriving Repr, DecidableEq

namespace LfuCache

/-- `LfuCache::new`. -/
def new (size : Nat) : LfuCache :=
  { max_size := size, current_size := 0, count := 0, hits := 0,
    count_lists := [] }

def size (c : LfuCache) : Nat := c.max_size

def miss_ratio (c : LfuCache) : ℚ :=
  if c.count > 0 then 1 - c.hits / c.count else 0

def increment_count (c : LfuCache) : LfuCache :=
  { c with count := c.count + 1 }

def increment_hits (c : LfuCache) : LfuCache :=
  { c with hits := c.hits + 1 }

def process_has (c : LfuCache) (key : Nat) : Bool :=
  c.count_lists.any (fun cl => cl.list.any (fun o => o.key = key))

/-- The body of `process_get` over the bucket list: find the bucket holding
the key, detach the object, move it to the bucket with `count + 1`
(pushing into the successor when its count is exactly one more, otherwise
inserting a fresh bucket right after), and drop the old bucket if it
emptied.  `none` when the key is absent. -/
def lfuGet (key : Nat) : List CountList → Option (List CountList)
  | [] => none
  | cl :: rest =>
      match cl.list.find? (fun o => o.key = key) with
      | some object =>
          let remaining := cl.list.erase object
          some (match rest with
            | next :: rest2 =>
                if next.count = cl.count + 1 then
                  let next2 : CountList :=
                    { next with list := object :: next.list }
                  if remaining.isEmpty then next2 :: rest2
                  else { cl with list := remaining } :: next2 :: rest2
                else
                  let fresh : CountList := ⟨cl.count + 1, [object]⟩
                  if remaining.isEmpty then fresh :: next :: rest2
                  else { cl with list := remaining } :: fresh :: next :: rest2
            | [] =>
                let fresh : CountList := ⟨cl.count + 1, [object]⟩
                if remaining.isEmpty then [fresh]
                else [{ cl with list := remaining }, fresh])
      | none =>
          match lfuGet key rest with
          | none => none
          | some rest2 => some (cl :: rest2)

/-- `process_get`. -/
def process_get (c : LfuCache) (access : Access) : LfuCache × Bool :=
  match lfuGet access.key c.count_lists with
  | none => (c, false)
  | some cls => ({ c with count_lists := cls }, true)

/-- The eviction loop of `reduce`: pop from the back of the lowest-count
bucket, dropping the bucket once empty.  `fuel` bounds the passes by the
total object count (the Rust loop's `unwrap`s on an empty structure are
unreachable under the size invariants). -/
def reduceFuel : Nat → LfuCache → Nat → LfuCache
  | 0, c, _ => c
  | fuel + 1, c, target =>
      if c.current_size ≤ target then c
      else
        match c.count_lists with
        | [] => c
        | cl :: rest =>
            match cl.list.getLast? with
            | none => c
            | some object =>
                let remaining := cl.list.dropLast
                let cls := if remaining.isEmpty then rest
                  else { cl with list := remaining } :: rest
                reduceFuel fuel
                  { c with
                      count_lists := cls,
                      current_size := c.current_size - object.size } target

/-- Total number of stored objects (the fuel bound for `reduce`). -/
def totalObjects (c : LfuCache) : Nat :=
  (c.count_lists.map (fun cl => cl.list.length)).sum

def reduce (c : LfuCache) (target_size : Nat) : LfuCache :=
  reduceFuel c.totalObjects c target_size

/-- `process_set`: reject oversize or duplicate keys, evict, make sure the
front bucket has count `1` (pushing a fresh one when empty or the front
count exceeds `1`), then push the object into it. -/
def process_set (c : LfuCache) (access : Access) : LfuCache :=
  if access.size > c.max_size ∨ c.process_has access.key then c
  else
    let c := c.reduce (c.max_size - access.size)
    let object : Object := ⟨access.key, access.size⟩
    let cls := match c.count_lists with
      | [] => [(⟨1, [object]⟩ : CountList)]
      | front :: rest =>
          if front.count > 1 then ⟨1, [object]⟩ :: front :: rest
          else { front with list := object :: front.list } :: rest
    { c with
        count_lists := cls,
        current_size := c.current_size + access.size }

/-- The body of `process_del`: detach the keyed object from its bucket,
dropping the bucket once empty; returns the object removed. -/
def lfuDel (key : Nat) : List CountList → Option (Object × List CountList)
  | [] => none
  | cl :: rest =>
      match cl.list.find? (fun o => o.key = key) with
      | some object =>
          let remaining := cl.list.erase object
          if remaining.isEmpty then some (object, rest)
          else some (object, { cl with list := remaining } :: rest)
      | none =>
          match lfuDel key rest with
          | none => none
          | some (object, rest2) => some (object, cl :: rest2)

def process_del (c : LfuCache) (key : Nat) : LfuCache :=
  match lfuDel key c.count_lists with
  | none => c
  | some (object, cls) =>
      { c with
          count_lists := cls,
          current_size := c.current_size - object.size }

def resize (c : LfuCache) (s : Nat) : LfuCache :=
  let c := c.reduce s
  { c with max_size := s }

def rescale (c : LfuCache) (ratio : ℚ) : LfuCache :=
  { c with count := c.count * ratio, hits := c.hits * ratio }

def methods : CacheMethods LfuCache :=
  { size := size, increment_count := increment_count,
    increment_hits := increment_hits, process_get := process_get,
    process_set := process_set, process_del := process_del,
    process_has := process_has, reduce := reduce, resize := resize }

end LfuCache

/-! ## 2Q cache (`src/cache/two_q_cache.rs`)

The three `Stack`s keep their Rust shape `{ stack: VecList, size: u64 }`
(front at the head).  The `map`'s `StackIndex` dispatch is derived by
searching the three stacks, equivalent under the map/stacks
synchronisation invariant.  `kin`/`kout` are exact rationals standing for
the `f64` multipliers. -/

/-- `Stack { stack, size }`. -/
structure Stack where
  stack : List Object
  size : Nat
  deriving Repr, DecidableEq

namespace Stack

def empty : Stack := ⟨[], 0⟩

def is_empty (s : Stack) : Bool := s.stack.isEmpty

/-- `Stack::push_front`. -/
def push_front (s : Stack) (object : Object) : Stack :=
  ⟨object :: s.stack, s.size + object.size⟩

/-- `Stack::pop_back`. -/
def pop_back (s : Stack) : Option (Object × Stack) :=
  match s.stack.getLast? with
  | none => none
  | some object => some (object, ⟨s.stack.dropLast, s.size - object.size⟩)

/-- `Stack::remove` located through the key map. -/
def removeKey (s : Stack) (key : Nat) : Option (Object × Stack) :=
  match s.stack.find? (fun o => o.key = key) with
  | none => none
  | some object =>
      some (object, ⟨s.stack.erase object, s.size - object.size⟩)

end Stack

structure TwoQCache where
  max_size : Nat
  kin : ℚ
  kout : ℚ
  count : ℚ
  hits : ℚ
  ain : Stack
  aout : Stack
  am : Stack
  deriving Repr, DecidableEq

namespace TwoQCache

/-- `TwoQCache::new` (the constructor asserts `kin > 0`, `kout > 0`,
`kin + kout ≤ 1`). -/
def new (size : Nat) (kin kout : ℚ) : TwoQCache :=
  { max_size := size, kin := kin, kout := kout, count := 0, hits := 0,
    ain := Stack.empty, aout := Stack.empty, am := Stack.empty }

def size (c : TwoQCache) : Nat := c.max_size

def miss_ratio (c : TwoQCache) : ℚ :=
  if c.count > 0 then 1 - c.hits / c.count else 0

def increment_count (c : TwoQCache) : TwoQCache :=
  { c with count := c.count + 1 }

def increment_hits (c : TwoQCache) : TwoQCache :=
  { c with hits := c.hits + 1 }

/-- `current_size()`. -/
def current_size (c : TwoQCache) : Nat :=
  c.ain.size + c.aout.size + c.am.size

/-- `ain_max_size()`: `(kin * max_size as f64) as u64`, i.e. the floor. -/
def ain_max_size (c : TwoQCache) : Nat :=
  ⌊c.kin * (c.max_size : ℚ)⌋₊

/-- `is_aout_full()`. -/
def is_aout_full (c : TwoQCache) : Bool :=
  c.aout.size > ⌊c.kout * (c.max_size : ℚ)⌋₊

/-- `can_ain_fit(object_size)`. -/
def can_ain_fit (c : TwoQCache) (object_size : Nat) : Bool :=
  c.ain.size + object_size ≤ c.ain_max_size

def process_has (c : TwoQCache) (key : Nat) : Bool :=
  c.ain.stack.any (fun o => o.key = key) ∨
  c.aout.stack.any (fun o => o.key = key) ∨
  c.am.stack.any (fun o => o.key = key)

/-- `process_get`: an `Aout` hit promotes to `Am`'s front, an `Am` hit
moves to `Am`'s front, an `Ain` hit does not move. -/
def process_get (c : TwoQCache) (access : Access) : TwoQCache × Bool :=
  match c.aout.removeKey access.key with
  | some (object, aout2) =>
      ({ c with aout := aout2, am := c.am.push_front object }, true)
  | none =>
      match c.am.removeKey access.key with
      | some (object, am2) =>
          ({ c with am := am2.push_front object }, true)
      | none => (c, c.ain.stack.any (fun o => o.key = access.key))

/-- `reduce`'s first loop: while `Ain` is nonempty and cannot fit the
object, demote its tail into `Aout` (fuel: one pass per `Ain` entry). -/
def reduceAinFuel : Nat → TwoQCache → Nat → TwoQCache
  | 0, c, _ => c
  | fuel + 1, c, object_size =>
      if c.ain.is_empty ∨ c.can_ain_fit object_size then c
      else
        match c.ain.pop_back with
        | none => c
        | some (object, ain2) =>
            reduceAinFuel fuel
              { c with ain := ain2, aout := c.aout.push_front object }
              object_size

/-- `reduce`'s second loop: while `Aout` overflows its capacity, or is
nonempty while the total exceeds the target, evict the `Aout` tail. -/
def reduceAoutFuel : Nat → TwoQCache → Nat → TwoQCache
  | 0, c, _ => c
  | fuel + 1, c, target =>
      if c.is_aout_full ∨ (¬ c.aout.is_empty ∧ c.current_size > target) then
        match c.aout.pop_back with
        | none => c
        | some (_, aout2) => reduceAoutFuel fuel { c with aout := aout2 } target
      else c

/-- `reduce`'s third loop: while the total exceeds the target, evict the
`Am` tail. -/
def reduceAmFuel : Nat → TwoQCache → Nat → TwoQCache
  | 0, c, _ => c
  | fuel + 1, c, target =>
      if c.current_size > target then
        match c.am.pop_back with
        | none => c
        | some (_, am2) => reduceAmFuel fuel { c with am := am2 } target
      else c

/-- `reduce`: the three eviction cascades in sequence (`object_size` is
`max_size - target_size`, well-defined for the in-tree callers, which
always pass `target_size ≤ max_size`). -/
def reduce (c : TwoQCache) (target_size : Nat) : TwoQCache :=
  let object_size := c.max_size - target_size
  let c := reduceAinFuel c.ain.stack.length c object_size
  let c := reduceAoutFuel c.aout.stack.length c target_size
  reduceAmFuel c.am.stack.length c target_size

/-- `process_set`: reject oversize or duplicate keys, run the eviction
cascade, then admit into `Ain`. -/
def process_set (c : TwoQCache) (access : Access) : TwoQCache :=
  if access.size > c.max_size ∨ c.process_has access.key then c
  else
    let c := c.reduce (c.max_size - access.size)
    { c with ain := c.ain.push_front ⟨access.key, access.size⟩ }

def process_del (c : TwoQCache) (key : Nat) : TwoQCache :=
  match c.ain.removeKey key with
  | some (_, ain2) => { c with ain := ain2 }
  | none =>
      match c.aout.removeKey key with
      | some (_, aout2) => { c with aout := aout2 }
      | none =>
          match c.am.removeKey key with
          | some (_, am2) => { c with am := am2 }
          | none => c

def resize (c : TwoQCache) (s : Nat) : TwoQCache :=
  let c := c.reduce s
  { c with max_size := s }

def rescale (c : TwoQCache) (ratio : ℚ) : TwoQCache :=
  { c with count := c.count * ratio, hits := c.hits * ratio }

def methods : CacheMethods TwoQCache :=
  { size := size, increment_count := increment_count,
    increment_hits := increment_hits, process_get := process_get,
    process_set := process_set, process_del := process_del,
    process_has := process_has, reduce := reduce, resize := resize }

end TwoQCache

/-! ## LRFU cache (`src/cache/lrfu_cache.rs`)

The CRF weight `f(x) = (1/p)^(λx)` is a transcendental `f64`; the cache is
therefore parameterized by the weight function `f : Nat → ℚ` it stores
(standing for the `p`, `lambda` fields), and the CRF recurrence
`f(0) + f(Δt)·crf` is translated over it.  The `BTreeSet` (ordered by
descending CRF, then descending `last_access`, with key-equal objects
identified) is modelled as the list of its members together with selection
of the `Ord`-greatest member for `pop_last`. -/

/-- `LrfuObject { object, last_access, crf }`. -/
structure LrfuObject where
  object : Object
  last_access : Nat
  crf : ℚ
  deriving Repr, DecidableEq

structure LrfuCache where
  max_size : Nat
  current_size : Nat
  count : ℚ
  hits : ℚ
  stack : List LrfuObject
  f : Nat → ℚ
  intrinsic_timestamp : Nat

namespace LrfuCache

/-- `LrfuCache::new` (the constructor asserts `p ≥ 2`, `0 ≤ λ ≤ 1`). -/
def new (size : Nat) (f : Nat → ℚ) : LrfuCache :=
  { max_size := size, current_size := 0, count := 0, hits := 0,
    stack := [], f := f, intrinsic_timestamp := 0 }

def size (c : LrfuCache) : Nat := c.max_size

def miss_ratio (c : LrfuCache) : ℚ :=
  if c.count > 0 then 1 - c.hits / c.count else 0

def increment_count (c : LrfuCache) : LrfuCache :=
  { c with count := c.count + 1 }

def increment_hits (c : LrfuCache) : LrfuCache :=
  { c with hits := c.hits + 1 }

/-- `get_updated_crf`. -/
def get_updated_crf (c : LrfuCache) (now : Nat) (o : LrfuObject) : ℚ :=
  c.f 0 + c.f (now - o.last_access) * o.crf

def process_has (c : LrfuCache) (key : Nat) : Bool :=
  c.stack.any (fun o => o.object.key = key)

/-- `x` comes after `y` in the `Ord for LrfuObject` order (strictly lower
CRF, or equal CRF and strictly older `last_access`); the set's `pop_last`
removes the `Ord`-greatest element, i.e. the next victim. -/
def ordAfter (x y : LrfuObject) : Bool :=
  x.crf < y.crf ∨ (x.crf = y.crf ∧ x.last_access < y.last_access)

/-- `BTreeSet::pop_last`'s choice: the `Ord`-greatest member. -/
def victim : List LrfuObject → Option LrfuObject
  | [] => none
  | x :: rest => some (rest.foldl (fun acc o => if ordAfter o acc then o else acc) x)

/-- `process_get`: tick the intrinsic clock; on a hit, detach the object,
refresh its CRF and timestamp, and re-insert it. -/
def process_get (c : LrfuCache) (access : Access) : LrfuCache × Bool :=
  let c := { c with intrinsic_timestamp := c.intrinsic_timestamp + 1 }
  match c.stack.find? (fun o => o.object.key = access.key) with
  | none => (c, false)
  | some o =>
      let crf := c.get_updated_crf c.intrinsic_timestamp o
      let o2 : LrfuObject :=
        { o with last_access := c.intrinsic_timestamp, crf := crf }
      ({ c with stack := o2 :: c.stack.erase o }, true)

/-- The eviction loop of `reduce`: pop the `Ord`-greatest (lowest-CRF)
object while over target (fuel: one pass per stored object). -/
def reduceFuel : Nat → LrfuCache → Nat → LrfuCache
  | 0, c, _ => c
  | fuel + 1, c, target =>
      if c.current_size ≤ target then c
      else
        match victim c.stack with
        | none => c
        | some v =>
            reduceFuel fuel
              { c with
                  stack := c.stack.erase v,
                  current_size := c.current_size - v.object.size } target

def reduce (c : LrfuCache) (target_size : Nat) : LrfuCache :=
  reduceFuel c.stack.length c target_size

/-- `process_set`: tick the clock; reject oversize or duplicate keys,
evict, then insert with CRF `f(0)`. -/
def process_set (c : LrfuCache) (access : Access) : LrfuCache :=
  let c := { c with intrinsic_timestamp := c.intrinsic_timestamp + 1 }
  if access.size > c.max_size ∨ c.process_has access.key then c
  else
    let c := c.reduce (c.max_size - access.size)
    let o : LrfuObject :=
      ⟨⟨access.key, access.size⟩, c.intrinsic_timestamp, c.f 0⟩
    { c with
        stack := o :: c.stack,
        current_size := c.current_size + access.size }

/-- `process_del`: tick the clock; remove the keyed object, if present. -/
def process_del (c : LrfuCache) (key : Nat) : LrfuCache :=
  let c := { c with intrinsic_timestamp := c.intrinsic_timestamp + 1 }
  match c.stack.find? (fun o => o.object.key = key) with
  | none => c
  | some o =>
      { c with
          stack := c.stack.erase o,
          current_size := c.current_size - o.object.size }

def resize (c : LrfuCache) (s : Nat) : LrfuCache :=
  let c := c.reduce s
  { c with max_size := s }

def rescale (c : LrfuCache) (ratio : ℚ) : LrfuCache :=
  { c with count := c.count * ratio, hits := c.hits * ratio }

def methods : CacheMethods LrfuCache :=
  { size := size, increment_count := increment_count,
    increment_hits := increment_hits, process_get := process_get,
    process_set := process_set, process_del := process_del,
    process_has := process_has, reduce := reduce, resize := resize }

end LrfuCache

/-! ## The cache state invariants of claim C8

Each cache maintains: the tracked size equals the total size of the stored
objects, the content fits in `max_size`, and the hit counter is
nonnegative and bounded by the access counter.  (2Q additionally carries
its constructor preconditions on `kin`, `kout`.) -/

structure FifoInv (c : FifoCache) : Prop where
  size_eq : c.current_size = sizesSum (fun o => o.size) c.stack
  fit : c.current_size ≤ c.max_size
  hits_nonneg : 0 ≤ c.hits
  hits_le : c.hits ≤ c.count

/-- The total object size held by an LFU bucket list. -/
def lfuTotal (cls : List CountList) : Nat :=
  (cls.map (fun cl => sizesSum (fun o => o.size) cl.list)).sum

structure LfuInv (c : LfuCache) : Prop where
  size_eq : c.current_size = lfuTotal c.count_lists
  nonempty : ∀ cl ∈ c.count_lists, cl.list ≠ []
  fit : c.current_size ≤ c.max_size
  hits_nonneg : 0 ≤ c.hits
  hits_le : c.hits ≤ c.count

/-- A 2Q `Stack`'s size field tracks its contents. -/
def StackInv (s : Stack) : Prop :=
  s.size = sizesSum (fun o => o.size) s.stack

structure TwoQInv (c : TwoQCache) : Prop where
  ain_inv : StackInv c.ain
  aout_inv : StackInv c.aout
  am_inv : StackInv c.am
  kin_pos : 0 < c.kin
  kout_pos : 0 < c.kout
  ksum : c.kin + c.kout ≤ 1
  fit : c.current_size ≤ c.max_size
  hits_nonneg : 0 ≤ c.hits
  hits_le : c.hits ≤ c.count

structure LrfuInv (c : LrfuCache) : Prop where
  size_eq : c.current_size = sizesSum (fun o => o.object.size) c.stack
  fit : c.current_size ≤ c.max_size
  hits_nonneg : 0 ≤ c.hits
  hits_le : c.hits ≤ c.count

/-! ## Kosmo's eviction driver (`kosmo.rs` and `kosmo/evictions.rs`) -/

/-- Constant `MIN_RECONSTRUCTED_STACK_SIZE` of `kosmo.rs`. -/
def MIN_RECONSTRUCTED_STACK_SIZE : Nat := 1024

/-- Constant `GRANULARITY` of `kosmo.rs`. -/
def GRANULARITY : Nat := 10

/-- Ceiling division on naturals, modelling
`(simulate_size as f64 / granularity as f64).ceil() as u64` (exact for
the value ranges in play). -/
def ceilDiv (a b : Nat) : Nat := (a + b - 1) / b

/-- The `step_size` computation of `Kosmo::perform_evictions`:
`math::max(&[MIN_RECONSTRUCTED_STACK_SIZE, access.size, ceil(simulate/granularity)])`. -/
def stepSize (granularity accessSize simulate : Nat) : Nat :=
  max (max MIN_RECONSTRUCTED_STACK_SIZE accessSize) (ceilDiv simulate granularity)

/-- Rust's `(lo..hi).step_by(step)` iterator, fuel-recursive (the fuel
`hi` suffices whenever `0 < step`). -/
def stepRange : Nat → Nat → Nat → Nat → List Nat
  | 0, _, _, _ => []
  | fuel + 1, lo, hi, step =>
      if lo < hi then lo :: stepRange fuel (lo + step) hi step else []

/-- The cache-size sequence
`(step_size..(simulate_size + step_size)).step_by(step_size)` of
`Kosmo::perform_evictions`. -/
def cacheSizes (step simulate : Nat) : List Nat :=
  stepRange (simulate + step) step (simulate + step) step

/-- `Evictions` (`kosmo/evictions.rs`): per policy, the pending eviction
keys (a `Vec`, popped from the back) and the `FxHashSet` of keys already
handed out, modelled as a list. -/
structure Evictions where
  policy_evictions : List (List Nat)
  evicted_policy_keys : List (List Nat)

/-- `Evictions::new`: one pending list per stack, fresh empty sets. -/
def Evictions.new (ls : List (List Nat)) : Evictions :=
  ⟨ls, ls.map fun _ => []⟩

/-- `Evictions::get_key`: pop the back of the indexed pending list
(`pop()?`); if `save_key` reports the key was already present the call
returns `None` (with the popped element still consumed). -/
def Evictions.get_key (e : Evictions) (i : Nat) : Option Nat × Evictions :=
  match (e.policy_evictions.getD i []).getLast? with
  | none => (none, e)
  | some k =>
      let e2 : Evictions :=
        { e with policy_evictions :=
            e.policy_evictions.set i (e.policy_evictions.getD i []).dropLast }
      if k ∈ e2.evicted_policy_keys.getD i [] then (none, e2)
      else
        (some k,
          { e2 with evicted_policy_keys :=
              e2.evicted_policy_keys.set i (k :: e2.evicted_policy_keys.getD i []) })

/-- One `eviction_maps[index].insert(cache_size)` call on an object's
eviction-map vector, with the per-policy map type and its insert
abstracted as `M` and `ins` (an out-of-range index, unreachable in the
source, is a no-op). -/
def setIns {M : Type} (ins : M → Nat → M) (maps : List M) (i size : Nat) :
    List M :=
  match maps[i]? with
  | some m => maps.set i (ins m size)
  | none => maps

/-- Effect of `Kosmo::evict_with_key` on a single global-table entry. -/
def entryEvict {M : Type} (ins : M → Nat → M) (i k size : Nat)
    (p : Nat × List M) : Nat × List M :=
  if p.1 = k then (p.1, setIns ins p.2 i size) else p

/-- `Kosmo::evict_with_key`: `global_table.get_mut(&key)` then
`evict_by_policy_index(policy_index, cache_size)`; absent keys are
skipped by the `if let`.  The `FxHashMap` is an association list. -/
def evict_with_key {M : Type} (ins : M → Nat → M) (t : List (Nat × List M))
    (i k size : Nat) : List (Nat × List M) :=
  t.map (entryEvict ins i k size)

/-- The `while let Some(key) = evictions.get_key(policy_index)` drain of
`Kosmo::perform_evictions` (fuel: the pending list shrinks by one per
iteration). -/
def drainLoop {M : Type} (ins : M → Nat → M) :
    Nat → Evictions → Nat → Nat → List (Nat × List M) →
      Evictions × List (Nat × List M)
  | 0, e, _, _, t => (e, t)
  | fuel + 1, e, i, size, t =>
      match e.get_key i with
      | (none, e2) => (e2, t)
      | (some k, e2) => drainLoop ins fuel e2 i size (evict_with_key ins t i k size)

/-- The `for policy_index in 0..self.policies.len()` loop of
`Kosmo::perform_evictions` at one cache size. -/
def applyEvictionsAt {M : Type} (ins : M → Nat → M) (nPolicies : Nat)
    (e : Evictions) (size : Nat) (t : List (Nat × List M)) :
    Evictions × List (Nat × List M) :=
  (List.range nPolicies).foldl
    (fun p i => drainLoop ins (p.1.policy_evictions.getD i []).length p.1 i size p.2)
    (e, t)

/-- `Kosmo::perform_evictions`, parameterized over the per-size stack
reconstruction `reconstruct` (the per-policy `get_evictions` results of
`Kosmo::reconstruct_policy_stacks`) and the eviction-map insert `ins`:
compute `step_size`, return early if it exceeds `simulate_size`, build
one `Evictions` per cache size, then apply them with
`.enumerate().rev()` at `cache_size = (index + 1) * step_size`. -/
def perform_evictions {M : Type} (ins : M → Nat → M)
    (nPolicies granularity : Nat) (reconstruct : Nat → List (List Nat))
    (t : List (Nat × List M)) (accessSize simulate : Nat) :
    List (Nat × List M) :=
  let step := stepSize granularity accessSize simulate
  if step > simulate then t
  else
    let evlist := (cacheSizes step simulate).map fun s => Evictions.new (reconstruct s)
    (List.range evlist.length).reverse.foldl
      (fun t2 idx =>
        (applyEvictionsAt ins nPolicies (evlist.getD idx (Evictions.new []))
          ((idx + 1) * step) t2).2) t

/-- Slotwise index map, used to state the final shape of the global
table after `perform_evictions`. -/
def mapSlots {M : Type} (f : Nat → M → M) : Nat → List M → List M
  | _, [] => []
  | i, m :: rest => f i m :: mapSlots f (i + 1) rest

/-- The cache sizes (among `sizes`, in ascending order) at which a key
is emitted as an eviction for a given policy. -/
def emittedSizes (reconstruct : Nat → List (List Nat)) (sizes : List Nat)
    (k i : Nat) : List Nat :=
  sizes.filter fun s => decide (k ∈ (reconstruct s).getD i [])

/-! ## Spec-side definitions used in amended claim statements -/

/-- The claim's description of the lookup: the point with the greatest
size `≤ size` (on the ascending point list, the last matching entry). -/
def specGreatestPointLE (points : List (Nat × ℚ)) (size : Nat) :
    Option (Nat × ℚ) :=
  (points.filter (fun p => p.1 ≤ size)).getLast?

/-- The amended claim's closed form of the corrected fold: after the bucket
with prefix count sum `S` the running count is `max 0 (S + correction)` —
a positive correction is added in full at the first bucket, a negative one
clamps the running count at `0` until the cumulative counts cover it. -/
def specCorrectedLoop (total c : ℚ) (acc : ℚ) : List Bucket → List (Nat × ℚ)
  | [] => []
  | b :: rest =>
      (b.size, 1 - max 0 (acc + b.count + c) / total) ::
        specCorrectedLoop total c (acc + b.count) rest

/-- The reachable `(current, correction)` pairs of the fold, relative to the
prefix sum `acc` of the consumed bucket counts and the initial correction
`c`. -/
def corrState (c acc current correction : ℚ) : Prop :=
  (current = max 0 (acc + c) ∧ correction = min 0 (acc + c)) ∨
  (acc = 0 ∧ current = 0 ∧ correction = c)

end Kosmo

namespace Kosmo

/-! ## Claim C3 (cold accesses versus `get_total`) -/

theorem coldIncrements_total (h : Histogram) (k : Nat) :
    (h.coldIncrements none k).get_total = h.get_total + k := by
  induction k generalizing h with
  | zero => simp [Histogram.coldIncrements]
  | succ n ih =>
      rw [Histogram.coldIncrements, ih]
      simp only [Histogram.increment, Histogram.get_total, Bucket.increment]
      push_cast
      ring

/-- C3 counterexample: the claim predicts `get_total() = k` after `k` cold
increments with SHARDS inactive; already at `k = 0` a fresh histogram has
`get_total() = 1`, because `Bucket::new` initializes the infinity bucket's
count to `1.0`. -/
theorem c3_counterexample :
    ¬ ((Histogram.new none).coldIncrements none 0).get_total = 0 := by
  simp [Histogram.new, Histogram.coldIncrements, Histogram.get_total,
    Bucket.new]

/-- C3 (amended): with SHARDS inactive, after exactly `k` cold increments a
fresh histogram has `get_total() = k + 1` — the infinity bucket is
constructed with count `1.0` and each cold access adds `1`. -/
theorem c3_cold_access_total (k : Nat) :
    ((Histogram.new none).coldIncrements none k).get_total = k + 1 := by
  rw [coldIncrements_total]
  simp [Histogram.new, Histogram.get_total, Bucket.new]
  ring

/-! ## Claim C5 (`Curve::get_miss_ratio` lookup semantics) -/


theorem upperBoundPrev_eq_getLast_filter (l : List (Nat × ℚ)) (s : Nat)
    (hl : l.Pairwise (fun a b => a.1 < b.1)) :
    Curve.upperBoundPrev l s = (l.filter (fun p => p.1 ≤ s)).getLast? := by
  induction l with
  | nil => rfl
  | cons p rest ih =>
      rw [List.pairwise_cons] at hl
      obtain ⟨hp, hrest⟩ := hl
      rw [Curve.upperBoundPrev]
      by_cases hps : p.1 ≤ s
      · rw [if_pos hps, List.filter_cons_of_pos (by simpa using hps), ih hrest]
        cases hfr : rest.filter (fun q => decide (q.1 ≤ s)) with
        | nil => simp
        | cons q t =>
            rw [List.getLast?_cons_cons]
            cases e : (q :: t).getLast? with
            | none => simp [List.getLast?_eq_none_iff] at e
            | some x => simp
      · rw [if_neg hps, List.filter_cons_of_neg (by simpa using hps)]
        have hnil : rest.filter (fun q => decide (q.1 ≤ s)) = [] := by
          rw [List.filter_eq_nil_iff]
          intro a ha
          have := hp a ha
          simp only [decide_eq_true_eq]
          omega
        rw [hnil]
        rfl

theorem lowerBoundNext_none (l : List (Nat × ℚ)) (s : Nat)
    (h : Curve.lowerBoundNext l s = none) : ∀ q ∈ l, q.1 < s := by
  induction l with
  | nil => intro q hq; cases hq
  | cons p rest ih =>
      rw [Curve.lowerBoundNext] at h
      by_cases hps : s ≤ p.1
      · rw [if_pos hps] at h; cases h
      · rw [if_neg hps] at h
        intro q hq
        rcases List.mem_cons.mp hq with hq | hq
        · subst hq; omega
        · exact ih h q hq

theorem lowerBoundNext_key_eq (l : List (Nat × ℚ)) (s : Nat)
    (q : Nat × ℚ) (hl : l.Pairwise (fun a b => a.1 < b.1))
    (hq : Curve.lowerBoundNext l s = some q) (hqs : q.1 = s) :
    Curve.upperBoundPrev l s = some q := by
  induction l with
  | nil => cases hq
  | cons p rest ih =>
      rw [List.pairwise_cons] at hl
      obtain ⟨hp, hrest⟩ := hl
      rw [Curve.lowerBoundNext] at hq
      rw [Curve.upperBoundPrev]
      by_cases hps : s ≤ p.1
      · rw [if_pos hps] at hq
        injection hq with hq
        subst hq
        rw [if_pos (le_of_eq hqs)]
        have hnone : Curve.upperBoundPrev rest s = none := by
          cases hr : rest with
          | nil => rfl
          | cons r t =>
              have hrgt : p.1 < r.1 := hp r (by rw [hr]; exact List.mem_cons_self r t)
              rw [Curve.upperBoundPrev, if_neg (by omega)]
        rw [hnone]
        rfl
      · rw [if_neg hps] at hq
        have hple : q.1 ≤ s := le_of_eq hqs
        rw [if_pos (by omega : p.1 ≤ s)]
        rw [ih hrest hq]
        rfl

/-- C5: for every curve whose points are ascending in size (the B-tree map
invariant) and every size `s`, `get_miss_ratio(s)` returns the miss ratio
of the point with the greatest size `≤ s`, and `1.0` when no such point
exists (in particular on an empty curve). -/
theorem c5_get_miss_ratio_lookup (c : Curve) (s : Nat)
    (hsorted : c.points.Pairwise (fun a b => a.1 < b.1)) :
    c.get_miss_ratio s =
      ((specGreatestPointLE c.points s).map Prod.snd).getD 1 := by
  have hub := upperBoundPrev_eq_getLast_filter c.points s hsorted
  rw [Curve.get_miss_ratio, specGreatestPointLE]
  cases hu : Curve.upperBoundPrev c.points s with
  | none =>
      cases hn : Curve.lowerBoundNext c.points s with
      | none =>
          have hempty : c.points = [] := by
            cases hpts : c.points with
            | nil => rfl
            | cons p rest =>
                exfalso
                have h1 : p.1 < s :=
                  lowerBoundNext_none _ s (hpts ▸ hn) p (List.mem_cons_self p rest)
                rw [hpts, Curve.upperBoundPrev, if_pos (le_of_lt h1)] at hu
                cases hu
          rw [hempty]
          rfl
      | some q =>
          by_cases hqs : s = q.1
          · exfalso
            have := lowerBoundNext_key_eq c.points s q hsorted hn hqs.symm
            rw [hu] at this
            cases this
          · dsimp only
            rw [if_neg hqs, ← hub, hu]
            rfl
  | some q =>
      cases hn : Curve.lowerBoundNext c.points s with
      | some r =>
          by_cases hrs : s = r.1
          · dsimp only
            rw [if_pos hrs]
            have hur := lowerBoundNext_key_eq c.points s r hsorted hn hrs.symm
            rw [hu] at hur
            injection hur with hur
            rw [← hur, ← hub, hu]
            rfl
          · dsimp only
            rw [if_neg hrs, ← hub, hu]
            rfl
      | none =>
          dsimp only
          rw [← hub, hu]
          rfl

/-- C5 witness: lookup at `s = 3` in the two-point curve
`{(2, 1/2), (5, 1/4)}` returns the miss ratio `1/2` of the greatest point
`≤ 3`. -/
theorem c5_witness :
    Curve.get_miss_ratio ⟨[(2, 1/2), (5, 1/4)]⟩ 3 =
      ((specGreatestPointLE [(2, 1/2), (5, 1/4)] 3).map Prod.snd).getD 1 :=
  c5_get_miss_ratio_lookup ⟨[(2, 1/2), (5, 1/4)]⟩ 3 (by
    refine List.Pairwise.cons ?_ ?_
    · intro b hb
      rcases List.mem_singleton.mp hb with rfl
      decide
    · exact List.pairwise_singleton _ _)

/-! ## Claim C4 (`Curve::from_corrected_histogram` correction folding) -/



theorem corr_step (c acc x current correction : ℚ) (hx : 0 ≤ x)
    (hacc : 0 ≤ acc) (h : corrState c acc current correction) :
    (if correction > 0 ∨ |correction| < current + x then
      (current + x + correction, (0 : ℚ))
    else if correction < 0 then ((0 : ℚ), correction + (current + x))
    else (current + x, correction)) =
      (max 0 (acc + x + c), min 0 (acc + x + c)) := by
  rcases h with ⟨hcur, hcor⟩ | ⟨ha, hcur, hcor⟩
  · rcases le_total 0 (acc + c) with hA | hA
    · rw [max_eq_right hA] at hcur
      rw [min_eq_left hA] at hcor
      have hM : max 0 (acc + x + c) = acc + x + c := max_eq_right (by linarith)
      have hm : min 0 (acc + x + c) = 0 := min_eq_left (by linarith)
      split_ifs with h1 h2
      · rw [hM, hm, Prod.mk.injEq]
        constructor <;> linarith
      · rw [hcor] at h2
        exact absurd h2 (lt_irrefl 0)
      · push_neg at h1
        obtain ⟨-, h1b⟩ := h1
        rw [hcor, abs_zero] at h1b
        rw [hM, hm, Prod.mk.injEq]
        constructor <;> linarith
    · rw [max_eq_left hA] at hcur
      rw [min_eq_right hA] at hcor
      have habs : |correction| = -(acc + c) := by
        rw [hcor]
        exact abs_of_nonpos hA
      split_ifs with h1 h2
      · rcases h1 with h1 | h1
        · rcases lt_or_eq_of_le hA with hA' | hA'
          · rw [hcor] at h1
            exact absurd h1 (not_lt.mpr (le_of_lt hA'))
          · rw [hcor, ← hA'] at h1
            exact absurd h1 (lt_irrefl _)
        · rw [habs, hcur] at h1
          have hM : max 0 (acc + x + c) = acc + x + c :=
            max_eq_right (by linarith)
          have hm : min 0 (acc + x + c) = 0 := min_eq_left (by linarith)
          rw [hM, hm, Prod.mk.injEq]
          constructor <;> linarith
      · push_neg at h1
        obtain ⟨-, h1b⟩ := h1
        rw [habs, hcur] at h1b
        have hM : max 0 (acc + x + c) = 0 := max_eq_left (by linarith)
        have hm : min 0 (acc + x + c) = acc + x + c :=
          min_eq_right (by linarith)
        rw [hM, hm, Prod.mk.injEq]
        constructor <;> linarith
      · push_neg at h1
        obtain ⟨h1a, h1b⟩ := h1
        have hc0 : correction = 0 := le_antisymm h1a (not_lt.mp h2)
        have hA0 : acc + c = 0 := by
          rw [hcor] at hc0
          linarith [min_eq_right hA, hc0]
        rw [hc0, abs_zero] at h1b
        have hx0 : current + x = 0 := le_antisymm h1b (by linarith)
        have hM : max 0 (acc + x + c) = 0 := max_eq_left (by linarith)
        have hm : min 0 (acc + x + c) = acc + x + c := min_eq_right (by linarith)
        rw [hM, hm, Prod.mk.injEq]
        constructor <;> linarith
  · subst ha
    rw [hcur, hcor]
    split_ifs with h1 h2
    · have hxc : 0 ≤ x + c := by
        rcases h1 with h1 | h1
        · linarith
        · have := neg_abs_le c
          linarith
      have hM : max 0 (0 + x + c) = 0 + x + c := max_eq_right (by linarith)
      have hm : min 0 (0 + x + c) = 0 := min_eq_left (by linarith)
      rw [hM, hm, Prod.mk.injEq]
      constructor <;> linarith
    · push_neg at h1
      obtain ⟨-, h1b⟩ := h1
      rw [abs_of_nonpos (le_of_lt h2)] at h1b
      have hxc : x + c ≤ 0 := by linarith
      have hM : max 0 (0 + x + c) = 0 := max_eq_left (by linarith)
      have hm : min 0 (0 + x + c) = 0 + x + c := min_eq_right (by linarith)
      rw [hM, hm, Prod.mk.injEq]
      constructor <;> linarith
    · push_neg at h1
      obtain ⟨h1a, h1b⟩ := h1
      have hc0 : c = 0 := le_antisymm h1a (not_lt.mp h2)
      rw [hc0, abs_zero] at h1b
      have hx0 : x = 0 := le_antisymm (by linarith) hx
      have hM : max 0 (0 + x + c) = 0 := max_eq_left (by linarith)
      have hm : min 0 (0 + x + c) = 0 + x + c := min_eq_right (by linarith)
      rw [hM, hm, Prod.mk.injEq]
      constructor <;> linarith

theorem btreeInsert_append (k : Nat) (v : ℚ) (l : List (Nat × ℚ))
    (h : ∀ p ∈ l, p.1 < k) : Curve.btreeInsert k v l = l ++ [(k, v)] := by
  induction l with
  | nil => rfl
  | cons p rest ih =>
      have hp : p.1 < k := h p (List.mem_cons_self p rest)
      rw [Curve.btreeInsert, if_neg (by omega), if_neg (by omega)]
      rw [ih (fun q hq => h q (List.mem_cons_of_mem p hq))]
      rfl

theorem correctedLoop_eq_spec (total c : ℚ) (bs : List Bucket)
    (points : List (Nat × ℚ)) (acc current correction : ℚ)
    (hcounts : ∀ b ∈ bs, 0 ≤ b.count)
    (hacc : 0 ≤ acc)
    (hstate : corrState c acc current correction)
    (hkeys : ∀ p ∈ points, ∀ b ∈ bs, p.1 < b.size)
    (hsorted : bs.Pairwise (fun a b => a.size < b.size)) :
    Curve.correctedLoop total bs points current correction =
      points ++ specCorrectedLoop total c acc bs := by
  induction bs generalizing points acc current correction with
  | nil => rw [Curve.correctedLoop, specCorrectedLoop, List.append_nil]
  | cons b rest ih =>
      rw [List.pairwise_cons] at hsorted
      obtain ⟨hb, hrest⟩ := hsorted
      have hbc : 0 ≤ b.count := hcounts b (List.mem_cons_self b rest)
      have hstep := corr_step c acc b.count current correction hbc hacc hstate
      rw [Curve.correctedLoop, specCorrectedLoop]
      simp only [hstep]
      rw [btreeInsert_append b.size _ points
        (fun p hp => hkeys p hp b (List.mem_cons_self b rest))]
      rw [ih (points ++ [(b.size, 1 - max 0 (acc + b.count + c) / total)])
        (acc + b.count) _ _
        (fun b' hb' => hcounts b' (List.mem_cons_of_mem b hb'))
        (by linarith)
        (Or.inl ⟨rfl, rfl⟩)
        ?_ hrest]
      · rw [List.append_assoc]
        rfl
      · intro p hp b' hb'
        rcases List.mem_append.mp hp with hp | hp
        · exact hkeys p hp b' (List.mem_cons_of_mem b hb')
        · rcases List.mem_singleton.mp hp with rfl
          exact hb b' hb'

/-- C4 counterexample: with infinity count `1`, buckets
`(65536 ↦ 1), (131072 ↦ 10)` and a positive correction `+5`, the claim says
the correction is added only after the first bucket whose own contribution
exceeds `5`, so the first emitted point would be `1 - 1/17`; the code adds
the positive correction already at the first bucket (`current = 6`),
emitting `1 - 6/17`. -/
theorem c4_counterexample :
    (Curve.from_corrected_histogram
        ⟨⟨0, 1, 0⟩, [⟨65536, 1, 0⟩, ⟨131072, 10, 0⟩]⟩ 5).points.head?
      ≠ some (65536, 1 - 1/17) := by
  norm_num [Curve.from_corrected_histogram, Curve.correctedLoop,
    Curve.btreeInsert, Histogram.get_corrected_total]

/-- C4 (amended): `from_corrected_histogram` emits, over buckets in
ascending size order, points `(size_i, 1 - current_i/total)` where
`current_i = max 0 (S_i + correction)` for the prefix count sum `S_i`; a
positive correction is therefore added exactly once, at the first bucket
regardless of its contribution, and a negative correction clamps the
running count at `0` until the accumulated counts pay it down. -/
theorem c4_corrected_histogram_fold (h : Histogram) (correction : ℤ)
    (hsorted : h.buckets.Pairwise (fun a b => a.size < b.size))
    (hcounts : ∀ b ∈ h.buckets, 0 ≤ b.count) :
    (Curve.from_corrected_histogram h correction).points =
      specCorrectedLoop (h.get_corrected_total correction) (correction : ℚ)
        0 h.buckets := by
  rw [Curve.from_corrected_histogram]
  rw [correctedLoop_eq_spec _ _ _ [] 0 0 _ hcounts le_rfl
    (Or.inr ⟨rfl, rfl, rfl⟩) (fun p hp => absurd hp (List.not_mem_nil p))
    hsorted]
  rfl

/-- C4 witness: the counterexample histogram under the amended statement —
the first point carries the full positive correction. -/
theorem c4_witness :
    (Curve.from_corrected_histogram
        ⟨⟨0, 1, 0⟩, [⟨65536, 1, 0⟩, ⟨131072, 10, 0⟩]⟩ 5).points =
      specCorrectedLoop
        (Histogram.get_corrected_total
          ⟨⟨0, 1, 0⟩, [⟨65536, 1, 0⟩, ⟨131072, 10, 0⟩]⟩ 5) ((5 : ℤ) : ℚ) 0
        [⟨65536, 1, 0⟩, ⟨131072, 10, 0⟩] :=
  c4_corrected_histogram_fold ⟨⟨0, 1, 0⟩, [⟨65536, 1, 0⟩, ⟨131072, 10, 0⟩]⟩ 5
    (by
      refine List.Pairwise.cons ?_ ?_
      · intro b hb
        rcases List.mem_singleton.mp hb with rfl
        decide
      · exact List.pairwise_singleton _ _)
    (by
      intro b hb
      rcases List.mem_cons.mp hb with rfl | hb
      · norm_num
      · rcases List.mem_singleton.mp hb with rfl
        norm_num)

/-! ## Claim C2 (LRU eviction map `update`/`insert` versus `exists_at`) -/

/-- C2 counterexample: the claim says that after any `update` (re-access)
`exists_at(s)` is true for every `s ≥ 1`.  With `access.size = 4` the code
sets `evicted_size = 3`, so `exists_at(1)` is `false` (the repository's own
unit test asserts exactly this). -/
theorem c2_counterexample :
    LruEvictionMap.exists_at
      (LruEvictionMap.update (LruEvictionMap.new ⟨0, 0, 1⟩) ⟨0, 0, 4⟩) 1
      = false := by
  decide

/-- C2 (amended): after `update` with an access of positive size,
`exists_at(s)` is true exactly for `s ≥ access.size` (so for every `s ≥ 1`
only when `access.size = 1`); after `insert(k)`, `exists_at(s)` is false for
every `s ≤ k`. -/
theorem c2_lru_eviction_map_update_insert
    (m m' : LruEvictionMap) (access : Access) (k s : Nat)
    (hsize : 1 ≤ access.size) :
    ((m.update access).exists_at s = true ↔ access.size ≤ s) ∧
    (s ≤ k → (m'.insert k).exists_at s = false) := by
  constructor
  · simp only [LruEvictionMap.update, LruEvictionMap.exists_at,
      decide_eq_true_eq]
    omega
  · intro hk
    simp only [LruEvictionMap.insert, LruEvictionMap.exists_at,
      decide_eq_false_iff_not]
    omega

/-- C2 witness: instantiation at `access.size = 3`, `s = 3`, `k = 5`. -/
theorem c2_witness :
    ((LruEvictionMap.update ⟨7⟩ ⟨0, 0, 3⟩).exists_at 3 = true ↔ 3 ≤ 3) ∧
    (3 ≤ 5 → (LruEvictionMap.insert ⟨7⟩ 5).exists_at 3 = false) :=
  c2_lru_eviction_map_update_insert ⟨7⟩ ⟨7⟩ ⟨0, 0, 3⟩ 5 3 (by decide)

/-! ## Claim C7 (fixed-rate SHARDS sampling) -/

theorem sampleAll_global_t (hash : Nat → Nat) (s : ShardsFixedRate)
    (l : List Access) :
    (ShardsFixedRate.sampleAll hash s l).global_t = s.global_t := by
  induction l generalizing s with
  | nil => rfl
  | cons a rest ih =>
      rw [ShardsFixedRate.sampleAll]
      rw [ih]
      unfold ShardsFixedRate.sample
      unfold sample_key
      dsimp only
      by_cases h : hash a.key % MODULUS < s.global_t
      · simp [h]
      · simp [h]

theorem sampleAll_counts (hash : Nat → Nat) (s : ShardsFixedRate)
    (l : List Access) (h : s.sampled_count ≤ s.total_count) :
    (ShardsFixedRate.sampleAll hash s l).sampled_count ≤
      (ShardsFixedRate.sampleAll hash s l).total_count := by
  induction l generalizing s with
  | nil => exact h
  | cons a rest ih =>
      rw [ShardsFixedRate.sampleAll]
      apply ih
      unfold ShardsFixedRate.sample
      unfold sample_key
      dsimp only
      by_cases hs : hash a.key % MODULUS < s.global_t
      · simp [hs]; omega
      · simp [hs]; omega

/-- C7: for fixed-rate SHARDS — with the external 128-bit hash an explicit
parameter — `sample` returns `true` iff the hash of the key mod 2²⁴ is
strictly below `global_t`; every call increments `total_count` and
`sampled_count` is incremented exactly on calls returning `true`; after any
sequence of `sample` calls starting from `new(global_t)` we have
`sampled_count ≤ total_count`; and `get_expected_count()` is the floor of
`rate · total_count` where `rate = global_t / 2²⁴`. -/
theorem c7_shards_fixed_rate_sampling
    (hash : Nat → Nat) (s : ShardsFixedRate) (access : Access)
    (global_t : Nat) (l : List Access) :
    ((ShardsFixedRate.sample hash s access).2 = true ↔
      hash access.key % MODULUS < s.global_t) ∧
    ((ShardsFixedRate.sample hash s access).1.total_count
      = s.total_count + 1) ∧
    ((ShardsFixedRate.sample hash s access).1.sampled_count =
      if (ShardsFixedRate.sample hash s access).2
      then s.sampled_count + 1 else s.sampled_count) ∧
    ((ShardsFixedRate.sampleAll hash (ShardsFixedRate.new global_t) l).sampled_count
      ≤ (ShardsFixedRate.sampleAll hash (ShardsFixedRate.new global_t) l).total_count) ∧
    (∀ s' : ShardsFixedRate,
      s'.get_expected_count = ⌊s'.get_rate * s'.total_count⌋₊) := by
  refine ⟨?_, ?_, ?_, ?_, ?_⟩
  · unfold ShardsFixedRate.sample sample_key
    dsimp only
    by_cases hs : hash access.key % MODULUS < s.global_t
    · simp [hs]
    · simp [hs]
  · unfold ShardsFixedRate.sample sample_key
    dsimp only
    by_cases hs : hash access.key % MODULUS < s.global_t
    · simp [hs]
    · simp [hs]
  · unfold ShardsFixedRate.sample sample_key
    dsimp only
    by_cases hs : hash access.key % MODULUS < s.global_t
    · simp [hs]
    · simp [hs]
  · exact sampleAll_counts hash _ l (Nat.zero_le _)
  · intro s'
    unfold ShardsFixedRate.get_expected_count ShardsFixedRate.get_rate
    rw [div_mul_eq_mul_div]
    rw [show ((s'.global_t : ℚ) * s'.total_count) =
      ((s'.global_t * s'.total_count : Nat) : ℚ) by push_cast; ring]
    rw [Nat.floor_div_nat]
    rw [Nat.floor_natCast]

/-- C7 witness: a concrete hash, state and access discharging the (vacuous)
hypothesis structure by direct application. -/
theorem c7_witness :
    ((ShardsFixedRate.sample (fun k => k) ⟨100, 0, 0⟩ ⟨0, 7, 1⟩).2 = true ↔
      (fun k : Nat => k) 7 % MODULUS < 100) ∧
    ((ShardsFixedRate.sample (fun k => k) ⟨100, 0, 0⟩ ⟨0, 7, 1⟩).1.total_count
      = 0 + 1) ∧
    ((ShardsFixedRate.sample (fun k => k) ⟨100, 0, 0⟩ ⟨0, 7, 1⟩).1.sampled_count =
      if (ShardsFixedRate.sample (fun k => k) ⟨100, 0, 0⟩ ⟨0, 7, 1⟩).2
      then 0 + 1 else 0) ∧
    ((ShardsFixedRate.sampleAll (fun k => k) (ShardsFixedRate.new 100)
        [⟨0, 7, 1⟩]).sampled_count ≤
      (ShardsFixedRate.sampleAll (fun k => k) (ShardsFixedRate.new 100)
        [⟨0, 7, 1⟩]).total_count) ∧
    (∀ s' : ShardsFixedRate,
      s'.get_expected_count = ⌊s'.get_rate * s'.total_count⌋₊) :=
  c7_shards_fixed_rate_sampling (fun k => k) ⟨100, 0, 0⟩ ⟨0, 7, 1⟩ 100 [⟨0, 7, 1⟩]

/-! ## Claim C6 (fixed-size SHARDS `get_removal`) -/

/-- C6: for fixed-size SHARDS, `get_removal()` returns `None` (and leaves
the state untouched) whenever the sampled-entry set holds at most `s_max`
entries; otherwise it returns the key of the entry with the largest hash
value `t`, removes that entry, lowers `global_t` to that entry's `t`, and a
repeated call with the set back within capacity returns `None` (the
notification drains on read).  The hypotheses are the `BTreeSet` iteration
invariant (strictly descending `t`) and the sampling invariant that every
stored `t` is below `global_t`. -/
theorem c6_fixed_size_get_removal (s : ShardsFixedSize)
    (hsorted : s.entries.Pairwise (fun a b => b.t < a.t))
    (hlt : ∀ e ∈ s.entries, e.t < s.global_t) :
    (s.entries.length ≤ s.s_max → s.get_removal = (s, none)) ∧
    (s.s_max < s.entries.length →
      ∃ e rest, s.entries = e :: rest ∧
        (s.get_removal).2 = some e.key ∧
        (∀ x ∈ s.entries, x.t ≤ e.t) ∧
        (s.get_removal).1.entries = rest ∧
        (s.get_removal).1.global_t = e.t ∧
        (s.get_removal).1.global_t < s.global_t ∧
        (rest.length ≤ s.s_max →
          (s.get_removal).1.get_removal = ((s.get_removal).1, none))) := by
  constructor
  · intro hle
    rw [ShardsFixedSize.get_removal, if_pos hle]
  · intro hgt
    cases hent : s.entries with
    | nil =>
        rw [hent] at hgt
        exact absurd hgt (by simp)
    | cons e rest =>
        have hred : s.get_removal =
            ({ s with
                global_t := e.t,
                entries := rest,
                keys := s.keys.filter (· ≠ e.key),
                expected_count :=
                  s.expected_count +
                    (s.total_count : ℚ) * ((e.t : ℚ) / (MODULUS : ℚ)),
                total_count := 0 }, some e.key) := by
          rw [ShardsFixedSize.get_removal, if_neg (not_le.mpr hgt), hent]
          rfl
        refine ⟨e, rest, rfl, ?_, ?_, ?_, ?_, ?_, ?_⟩
        · rw [hred]
        · intro x hx
          rw [hent] at hsorted
          rw [List.pairwise_cons] at hsorted
          rcases List.mem_cons.mp hx with rfl | hx
          · exact le_rfl
          · exact le_of_lt (hsorted.1 x hx)
        · rw [hred]
        · rw [hred]
        · rw [hred]
          exact hlt e (by rw [hent]; exact List.mem_cons_self e rest)
        · intro hrest
          rw [hred]
          rw [ShardsFixedSize.get_removal, if_pos hrest]

/-- C6 witness: a state at capacity `s_max = 1` holding two entries with
hashes `80 > 10`; `get_removal` evicts the key of the `t = 80` entry and
lowers `global_t` from `100` to `80`. -/
theorem c6_witness :
    (exampleFixedSizeState.entries.length ≤ exampleFixedSizeState.s_max →
      exampleFixedSizeState.get_removal = (exampleFixedSizeState, none)) ∧
    (exampleFixedSizeState.s_max < exampleFixedSizeState.entries.length →
      ∃ e rest, exampleFixedSizeState.entries = e :: rest ∧
        (exampleFixedSizeState.get_removal).2 = some e.key ∧
        (∀ x ∈ exampleFixedSizeState.entries, x.t ≤ e.t) ∧
        (exampleFixedSizeState.get_removal).1.entries = rest ∧
        (exampleFixedSizeState.get_removal).1.global_t = e.t ∧
        (exampleFixedSizeState.get_removal).1.global_t <
          exampleFixedSizeState.global_t ∧
        (rest.length ≤ exampleFixedSizeState.s_max →
          (exampleFixedSizeState.get_removal).1.get_removal =
            ((exampleFixedSizeState.get_removal).1, none))) :=
  c6_fixed_size_get_removal exampleFixedSizeState
    (by
      refine List.Pairwise.cons ?_ ?_
      · intro b hb
        rcases List.mem_singleton.mp hb with rfl
        decide
      · exact List.pairwise_singleton _ _)
    (by
      intro e he
      rcases List.mem_cons.mp he with rfl | he
      · decide
      · rcases List.mem_singleton.mp he with rfl
        decide)

/-! ## Claim C10 (fixed-size entries are keyed by `t`, not by key) -/

theorem mem_entriesInsert (x e : Entry) (l : List Entry)
    (h : x ∈ entriesInsert e l) : x = e ∨ x ∈ l := by
  induction l with
  | nil =>
      rw [entriesInsert] at h
      rcases List.mem_singleton.mp h with rfl
      exact Or.inl rfl
  | cons y rest ih =>
      rw [entriesInsert] at h
      by_cases h1 : e.t = y.t
      · rw [if_pos h1] at h
        exact Or.inr h
      · rw [if_neg h1] at h
        by_cases h2 : y.t < e.t
        · rw [if_pos h2] at h
          rcases List.mem_cons.mp h with rfl | h
          · exact Or.inl rfl
          · exact Or.inr h
        · rw [if_neg h2] at h
          rcases List.mem_cons.mp h with rfl | h
          · exact Or.inr (List.mem_cons_self _ _)
          · rcases ih h with h | h
            · exact Or.inl h
            · exact Or.inr (List.mem_cons_of_mem y h)

theorem self_mem_entriesInsert (e : Entry) (l : List Entry) :
    e ∈ entriesInsert e l ∨ ∃ x ∈ l, x.t = e.t := by
  induction l with
  | nil => exact Or.inl (List.mem_singleton.mpr rfl)
  | cons y rest ih =>
      rw [entriesInsert]
      by_cases h1 : e.t = y.t
      · exact Or.inr ⟨y, List.mem_cons_self y rest, h1.symm⟩
      · rw [if_neg h1]
        by_cases h2 : y.t < e.t
        · rw [if_pos h2]
          exact Or.inl (List.mem_cons_self _ _)
        · rw [if_neg h2]
          rcases ih with h | ⟨x, hx, hxt⟩
          · exact Or.inl (List.mem_cons_of_mem y h)
          · exact Or.inr ⟨x, List.mem_cons_of_mem y hx, hxt⟩

theorem fs_sample_none (hash : Nat → Nat) (s : ShardsFixedSize)
    (a : Access) (ht : sample_key hash s.global_t a.key = none) :
    ShardsFixedSize.sample hash s a =
      ({ s with total_count := s.total_count + 1 }, false) := by
  obtain ⟨g, m, sc, tc, ec, en, ks⟩ := s
  simp only [ShardsFixedSize.sample]
  rw [ht]

theorem fs_sample_contains (hash : Nat → Nat) (s : ShardsFixedSize)
    (a : Access) (t : Nat)
    (ht : sample_key hash s.global_t a.key = some t)
    (hc : entriesContains s.entries ⟨a.key, t⟩ = true) :
    ShardsFixedSize.sample hash s a =
      ({ s with
          total_count := s.total_count + 1,
          sampled_count := s.sampled_count + 1 }, true) := by
  obtain ⟨g, m, sc, tc, ec, en, ks⟩ := s
  simp only [ShardsFixedSize.sample]
  rw [ht]
  simp only at hc ⊢
  rw [hc]
  simp

theorem fs_sample_not_contains (hash : Nat → Nat) (s : ShardsFixedSize)
    (a : Access) (t : Nat)
    (ht : sample_key hash s.global_t a.key = some t)
    (hc : entriesContains s.entries ⟨a.key, t⟩ = false) :
    ShardsFixedSize.sample hash s a =
      ({ s with
          total_count := s.total_count + 1,
          sampled_count := s.sampled_count + 1,
          entries := entriesInsert ⟨a.key, t⟩ s.entries,
          keys := keysInsert a.key s.keys }, true) := by
  obtain ⟨g, m, sc, tc, ec, en, ks⟩ := s
  simp only [ShardsFixedSize.sample]
  rw [ht]
  simp only at hc ⊢
  rw [hc]
  simp

theorem fs_sample_global_t (hash : Nat → Nat) (s : ShardsFixedSize)
    (a : Access) :
    (ShardsFixedSize.sample hash s a).1.global_t = s.global_t := by
  cases hsk : sample_key hash s.global_t a.key with
  | none => rw [fs_sample_none hash s a hsk]
  | some t =>
      cases hc : entriesContains s.entries ⟨a.key, t⟩ with
      | false => rw [fs_sample_not_contains hash s a t hsk hc]
      | true => rw [fs_sample_contains hash s a t hsk hc]

theorem fs_sample_has_t_entry (hash : Nat → Nat) (s : ShardsFixedSize)
    (a : Access) (t : Nat)
    (ht : sample_key hash s.global_t a.key = some t) :
    ∃ e ∈ (ShardsFixedSize.sample hash s a).1.entries, e.t = t := by
  cases hc : entriesContains s.entries ⟨a.key, t⟩ with
  | true =>
      rw [fs_sample_contains hash s a t ht hc]
      rcases List.any_eq_true.mp hc with ⟨x, hx, hxt⟩
      exact ⟨x, hx, by simpa using hxt⟩
  | false =>
      rw [fs_sample_not_contains hash s a t ht hc]
      rcases self_mem_entriesInsert ⟨a.key, t⟩ s.entries with h | ⟨x, hx, hxt⟩
      · exact ⟨⟨a.key, t⟩, h, rfl⟩
      · exfalso
        rw [entriesContains] at hc
        rw [List.any_eq_false] at hc
        exact hc x hx (by simpa using hxt)

theorem fs_get_removal_key_mem (s : ShardsFixedSize) (k : Nat)
    (h : (s.get_removal).2 = some k) : ∃ e ∈ s.entries, e.key = k := by
  rw [ShardsFixedSize.get_removal] at h
  by_cases hle : s.entries.length ≤ s.s_max
  · rw [if_pos hle] at h
    cases h
  · rw [if_neg hle] at h
    cases hent : s.entries with
    | nil =>
        rw [hent] at h
        cases h
    | cons e rest =>
        rw [hent] at h
        dsimp only at h
        injection h with h
        exact ⟨e, List.mem_cons_self e rest, h⟩

/-- C10: in fixed-size SHARDS, set membership is decided by the hash value
`t` alone.  If two distinct keys hash (mod 2²⁴) to the same `t` below
`global_t`, and the second key is not among the stored entry keys, then
sampling the first and then the second key makes the second call return
`true` and increment `sampled_count`, while leaving both the entry set and
the key set exactly as after the first call — so `get_removal()` can never
return the second key. -/
theorem c10_fixed_size_t_collision (hash : Nat → Nat)
    (s : ShardsFixedSize) (a1 a2 : Access)
    (hne : a1.key ≠ a2.key)
    (hhash : hash a1.key % MODULUS = hash a2.key % MODULUS)
    (hlt : hash a2.key % MODULUS < s.global_t)
    (hfresh : ∀ e ∈ s.entries, e.key ≠ a2.key) :
    ((ShardsFixedSize.sample hash
        (ShardsFixedSize.sample hash s a1).1 a2).2 = true) ∧
    ((ShardsFixedSize.sample hash
        (ShardsFixedSize.sample hash s a1).1 a2).1.sampled_count =
      (ShardsFixedSize.sample hash s a1).1.sampled_count + 1) ∧
    ((ShardsFixedSize.sample hash
        (ShardsFixedSize.sample hash s a1).1 a2).1.entries =
      (ShardsFixedSize.sample hash s a1).1.entries) ∧
    ((ShardsFixedSize.sample hash
        (ShardsFixedSize.sample hash s a1).1 a2).1.keys =
      (ShardsFixedSize.sample hash s a1).1.keys) ∧
    (∀ k, (((ShardsFixedSize.sample hash
        (ShardsFixedSize.sample hash s a1).1 a2).1.get_removal).2 = some k →
      k ≠ a2.key)) := by
  have hsk1 : sample_key hash s.global_t a1.key =
      some (hash a2.key % MODULUS) := by
    rw [sample_key]
    rw [hhash, if_pos hlt]
  have hg1 := fs_sample_global_t hash s a1
  have hsk2 : sample_key hash (ShardsFixedSize.sample hash s a1).1.global_t
      a2.key = some (hash a2.key % MODULUS) := by
    rw [hg1, sample_key]
    rw [if_pos hlt]
  have hcont : entriesContains (ShardsFixedSize.sample hash s a1).1.entries
      ⟨a2.key, hash a2.key % MODULUS⟩ = true := by
    rcases fs_sample_has_t_entry hash s a1 (hash a2.key % MODULUS) hsk1 with
      ⟨e, he, het⟩
    exact List.any_eq_true.mpr ⟨e, he, by simpa using het⟩
  have hkeys1 : ∀ e ∈ (ShardsFixedSize.sample hash s a1).1.entries,
      e.key ≠ a2.key := by
    intro e he
    cases hc : entriesContains s.entries ⟨a1.key, hash a2.key % MODULUS⟩ with
    | true =>
        rw [fs_sample_contains hash s a1 _ hsk1 hc] at he
        exact hfresh e he
    | false =>
        rw [fs_sample_not_contains hash s a1 _ hsk1 hc] at he
        have he' : e ∈ entriesInsert ⟨a1.key, hash a2.key % MODULUS⟩
            s.entries := he
        rcases mem_entriesInsert e _ _ he' with rfl | hmem
        · exact hne
        · exact hfresh e hmem
  have hred := fs_sample_contains hash (ShardsFixedSize.sample hash s a1).1
    a2 _ hsk2 hcont
  refine ⟨by rw [hred], by rw [hred], by rw [hred], by rw [hred], ?_⟩
  intro k hk hka
  subst hka
  rw [hred] at hk
  rcases fs_get_removal_key_mem _ _ hk with ⟨e, he, hek⟩
  exact hkeys1 e he hek

/-- C10 witness: the constant hash `5`, keys `1 ≠ 2`, starting from a fresh
fixed-size SHARDS state with `global_t = 100`. -/
theorem c10_witness :
    ((ShardsFixedSize.sample (fun _ => 5)
        (ShardsFixedSize.sample (fun _ => 5)
          (ShardsFixedSize.new 100 10) ⟨0, 1, 1⟩).1 ⟨0, 2, 1⟩).2 = true) ∧
    ((ShardsFixedSize.sample (fun _ => 5)
        (ShardsFixedSize.sample (fun _ => 5)
          (ShardsFixedSize.new 100 10) ⟨0, 1, 1⟩).1 ⟨0, 2, 1⟩).1.sampled_count =
      (ShardsFixedSize.sample (fun _ => 5)
        (ShardsFixedSize.new 100 10) ⟨0, 1, 1⟩).1.sampled_count + 1) ∧
    ((ShardsFixedSize.sample (fun _ => 5)
        (ShardsFixedSize.sample (fun _ => 5)
          (ShardsFixedSize.new 100 10) ⟨0, 1, 1⟩).1 ⟨0, 2, 1⟩).1.entries =
      (ShardsFixedSize.sample (fun _ => 5)
        (ShardsFixedSize.new 100 10) ⟨0, 1, 1⟩).1.entries) ∧
    ((ShardsFixedSize.sample (fun _ => 5)
        (ShardsFixedSize.sample (fun _ => 5)
          (ShardsFixedSize.new 100 10) ⟨0, 1, 1⟩).1 ⟨0, 2, 1⟩).1.keys =
      (ShardsFixedSize.sample (fun _ => 5)
        (ShardsFixedSize.new 100 10) ⟨0, 1, 1⟩).1.keys) ∧
    (∀ k, (((ShardsFixedSize.sample (fun _ => 5)
        (ShardsFixedSize.sample (fun _ => 5)
          (ShardsFixedSize.new 100 10) ⟨0, 1, 1⟩).1 ⟨0, 2, 1⟩).1.get_removal).2
        = some k → k ≠ (2 : Nat))) :=
  c10_fixed_size_t_collision (fun _ => 5) (ShardsFixedSize.new 100 10)
    ⟨0, 1, 1⟩ ⟨0, 2, 1⟩ (by decide) rfl (by decide)
    (by intro e he; cases he)

end Kosmo

namespace Kosmo

/-! ## Claim C9 (oversize accesses are rejected before any state change) -/

/-- C9: `Cache::get` and `Cache::set` are provided trait methods that test
`access.size > self.size()` before anything else, for every cache
implementation: an oversize `get` returns `false` and leaves the entire
cache state (counters and contents) untouched, and an oversize `set` is a
no-op.  For each of the concrete caches, `size()` returns `max_size`. -/
theorem c9_oversize_access_rejected {σ : Type} (m : CacheMethods σ)
    (s : σ) (access : Access) (h : m.size s < access.size) :
    CacheMethods.get m s access = (s, false) ∧
    CacheMethods.set m s access = s ∧
    (∀ c : FifoCache, FifoCache.methods.size c = c.max_size) ∧
    (∀ c : LfuCache, LfuCache.methods.size c = c.max_size) ∧
    (∀ c : TwoQCache, TwoQCache.methods.size c = c.max_size) ∧
    (∀ c : LrfuCache, LrfuCache.methods.size c = c.max_size) := by
  refine ⟨?_, ?_, fun _ => rfl, fun _ => rfl, fun _ => rfl, fun _ => rfl⟩
  · rw [CacheMethods.get, if_pos h]
  · rw [CacheMethods.set, if_pos h]

/-- C9 witness: a FIFO cache of size `5` rejects an access of size `10`. -/
theorem c9_witness :
    CacheMethods.get FifoCache.methods (FifoCache.new 5) ⟨0, 1, 10⟩ =
      (FifoCache.new 5, false) ∧
    CacheMethods.set FifoCache.methods (FifoCache.new 5) ⟨0, 1, 10⟩ =
      FifoCache.new 5 ∧
    (∀ c : FifoCache, FifoCache.methods.size c = c.max_size) ∧
    (∀ c : LfuCache, LfuCache.methods.size c = c.max_size) ∧
    (∀ c : TwoQCache, TwoQCache.methods.size c = c.max_size) ∧
    (∀ c : LrfuCache, LrfuCache.methods.size c = c.max_size) :=
  c9_oversize_access_rejected FifoCache.methods (FifoCache.new 5) ⟨0, 1, 10⟩
    (by decide)

end Kosmo

namespace Kosmo

/-! ## Shared lemmas for the cache invariants (claim C8) -/

theorem sizesSum_nil {α : Type} (f : α → Nat) : sizesSum f [] = 0 := rfl

theorem sizesSum_cons {α : Type} (f : α → Nat) (x : α) (l : List α) :
    sizesSum f (x :: l) = f x + sizesSum f l := by
  simp [sizesSum]

theorem sizesSum_getLast {α : Type} (f : α → Nat) (l : List α) (o : α)
    (h : l.getLast? = some o) :
    sizesSum f l = sizesSum f l.dropLast + f o := by
  have hne : l ≠ [] := by
    intro he
    rw [he] at h
    cases h
  have h2 : l.getLast hne = o := by
    have h3 := List.getLast?_eq_getLast l hne
    rw [h] at h3
    exact (Option.some_inj.mp h3).symm
  calc sizesSum f l = sizesSum f (l.dropLast ++ [l.getLast hne]) := by
        rw [List.dropLast_append_getLast hne]
    _ = sizesSum f l.dropLast + f (l.getLast hne) := by simp [sizesSum]
    _ = sizesSum f l.dropLast + f o := by rw [h2]

theorem sizesSum_erase {α : Type} [DecidableEq α] (f : α → Nat) (l : List α)
    (o : α) (h : o ∈ l) :
    sizesSum f l = f o + sizesSum f (l.erase o) := by
  induction l with
  | nil => cases h
  | cons x xs ih =>
      by_cases hx : x = o
      · subst hx
        rw [List.erase_cons_head]
        simp [sizesSum]
      · have hmem : o ∈ xs := by
          rcases List.mem_cons.mp h with h2 | h2
          · exact absurd h2.symm hx
          · exact h2
        rw [List.erase_cons_tail (by simp [hx])]
        have h4 := ih hmem
        simp only [sizesSum, List.map_cons, List.sum_cons] at h4 ⊢
        omega

theorem missRatio_bounds (cnt hits : ℚ) (h0 : 0 ≤ hits) (hle : hits ≤ cnt) :
    0 ≤ (if cnt > 0 then 1 - hits / cnt else 0) ∧
    (if cnt > 0 then 1 - hits / cnt else 0) ≤ 1 := by
  by_cases hc : cnt > 0
  · simp only [if_pos hc]
    constructor
    · have h1 : hits / cnt ≤ 1 := (div_le_one hc).mpr hle
      linarith
    · have h2 : 0 ≤ hits / cnt := div_nonneg h0 (le_of_lt hc)
      linarith
  · simp [hc]

/-! ## FIFO invariant preservation (claim C8) -/

theorem fifo_reduceFuel_spec (fuel target : Nat) (c : FifoCache)
    (hsz : c.current_size = sizesSum (fun o => o.size) c.stack) :
    (FifoCache.reduceFuel fuel c target).current_size =
        sizesSum (fun o => o.size) (FifoCache.reduceFuel fuel c target).stack ∧
    (FifoCache.reduceFuel fuel c target).max_size = c.max_size ∧
    (FifoCache.reduceFuel fuel c target).count = c.count ∧
    (FifoCache.reduceFuel fuel c target).hits = c.hits ∧
    (FifoCache.reduceFuel fuel c target).current_size ≤ c.current_size ∧
    (c.stack.length ≤ fuel →
      (FifoCache.reduceFuel fuel c target).current_size ≤ target) := by
  induction fuel generalizing c with
  | zero =>
      refine ⟨hsz, rfl, rfl, rfl, le_rfl, ?_⟩
      intro hlen
      have hnil : c.stack = [] := List.length_eq_zero.mp (Nat.le_zero.mp hlen)
      show c.current_size ≤ target
      rw [hsz, hnil, sizesSum_nil]
      exact Nat.zero_le _
  | succ n ih =>
      rw [FifoCache.reduceFuel]
      by_cases hle : c.current_size ≤ target
      · rw [if_pos hle]
        exact ⟨hsz, rfl, rfl, rfl, le_rfl, fun _ => hle⟩
      · rw [if_neg hle]
        cases hlast : c.stack.getLast? with
        | none =>
            exfalso
            have hnil : c.stack = [] := List.getLast?_eq_none_iff.mp hlast
            apply hle
            rw [hsz, hnil, sizesSum_nil]
            exact Nat.zero_le _
        | some obj =>
            have hsum : sizesSum (fun o => o.size) c.stack =
                sizesSum (fun o => o.size) c.stack.dropLast + obj.size :=
              sizesSum_getLast (fun o => o.size) c.stack obj hlast
            have hne : c.stack ≠ [] := by
              intro he
              rw [he] at hlast
              cases hlast
            have hpos : 0 < c.stack.length := List.length_pos.mpr hne
            have hsz2 :
                ({ c with
                    stack := c.stack.dropLast,
                    current_size := c.current_size - obj.size } :
                  FifoCache).current_size =
                  sizesSum (fun o => o.size)
                    ({ c with
                        stack := c.stack.dropLast,
                        current_size := c.current_size - obj.size } :
                      FifoCache).stack := by
              show c.current_size - obj.size =
                sizesSum (fun o => o.size) c.stack.dropLast
              omega
            obtain ⟨ha, hb, hc2, hd, he2, hf⟩ := ih _ hsz2
            refine ⟨ha, hb, hc2, hd, le_trans he2 (Nat.sub_le _ _), ?_⟩
            intro hlen
            apply hf
            show c.stack.dropLast.length ≤ n
            rw [List.length_dropLast]
            omega

theorem fifo_get_eq (c : FifoCache) (a : Access)
    (hov : ¬ a.size > FifoCache.methods.size c) :
    (CacheMethods.get FifoCache.methods c a).1 =
      if FifoCache.process_has c a.key then
        { c with count := c.count + 1, hits := c.hits + 1 }
      else { c with count := c.count + 1 } := by
  rw [CacheMethods.get, if_neg hov]
  show (if FifoCache.process_has { c with count := c.count + 1 } a.key then
      (({ c with count := c.count + 1, hits := c.hits + 1 } : FifoCache),
        true)
    else ({ c with count := c.count + 1 }, false)).1 = _
  have hp : FifoCache.process_has { c with count := c.count + 1 } a.key =
      FifoCache.process_has c a.key := rfl
  rw [hp]
  cases hit : FifoCache.process_has c a.key <;> simp

theorem fifo_applyOp_inv (c : FifoCache) (op : CacheOp) (h : FifoInv c) :
    FifoInv (applyOp FifoCache.methods c op) := by
  obtain ⟨hsz, hfit, hh0, hhc⟩ := h
  cases op with
  | get a =>
      show FifoInv (CacheMethods.get FifoCache.methods c a).1
      by_cases hov : a.size > FifoCache.methods.size c
      · rw [CacheMethods.get, if_pos hov]
        exact ⟨hsz, hfit, hh0, hhc⟩
      · rw [fifo_get_eq c a hov]
        cases hit : FifoCache.process_has c a.key with
        | true =>
            rw [if_pos rfl]
            exact ⟨hsz, hfit, by show (0:ℚ) ≤ c.hits + 1; linarith,
              by show c.hits + 1 ≤ c.count + 1; linarith⟩
        | false =>
            rw [if_neg (by simp)]
            exact ⟨hsz, hfit, hh0,
              by show c.hits ≤ c.count + 1; linarith⟩
  | set a =>
      show FifoInv (CacheMethods.set FifoCache.methods c a)
      rw [CacheMethods.set]
      by_cases hov : a.size > FifoCache.methods.size c
      · rw [if_pos hov]
        exact ⟨hsz, hfit, hh0, hhc⟩
      · rw [if_neg hov]
        show FifoInv (FifoCache.process_set c a)
        rw [FifoCache.process_set]
        by_cases hrej : a.size > c.max_size ∨ c.process_has a.key = true
        · rw [if_pos hrej]
          exact ⟨hsz, hfit, hh0, hhc⟩
        · rw [if_neg hrej]
          obtain ⟨ha, hb, hc2, hd, he2, hf⟩ :=
            fifo_reduceFuel_spec c.stack.length (c.max_size - a.size) c hsz
          push_neg at hrej
          have hsmall : a.size ≤ c.max_size := by
            have := hrej.1
            omega
          have hred := hf le_rfl
          refine ⟨?_, ?_, ?_, ?_⟩
          · show (FifoCache.reduceFuel c.stack.length c
                (c.max_size - a.size)).current_size + a.size =
              sizesSum (fun o => o.size) ((⟨a.key, a.size⟩ : Object) ::
                (FifoCache.reduceFuel c.stack.length c
                  (c.max_size - a.size)).stack)
            rw [sizesSum_cons]
            show _ = a.size + sizesSum (fun o => o.size)
              (FifoCache.reduceFuel c.stack.length c
                (c.max_size - a.size)).stack
            omega
          · show (FifoCache.reduceFuel c.stack.length c
                (c.max_size - a.size)).current_size + a.size ≤
              (FifoCache.reduceFuel c.stack.length c
                (c.max_size - a.size)).max_size
            rw [hb]
            exact le_trans (Nat.add_le_add_right hred _)
              (le_of_eq (Nat.sub_add_cancel hsmall))
          · show (0:ℚ) ≤ (FifoCache.reduceFuel c.stack.length c
                (c.max_size - a.size)).hits
            rw [hd]
            exact hh0
          · show (FifoCache.reduceFuel c.stack.length c
                  (c.max_size - a.size)).hits ≤
              (FifoCache.reduceFuel c.stack.length c
                (c.max_size - a.size)).count
            rw [hd, hc2]
            exact hhc
  | del k =>
      show FifoInv (FifoCache.process_del c k)
      rw [FifoCache.process_del]
      cases hfind : c.stack.find? (fun o => o.key = k) with
      | none => exact ⟨hsz, hfit, hh0, hhc⟩
      | some o =>
          have hmem := List.mem_of_find?_eq_some hfind
          have hsum : sizesSum (fun o => o.size) c.stack =
              o.size + sizesSum (fun o => o.size) (c.stack.erase o) :=
            sizesSum_erase (fun o => o.size) c.stack o hmem
          refine ⟨?_, ?_, hh0, hhc⟩
          · show c.current_size - o.size =
              sizesSum (fun o => o.size) (c.stack.erase o)
            omega
          · show c.current_size - o.size ≤ c.max_size
            omega
  | reduce n =>
      show FifoInv (FifoCache.reduceFuel c.stack.length c n)
      obtain ⟨ha, hb, hc2, hd, he2, hf⟩ :=
        fifo_reduceFuel_spec c.stack.length n c hsz
      exact ⟨ha, by rw [hb]; exact le_trans he2 hfit, by rw [hd]; exact hh0,
        by rw [hd, hc2]; exact hhc⟩
  | resize n =>
      show FifoInv { FifoCache.reduceFuel c.stack.length c n with
        max_size := n }
      obtain ⟨ha, hb, hc2, hd, he2, hf⟩ :=
        fifo_reduceFuel_spec c.stack.length n c hsz
      exact ⟨ha, hf le_rfl, by
          show (0:ℚ) ≤ (FifoCache.reduceFuel c.stack.length c n).hits
          rw [hd]
          exact hh0,
        by
          show (FifoCache.reduceFuel c.stack.length c n).hits ≤
            (FifoCache.reduceFuel c.stack.length c n).count
          rw [hd, hc2]
          exact hhc⟩

theorem fifo_runOps_inv (ops : List CacheOp) (c : FifoCache)
    (h : FifoInv c) : FifoInv (runOps FifoCache.methods c ops) := by
  induction ops generalizing c with
  | nil => exact h
  | cons op rest ih => exact ih _ (fifo_applyOp_inv c op h)

/-! ## LFU invariant preservation (claim C8) -/

theorem lfuTotal_nil : lfuTotal [] = 0 := rfl

theorem lfuTotal_cons (cl : CountList) (rest : List CountList) :
    lfuTotal (cl :: rest) =
      sizesSum (fun o => o.size) cl.list + lfuTotal rest := by
  simp [lfuTotal]

theorem LfuCache.lfuGet_spec (key : Nat) (cls cls2 : List CountList)
    (h : LfuCache.lfuGet key cls = some cls2)
    (hne : ∀ cl ∈ cls, cl.list ≠ []) :
    lfuTotal cls2 = lfuTotal cls ∧ ∀ cl ∈ cls2, cl.list ≠ [] := by
  induction cls generalizing cls2 with
  | nil => cases h
  | cons cl rest ih =>
      rw [LfuCache.lfuGet] at h
      cases hfind : cl.list.find? (fun o => o.key = key) with
      | some object =>
          rw [hfind] at h
          have hmem := List.mem_of_find?_eq_some hfind
          have hsum : sizesSum (fun o => o.size) cl.list =
              object.size + sizesSum (fun o => o.size) (cl.list.erase object) :=
            sizesSum_erase _ _ _ hmem
          injection h with h
          cases hrest : rest with
          | nil =>
              rw [hrest] at h
              dsimp only at h
              by_cases hemp : (cl.list.erase object).isEmpty
              · simp only [hemp, if_pos] at h
                subst h
                rw [List.isEmpty_iff] at hemp
                rw [hemp] at hsum
                constructor
                · rw [lfuTotal_cons, lfuTotal_cons, lfuTotal_nil,
                    sizesSum_cons, sizesSum_nil, hsum, sizesSum_nil]
                · intro x hx
                  rcases List.mem_singleton.mp hx with rfl
                  simp
              · simp only [hemp, Bool.false_eq_true, if_neg,
                  not_false_eq_true] at h
                subst h
                constructor
                · rw [lfuTotal_cons, lfuTotal_cons, lfuTotal_cons,
                    lfuTotal_nil, sizesSum_cons, sizesSum_nil]
                  show sizesSum (fun o => o.size) (cl.list.erase object) +
                    (object.size + 0 + 0) = _ + 0
                  omega
                · intro x hx
                  rcases List.mem_cons.mp hx with rfl | hx
                  · show cl.list.erase object ≠ []
                    intro he
                    rw [← List.isEmpty_iff] at he
                    exact hemp he
                  · rcases List.mem_singleton.mp hx with rfl
                    simp
          | cons next rest2 =>
              rw [hrest] at h
              dsimp only at h
              by_cases hcnt : next.count = cl.count + 1
              · rw [if_pos hcnt] at h
                by_cases hemp : (cl.list.erase object).isEmpty
                · simp only [hemp, if_pos] at h
                  subst h
                  rw [List.isEmpty_iff] at hemp
                  rw [hemp, sizesSum_nil] at hsum
                  constructor
                  · rw [lfuTotal_cons, lfuTotal_cons, lfuTotal_cons,
                      sizesSum_cons]
                    show object.size + sizesSum (fun o => o.size) next.list +
                      lfuTotal rest2 = _
                    omega
                  · intro x hx
                    rcases List.mem_cons.mp hx with rfl | hx
                    · simp
                    · exact hne x (by
                        rw [hrest]
                        exact List.mem_cons_of_mem _ (List.mem_cons_of_mem _ hx))
                · simp only [hemp, Bool.false_eq_true, if_neg,
                    not_false_eq_true] at h
                  subst h
                  constructor
                  · rw [lfuTotal_cons, lfuTotal_cons, lfuTotal_cons,
                      lfuTotal_cons, sizesSum_cons]
                    show sizesSum (fun o => o.size) (cl.list.erase object) +
                      (object.size + sizesSum (fun o => o.size) next.list +
                        lfuTotal rest2) = _
                    omega
                  · intro x hx
                    rcases List.mem_cons.mp hx with rfl | hx
                    · show cl.list.erase object ≠ []
                      intro he
                      rw [← List.isEmpty_iff] at he
                      exact hemp he
                    · rcases List.mem_cons.mp hx with rfl | hx
                      · simp
                      · exact hne x (by
                          rw [hrest]
                          exact List.mem_cons_of_mem _
                            (List.mem_cons_of_mem _ hx))
              · rw [if_neg hcnt] at h
                by_cases hemp : (cl.list.erase object).isEmpty
                · simp only [hemp, if_pos] at h
                  subst h
                  rw [List.isEmpty_iff] at hemp
                  rw [hemp, sizesSum_nil] at hsum
                  constructor
                  · rw [lfuTotal_cons, lfuTotal_cons, lfuTotal_cons,
                      lfuTotal_cons, sizesSum_cons, sizesSum_nil]
                    show object.size + 0 + (sizesSum (fun o => o.size)
                      next.list + lfuTotal rest2) = _
                    omega
                  · intro x hx
                    rcases List.mem_cons.mp hx with rfl | hx
                    · simp
                    · exact hne x (by rw [hrest]; exact List.mem_cons_of_mem _ hx)
                · simp only [hemp, Bool.false_eq_true, if_neg,
                    not_false_eq_true] at h
                  subst h
                  constructor
                  · rw [lfuTotal_cons, lfuTotal_cons, lfuTotal_cons,
                      lfuTotal_cons, lfuTotal_cons, sizesSum_cons,
                      sizesSum_nil]
                    show sizesSum (fun o => o.size) (cl.list.erase object) +
                      (object.size + 0 + (sizesSum (fun o => o.size)
                        next.list + lfuTotal rest2)) = _
                    omega
                  · intro x hx
                    rcases List.mem_cons.mp hx with rfl | hx
                    · show cl.list.erase object ≠ []
                      intro he
                      rw [← List.isEmpty_iff] at he
                      exact hemp he
                    · rcases List.mem_cons.mp hx with rfl | hx
                      · simp
                      · exact hne x (by rw [hrest]; exact List.mem_cons_of_mem _ hx)
      | none =>
          rw [hfind] at h
          cases hrec : LfuCache.lfuGet key rest with
          | none =>
              rw [hrec] at h
              cases h
          | some rest2 =>
              rw [hrec] at h
              injection h with h
              subst h
              obtain ⟨ht, hn⟩ := ih rest2 hrec
                (fun x hx => hne x (List.mem_cons_of_mem _ hx))
              constructor
              · rw [lfuTotal_cons, lfuTotal_cons, ht]
              · intro x hx
                rcases List.mem_cons.mp hx with rfl | hx
                · exact hne x (List.mem_cons_self _ _)
                · exact hn x hx

theorem lfuDel_spec (key : Nat) (cls : List CountList) (obj : Object)
    (cls2 : List CountList)
    (h : LfuCache.lfuDel key cls = some (obj, cls2))
    (hne : ∀ cl ∈ cls, cl.list ≠ []) :
    lfuTotal cls = obj.size + lfuTotal cls2 ∧ ∀ cl ∈ cls2, cl.list ≠ [] := by
  induction cls generalizing cls2 with
  | nil => cases h
  | cons cl rest ih =>
      rw [LfuCache.lfuDel] at h
      cases hfind : cl.list.find? (fun o => o.key = key) with
      | some object =>
          rw [hfind] at h
          dsimp only at h
          have hmem := List.mem_of_find?_eq_some hfind
          have hsum : sizesSum (fun o => o.size) cl.list =
              object.size + sizesSum (fun o => o.size) (cl.list.erase object) :=
            sizesSum_erase _ _ _ hmem
          by_cases hemp : (cl.list.erase object).isEmpty
          · simp only [hemp, if_pos] at h
            injection h with h
            rw [Prod.mk.injEq] at h
            obtain ⟨rfl, rfl⟩ := h
            rw [List.isEmpty_iff] at hemp
            constructor
            · rw [lfuTotal_cons, hsum, hemp, sizesSum_nil]
              omega
            · intro x hx
              exact hne x (List.mem_cons_of_mem _ hx)
          · simp only [hemp, Bool.false_eq_true, if_neg,
              not_false_eq_true] at h
            injection h with h
            rw [Prod.mk.injEq] at h
            obtain ⟨rfl, rfl⟩ := h
            constructor
            · rw [lfuTotal_cons, lfuTotal_cons]
              show sizesSum (fun o => o.size) cl.list + lfuTotal rest =
                object.size +
                  (sizesSum (fun o => o.size) (cl.list.erase object) +
                    lfuTotal rest)
              omega
            · intro x hx
              rcases List.mem_cons.mp hx with rfl | hx
              · show cl.list.erase object ≠ []
                intro he
                rw [← List.isEmpty_iff] at he
                exact hemp he
              · exact hne x (List.mem_cons_of_mem _ hx)
      | none =>
          rw [hfind] at h
          cases hrec : LfuCache.lfuDel key rest with
          | none =>
              rw [hrec] at h
              cases h
          | some pr =>
              obtain ⟨o2, rest2⟩ := pr
              rw [hrec] at h
              dsimp only at h
              injection h with h
              rw [Prod.mk.injEq] at h
              obtain ⟨rfl, rfl⟩ := h
              obtain ⟨ht, hn⟩ := ih rest2 hrec
                (fun x hx => hne x (List.mem_cons_of_mem _ hx))
              constructor
              · rw [lfuTotal_cons, lfuTotal_cons, ht]
                omega
              · intro x hx
                rcases List.mem_cons.mp hx with rfl | hx
                · exact hne x (List.mem_cons_self _ _)
                · exact hn x hx

theorem lfu_reduceFuel_spec (fuel target : Nat) (c : LfuCache)
    (hsz : c.current_size = lfuTotal c.count_lists)
    (hne : ∀ cl ∈ c.count_lists, cl.list ≠ []) :
    (LfuCache.reduceFuel fuel c target).current_size =
        lfuTotal (LfuCache.reduceFuel fuel c target).count_lists ∧
    (∀ cl ∈ (LfuCache.reduceFuel fuel c target).count_lists, cl.list ≠ []) ∧
    (LfuCache.reduceFuel fuel c target).max_size = c.max_size ∧
    (LfuCache.reduceFuel fuel c target).count = c.count ∧
    (LfuCache.reduceFuel fuel c target).hits = c.hits ∧
    (LfuCache.reduceFuel fuel c target).current_size ≤ c.current_size ∧
    (LfuCache.totalObjects c ≤ fuel →
      (LfuCache.reduceFuel fuel c target).current_size ≤ target) := by
  induction fuel generalizing c with
  | zero =>
      refine ⟨hsz, hne, rfl, rfl, rfl, le_rfl, ?_⟩
      intro hlen
      have hnil : c.count_lists = [] := by
        cases hcls : c.count_lists with
        | nil => rfl
        | cons cl rest =>
            exfalso
            rw [LfuCache.totalObjects, hcls] at hlen
            simp only [List.map_cons, List.sum_cons, Nat.le_zero,
              Nat.add_eq_zero] at hlen
            have h0 : cl.list = [] := List.length_eq_zero.mp hlen.1
            exact hne cl (by rw [hcls]; exact List.mem_cons_self _ _) h0
      show c.current_size ≤ target
      rw [hsz, hnil, lfuTotal_nil]
      exact Nat.zero_le _
  | succ n ih =>
      rw [LfuCache.reduceFuel]
      by_cases hle : c.current_size ≤ target
      · rw [if_pos hle]
        exact ⟨hsz, hne, rfl, rfl, rfl, le_rfl, fun _ => hle⟩
      · rw [if_neg hle]
        cases hcls : c.count_lists with
        | nil =>
            exfalso
            apply hle
            rw [hsz, hcls, lfuTotal_nil]
            exact Nat.zero_le _
        | cons cl rest =>
            dsimp only
            cases hlast : cl.list.getLast? with
            | none =>
                exfalso
                exact hne cl (by rw [hcls]; exact List.mem_cons_self _ _)
                  (List.getLast?_eq_none_iff.mp hlast)
            | some object =>
                dsimp only
                rw [hcls] at hsz hne
                have hsum : sizesSum (fun o => o.size) cl.list =
                    sizesSum (fun o => o.size) cl.list.dropLast +
                      object.size :=
                  sizesSum_getLast _ _ _ hlast
                have hlpos : 0 < cl.list.length :=
                  List.length_pos.mpr (fun he => by
                    rw [he] at hlast
                    cases hlast)
                have htot : LfuCache.totalObjects c = cl.list.length +
                    (rest.map (fun x => x.list.length)).sum := by
                  rw [LfuCache.totalObjects, hcls]
                  simp [List.map_cons, List.sum_cons]
                by_cases hemp : cl.list.dropLast.isEmpty
                · simp only [hemp, if_pos]
                  have hdnil : cl.list.dropLast = [] :=
                    List.isEmpty_iff.mp hemp
                  rw [hdnil, sizesSum_nil] at hsum
                  have hsz2 : ({ c with
                      count_lists := rest,
                      current_size := c.current_size - object.size } :
                        LfuCache).current_size =
                      lfuTotal ({ c with
                        count_lists := rest,
                        current_size := c.current_size - object.size } :
                          LfuCache).count_lists := by
                    show c.current_size - object.size = lfuTotal rest
                    rw [hsz, lfuTotal_cons, hsum]
                    omega
                  have hne2 : ∀ x ∈ ({ c with
                      count_lists := rest,
                      current_size := c.current_size - object.size } :
                        LfuCache).count_lists, x.list ≠ [] :=
                    fun x hx => hne x (List.mem_cons_of_mem _ hx)
                  obtain ⟨ha, hb, hm, hcnt2, hh, hdec, hfin⟩ := ih _ hsz2 hne2
                  refine ⟨ha, hb, hm, hcnt2, hh,
                    le_trans hdec (Nat.sub_le _ _), ?_⟩
                  intro hlen
                  apply hfin
                  show LfuCache.totalObjects { c with
                    count_lists := rest,
                    current_size := c.current_size - object.size } ≤ n
                  rw [htot] at hlen
                  show (rest.map (fun x => x.list.length)).sum ≤ n
                  omega
                · simp only [hemp, Bool.false_eq_true, if_neg,
                    not_false_eq_true]
                  have hdlen : cl.list.dropLast.length =
                      cl.list.length - 1 := List.length_dropLast _
                  have hsz2 : ({ c with
                      count_lists :=
                        { cl with list := cl.list.dropLast } :: rest,
                      current_size := c.current_size - object.size } :
                        LfuCache).current_size =
                      lfuTotal ({ c with
                        count_lists :=
                          { cl with list := cl.list.dropLast } :: rest,
                        current_size := c.current_size - object.size } :
                          LfuCache).count_lists := by
                    show c.current_size - object.size =
                      lfuTotal ({ cl with list := cl.list.dropLast } :: rest)
                    rw [hsz, lfuTotal_cons, lfuTotal_cons]
                    show _ = sizesSum (fun o => o.size) cl.list.dropLast +
                      lfuTotal rest
                    omega
                  have hne2 : ∀ x ∈ ({ c with
                      count_lists :=
                        { cl with list := cl.list.dropLast } :: rest,
                      current_size := c.current_size - object.size } :
                        LfuCache).count_lists, x.list ≠ [] := by
                    intro x hx
                    rcases List.mem_cons.mp hx with rfl | hx
                    · show cl.list.dropLast ≠ []
                      intro he
                      rw [← List.isEmpty_iff] at he
                      exact hemp he
                    · exact hne x (List.mem_cons_of_mem _ hx)
                  obtain ⟨ha, hb, hm, hcnt2, hh, hdec, hfin⟩ := ih _ hsz2 hne2
                  refine ⟨ha, hb, hm, hcnt2, hh,
                    le_trans hdec (Nat.sub_le _ _), ?_⟩
                  intro hlen
                  apply hfin
                  show LfuCache.totalObjects { c with
                    count_lists := { cl with list := cl.list.dropLast } :: rest,
                    current_size := c.current_size - object.size } ≤ n
                  rw [htot] at hlen
                  show cl.list.dropLast.length +
                    (rest.map (fun x => x.list.length)).sum ≤ n
                  omega

theorem lfu_get_eq (c : LfuCache) (a : Access)
    (hov : ¬ a.size > LfuCache.methods.size c) :
    (CacheMethods.get LfuCache.methods c a).1 =
      match LfuCache.lfuGet a.key c.count_lists with
      | none => { c with count := c.count + 1 }
      | some cls =>
          { c with
            count := c.count + 1
            hits := c.hits + 1
            count_lists := cls } := by
  obtain ⟨m, cur, cnt, hts, cls0⟩ := c
  rw [CacheMethods.get, if_neg hov]
  cases hg : LfuCache.lfuGet a.key cls0 with
  | none =>
      simp only [LfuCache.methods, LfuCache.increment_count,
        LfuCache.process_get, LfuCache.increment_hits, hg]
      simp
  | some cls =>
      simp only [LfuCache.methods, LfuCache.increment_count,
        LfuCache.process_get, LfuCache.increment_hits, hg]
      simp

theorem lfu_applyOp_inv (c : LfuCache) (op : CacheOp) (h : LfuInv c) :
    LfuInv (applyOp LfuCache.methods c op) := by
  obtain ⟨hsz, hne, hfit, hh0, hhc⟩ := h
  cases op with
  | get a =>
      show LfuInv (CacheMethods.get LfuCache.methods c a).1
      by_cases hov : a.size > LfuCache.methods.size c
      · rw [CacheMethods.get, if_pos hov]
        exact ⟨hsz, hne, hfit, hh0, hhc⟩
      · rw [lfu_get_eq c a hov]
        cases hg : LfuCache.lfuGet a.key c.count_lists with
        | none =>
            exact ⟨hsz, hne, hfit, hh0,
              by show c.hits ≤ c.count + 1; linarith⟩
        | some cls =>
            obtain ⟨ht, hn⟩ := LfuCache.lfuGet_spec a.key c.count_lists cls hg hne
            exact ⟨by show c.current_size = lfuTotal cls; rw [hsz, ht], hn,
              hfit, by show (0:ℚ) ≤ c.hits + 1; linarith,
              by show c.hits + 1 ≤ c.count + 1; linarith⟩
  | set a =>
      show LfuInv (CacheMethods.set LfuCache.methods c a)
      rw [CacheMethods.set]
      by_cases hov : a.size > LfuCache.methods.size c
      · rw [if_pos hov]
        exact ⟨hsz, hne, hfit, hh0, hhc⟩
      · rw [if_neg hov]
        show LfuInv (LfuCache.process_set c a)
        rw [LfuCache.process_set]
        by_cases hrej : a.size > c.max_size ∨ c.process_has a.key = true
        · rw [if_pos hrej]
          exact ⟨hsz, hne, hfit, hh0, hhc⟩
        · rw [if_neg hrej]
          push_neg at hrej
          have hsmall : a.size ≤ c.max_size := by
            have := hrej.1
            omega
          obtain ⟨ha, hb, hm, hcnt2, hh, hdec, hfin⟩ :=
            lfu_reduceFuel_spec (LfuCache.totalObjects c)
              (c.max_size - a.size) c hsz hne
          have hred := hfin le_rfl
          dsimp only [LfuCache.reduce]
          cases hcls : (LfuCache.reduceFuel (LfuCache.totalObjects c) c
              (c.max_size - a.size)).count_lists with
          | nil =>
              dsimp only
              rw [ha, hcls, lfuTotal_nil] at hred ⊢
              refine ⟨?_, ?_, ?_, ?_, ?_⟩
              · show 0 + a.size =
                  lfuTotal [⟨1, [(⟨a.key, a.size⟩ : Object)]⟩]
                rw [lfuTotal_cons, lfuTotal_nil, sizesSum_cons, sizesSum_nil]
                show 0 + a.size = a.size + 0 + 0
                omega
              · intro x hx
                rcases List.mem_singleton.mp hx with rfl
                simp
              · show 0 + a.size ≤ (LfuCache.reduceFuel
                  (LfuCache.totalObjects c) c (c.max_size - a.size)).max_size
                rw [hm]
                omega
              · show (0:ℚ) ≤ (LfuCache.reduceFuel (LfuCache.totalObjects c) c
                  (c.max_size - a.size)).hits
                rw [hh]
                exact hh0
              · show (LfuCache.reduceFuel (LfuCache.totalObjects c) c
                    (c.max_size - a.size)).hits ≤
                  (LfuCache.reduceFuel (LfuCache.totalObjects c) c
                    (c.max_size - a.size)).count
                rw [hh, hcnt2]
                exact hhc
          | cons front rest =>
              dsimp only
              rw [hcls] at ha hb
              by_cases hfc : front.count > 1
              · rw [if_pos hfc]
                refine ⟨?_, ?_, ?_, ?_, ?_⟩
                · show (LfuCache.reduceFuel (LfuCache.totalObjects c) c
                      (c.max_size - a.size)).current_size + a.size =
                    lfuTotal ((⟨1, [(⟨a.key, a.size⟩ : Object)]⟩ : CountList)
                      :: front :: rest)
                  rw [ha, lfuTotal_cons, lfuTotal_cons, sizesSum_cons,
                    sizesSum_nil, lfuTotal_cons]
                  show _ = a.size + 0 +
                    (sizesSum (fun o => o.size) front.list + lfuTotal rest)
                  omega
                · intro x hx
                  rcases List.mem_cons.mp hx with rfl | hx
                  · simp
                  · exact hb x hx
                · show (LfuCache.reduceFuel (LfuCache.totalObjects c) c
                      (c.max_size - a.size)).current_size + a.size ≤
                    (LfuCache.reduceFuel (LfuCache.totalObjects c) c
                      (c.max_size - a.size)).max_size
                  rw [hm]
                  exact le_trans (Nat.add_le_add_right hred _)
                    (le_of_eq (Nat.sub_add_cancel hsmall))
                · show (0:ℚ) ≤ (LfuCache.reduceFuel (LfuCache.totalObjects c)
                    c (c.max_size - a.size)).hits
                  rw [hh]
                  exact hh0
                · show (LfuCache.reduceFuel (LfuCache.totalObjects c) c
                      (c.max_size - a.size)).hits ≤
                    (LfuCache.reduceFuel (LfuCache.totalObjects c) c
                      (c.max_size - a.size)).count
                  rw [hh, hcnt2]
                  exact hhc
              · rw [if_neg hfc]
                refine ⟨?_, ?_, ?_, ?_, ?_⟩
                · show (LfuCache.reduceFuel (LfuCache.totalObjects c) c
                      (c.max_size - a.size)).current_size + a.size =
                    lfuTotal ({ front with
                      list := (⟨a.key, a.size⟩ : Object) :: front.list }
                      :: rest)
                  rw [ha, lfuTotal_cons, lfuTotal_cons]
                  show sizesSum (fun o => o.size) front.list + lfuTotal rest
                      + a.size =
                    a.size + sizesSum (fun o => o.size) front.list +
                      lfuTotal rest
                  omega
                · intro x hx
                  rcases List.mem_cons.mp hx with rfl | hx
                  · show (⟨a.key, a.size⟩ : Object) :: front.list ≠ []
                    simp
                  · exact hb x (List.mem_cons_of_mem _ hx)
                · show (LfuCache.reduceFuel (LfuCache.totalObjects c) c
                      (c.max_size - a.size)).current_size + a.size ≤
                    (LfuCache.reduceFuel (LfuCache.totalObjects c) c
                      (c.max_size - a.size)).max_size
                  rw [hm]
                  exact le_trans (Nat.add_le_add_right hred _)
                    (le_of_eq (Nat.sub_add_cancel hsmall))
                · show (0:ℚ) ≤ (LfuCache.reduceFuel (LfuCache.totalObjects c)
                    c (c.max_size - a.size)).hits
                  rw [hh]
                  exact hh0
                · show (LfuCache.reduceFuel (LfuCache.totalObjects c) c
                      (c.max_size - a.size)).hits ≤
                    (LfuCache.reduceFuel (LfuCache.totalObjects c) c
                      (c.max_size - a.size)).count
                  rw [hh, hcnt2]
                  exact hhc
  | del k =>
      show LfuInv (LfuCache.process_del c k)
      rw [LfuCache.process_del]
      cases hdel : LfuCache.lfuDel k c.count_lists with
      | none => exact ⟨hsz, hne, hfit, hh0, hhc⟩
      | some pr =>
          obtain ⟨object, cls2⟩ := pr
          obtain ⟨ht, hn⟩ := lfuDel_spec k c.count_lists object cls2 hdel hne
          refine ⟨?_, hn, ?_, hh0, hhc⟩
          · show c.current_size - object.size = lfuTotal cls2
            omega
          · show c.current_size - object.size ≤ c.max_size
            omega
  | reduce n =>
      show LfuInv (LfuCache.reduceFuel (LfuCache.totalObjects c) c n)
      obtain ⟨ha, hb, hm, hcnt2, hh, hdec, hfin⟩ :=
        lfu_reduceFuel_spec (LfuCache.totalObjects c) n c hsz hne
      exact ⟨ha, hb, by rw [hm]; exact le_trans hdec hfit,
        by rw [hh]; exact hh0, by rw [hh, hcnt2]; exact hhc⟩
  | resize n =>
      show LfuInv { LfuCache.reduceFuel (LfuCache.totalObjects c) c n with
        max_size := n }
      obtain ⟨ha, hb, hm, hcnt2, hh, hdec, hfin⟩ :=
        lfu_reduceFuel_spec (LfuCache.totalObjects c) n c hsz hne
      refine ⟨ha, hb, hfin le_rfl, ?_, ?_⟩
      · show (0:ℚ) ≤ (LfuCache.reduceFuel (LfuCache.totalObjects c) c n).hits
        rw [hh]
        exact hh0
      · show (LfuCache.reduceFuel (LfuCache.totalObjects c) c n).hits ≤
          (LfuCache.reduceFuel (LfuCache.totalObjects c) c n).count
        rw [hh, hcnt2]
        exact hhc

theorem lfu_runOps_inv (ops : List CacheOp) (c : LfuCache)
    (h : LfuInv c) : LfuInv (runOps LfuCache.methods c ops) := by
  induction ops generalizing c with
  | nil => exact h
  | cons op rest ih => exact ih _ (lfu_applyOp_inv c op h)

/-! ## 2Q invariant preservation (claim C8) -/

theorem StackInv_empty : StackInv Stack.empty := rfl

theorem StackInv.push_front {s : Stack} (h : StackInv s) (o : Object) :
    StackInv (s.push_front o) := by
  show s.size + o.size = sizesSum (fun x => x.size) (o :: s.stack)
  rw [sizesSum_cons]
  rw [StackInv] at h
  omega

theorem stack_pop_back_spec {s : Stack} {o : Object} {s2 : Stack}
    (hpop : s.pop_back = some (o, s2)) (h : StackInv s) :
    StackInv s2 ∧ s.size = s2.size + o.size ∧
      s2.stack.length = s.stack.length - 1 ∧ 0 < s.stack.length := by
  rw [Stack.pop_back] at hpop
  cases hlast : s.stack.getLast? with
  | none =>
      rw [hlast] at hpop
      cases hpop
  | some o2 =>
      rw [hlast] at hpop
      dsimp only at hpop
      injection hpop with hpop
      rw [Prod.mk.injEq] at hpop
      obtain ⟨ho, hs2⟩ := hpop
      have hsum : sizesSum (fun x => x.size) s.stack =
          sizesSum (fun x => x.size) s.stack.dropLast + o2.size :=
        sizesSum_getLast (fun x => x.size) s.stack o2 hlast
      rw [StackInv] at h
      have hne : s.stack ≠ [] := by
        intro he
        rw [he] at hlast
        cases hlast
      have hpos : 0 < s.stack.length := List.length_pos.mpr hne
      refine ⟨?_, ?_, ?_, hpos⟩
      · rw [← hs2]
        show s.size - o2.size = sizesSum (fun x => x.size) s.stack.dropLast
        omega
      · rw [← hs2, ← ho]
        show s.size = s.size - o2.size + o2.size
        omega
      · rw [← hs2]
        show s.stack.dropLast.length = s.stack.length - 1
        exact List.length_dropLast _

theorem stack_removeKey_spec {s : Stack} {k : Nat} {o : Object} {s2 : Stack}
    (hrem : s.removeKey k = some (o, s2)) (h : StackInv s) :
    StackInv s2 ∧ s.size = s2.size + o.size := by
  rw [Stack.removeKey] at hrem
  cases hfind : s.stack.find? (fun x => x.key = k) with
  | none =>
      rw [hfind] at hrem
      cases hrem
  | some o2 =>
      rw [hfind] at hrem
      dsimp only at hrem
      injection hrem with hrem
      rw [Prod.mk.injEq] at hrem
      obtain ⟨ho, hs2⟩ := hrem
      have hmem := List.mem_of_find?_eq_some hfind
      have hsum : sizesSum (fun x => x.size) s.stack =
          o2.size + sizesSum (fun x => x.size) (s.stack.erase o2) :=
        sizesSum_erase (fun x => x.size) s.stack o2 hmem
      rw [StackInv] at h
      constructor
      · rw [← hs2]
        show s.size - o2.size = sizesSum (fun x => x.size) (s.stack.erase o2)
        omega
      · rw [← hs2, ← ho]
        show s.size = s.size - o2.size + o2.size
        omega

theorem stack_empty_size {s : Stack} (h : StackInv s) (he : s.stack = []) :
    s.size = 0 := by
  rw [StackInv, he, sizesSum_nil] at h
  exact h

theorem twoq_reduceAinFuel_spec (fuel : Nat) (c : TwoQCache) (os : Nat)
    (hain : StackInv c.ain) (haout : StackInv c.aout) :
    StackInv (TwoQCache.reduceAinFuel fuel c os).ain ∧
    StackInv (TwoQCache.reduceAinFuel fuel c os).aout ∧
    (TwoQCache.reduceAinFuel fuel c os).am = c.am ∧
    (TwoQCache.reduceAinFuel fuel c os).max_size = c.max_size ∧
    (TwoQCache.reduceAinFuel fuel c os).kin = c.kin ∧
    (TwoQCache.reduceAinFuel fuel c os).kout = c.kout ∧
    (TwoQCache.reduceAinFuel fuel c os).count = c.count ∧
    (TwoQCache.reduceAinFuel fuel c os).hits = c.hits ∧
    (TwoQCache.reduceAinFuel fuel c os).current_size = c.current_size ∧
    (c.ain.stack.length ≤ fuel →
      (TwoQCache.reduceAinFuel fuel c os).ain.stack = [] ∨
      (TwoQCache.reduceAinFuel fuel c os).can_ain_fit os = true) := by
  induction fuel generalizing c with
  | zero =>
      refine ⟨hain, haout, rfl, rfl, rfl, rfl, rfl, rfl, rfl, ?_⟩
      intro hlen
      exact Or.inl (List.length_eq_zero.mp (Nat.le_zero.mp hlen))
  | succ n ih =>
      rw [TwoQCache.reduceAinFuel]
      by_cases hout : c.ain.is_empty = true ∨ c.can_ain_fit os = true
      · rw [if_pos hout]
        refine ⟨hain, haout, rfl, rfl, rfl, rfl, rfl, rfl, rfl, fun _ => ?_⟩
        rcases hout with hout | hout
        · exact Or.inl (by
            rw [Stack.is_empty] at hout
            exact List.isEmpty_iff.mp hout)
        · exact Or.inr hout
      · rw [if_neg hout]
        push_neg at hout
        have hne : c.ain.stack ≠ [] := by
          intro he
          apply hout.1.elim
          rw [Stack.is_empty, he]
          rfl
        cases hpop : c.ain.pop_back with
        | none =>
            exfalso
            rw [Stack.pop_back] at hpop
            cases hlast : c.ain.stack.getLast? with
            | none => exact hne (List.getLast?_eq_none_iff.mp hlast)
            | some o =>
                rw [hlast] at hpop
                cases hpop
        | some pr =>
            obtain ⟨o, ain2⟩ := pr
            dsimp only
            obtain ⟨hinv2, hsize2, hlen2, hpos⟩ :=
              stack_pop_back_spec hpop hain
            have hain2 : StackInv ({ c with
                ain := ain2, aout := c.aout.push_front o } :
                  TwoQCache).ain := hinv2
            have haout2 : StackInv ({ c with
                ain := ain2, aout := c.aout.push_front o } :
                  TwoQCache).aout := haout.push_front o
            obtain ⟨h1, h2, h3, h4, h5, h6, h7, h8, h9, h10⟩ :=
              ih _ hain2 haout2
            refine ⟨h1, h2, h3, h4, h5, h6, h7, h8, ?_, ?_⟩
            · rw [h9]
              show ain2.size + (c.aout.size + o.size) + c.am.size =
                c.ain.size + c.aout.size + c.am.size
              omega
            · intro hlen
              apply h10
              show ain2.stack.length ≤ n
              omega

theorem twoq_reduceAoutFuel_spec (fuel target : Nat) (c : TwoQCache)
    (haout : StackInv c.aout) :
    (TwoQCache.reduceAoutFuel fuel c target).ain = c.ain ∧
    (TwoQCache.reduceAoutFuel fuel c target).am = c.am ∧
    StackInv (TwoQCache.reduceAoutFuel fuel c target).aout ∧
    (TwoQCache.reduceAoutFuel fuel c target).max_size = c.max_size ∧
    (TwoQCache.reduceAoutFuel fuel c target).kin = c.kin ∧
    (TwoQCache.reduceAoutFuel fuel c target).kout = c.kout ∧
    (TwoQCache.reduceAoutFuel fuel c target).count = c.count ∧
    (TwoQCache.reduceAoutFuel fuel c target).hits = c.hits ∧
    (TwoQCache.reduceAoutFuel fuel c target).current_size ≤ c.current_size ∧
    (c.aout.stack.length ≤ fuel →
      ((TwoQCache.reduceAoutFuel fuel c target).is_aout_full = false ∧
       ((TwoQCache.reduceAoutFuel fuel c target).aout.stack = [] ∨
        (TwoQCache.reduceAoutFuel fuel c target).current_size ≤ target))) := by
  induction fuel generalizing c with
  | zero =>
      refine ⟨rfl, rfl, haout, rfl, rfl, rfl, rfl, rfl, le_rfl, ?_⟩
      intro hlen
      have hnil : c.aout.stack = [] :=
        List.length_eq_zero.mp (Nat.le_zero.mp hlen)
      have hzero := stack_empty_size haout hnil
      constructor
      · show decide (c.aout.size > ⌊c.kout * (c.max_size : ℚ)⌋₊) = false
        rw [hzero]
        simp
      · exact Or.inl hnil
  | succ n ih =>
      rw [TwoQCache.reduceAoutFuel]
      by_cases hcond : c.is_aout_full = true ∨
          (¬ c.aout.is_empty = true ∧ c.current_size > target)
      · rw [if_pos hcond]
        have hne : c.aout.stack ≠ [] := by
          intro he
          have hzero := stack_empty_size haout he
          rcases hcond with hfull | ⟨hnemp, _⟩
          · rw [TwoQCache.is_aout_full, hzero] at hfull
            simp at hfull
          · apply hnemp
            rw [Stack.is_empty, he]
            rfl
        cases hpop : c.aout.pop_back with
        | none =>
            exfalso
            rw [Stack.pop_back] at hpop
            cases hlast : c.aout.stack.getLast? with
            | none => exact hne (List.getLast?_eq_none_iff.mp hlast)
            | some o =>
                rw [hlast] at hpop
                cases hpop
        | some pr =>
            obtain ⟨o, aout2⟩ := pr
            dsimp only
            obtain ⟨hinv2, hsize2, hlen2, hpos⟩ :=
              stack_pop_back_spec hpop haout
            obtain ⟨h1, h2, h3, h4, h5, h6, h7, h8, h9, h10⟩ :=
              ih ({ c with aout := aout2 } : TwoQCache) hinv2
            refine ⟨h1, h2, h3, h4, h5, h6, h7, h8, ?_, ?_⟩
            · apply le_trans h9
              show c.ain.size + aout2.size + c.am.size ≤
                c.ain.size + c.aout.size + c.am.size
              omega
            · intro hlen
              apply h10
              show aout2.stack.length ≤ n
              omega
      · rw [if_neg hcond]
        push_neg at hcond
        refine ⟨rfl, rfl, haout, rfl, rfl, rfl, rfl, rfl, le_rfl, ?_⟩
        intro hlen
        constructor
        · cases hb : c.is_aout_full with
          | false => rfl
          | true => exact absurd hb hcond.1
        · cases hb : c.aout.is_empty with
          | true =>
              left
              rw [Stack.is_empty] at hb
              exact List.isEmpty_iff.mp hb
          | false =>
              right
              exact hcond.2 (by rw [hb]; exact Bool.false_ne_true)

theorem twoq_reduceAmFuel_spec (fuel target : Nat) (c : TwoQCache)
    (ham : StackInv c.am) :
    (TwoQCache.reduceAmFuel fuel c target).ain = c.ain ∧
    (TwoQCache.reduceAmFuel fuel c target).aout = c.aout ∧
    StackInv (TwoQCache.reduceAmFuel fuel c target).am ∧
    (TwoQCache.reduceAmFuel fuel c target).max_size = c.max_size ∧
    (TwoQCache.reduceAmFuel fuel c target).kin = c.kin ∧
    (TwoQCache.reduceAmFuel fuel c target).kout = c.kout ∧
    (TwoQCache.reduceAmFuel fuel c target).count = c.count ∧
    (TwoQCache.reduceAmFuel fuel c target).hits = c.hits ∧
    (TwoQCache.reduceAmFuel fuel c target).current_size ≤ c.current_size ∧
    (c.am.stack.length ≤ fuel →
      ((TwoQCache.reduceAmFuel fuel c target).current_size ≤ target ∨
       (TwoQCache.reduceAmFuel fuel c target).am.stack = [])) := by
  induction fuel generalizing c with
  | zero =>
      refine ⟨rfl, rfl, ham, rfl, rfl, rfl, rfl, rfl, le_rfl, ?_⟩
      intro hlen
      exact Or.inr (List.length_eq_zero.mp (Nat.le_zero.mp hlen))
  | succ n ih =>
      rw [TwoQCache.reduceAmFuel]
      by_cases hgt : c.current_size > target
      · rw [if_pos hgt]
        cases hpop : c.am.pop_back with
        | none =>
            have hnil : c.am.stack = [] := by
              rw [Stack.pop_back] at hpop
              cases hlast : c.am.stack.getLast? with
              | none => exact List.getLast?_eq_none_iff.mp hlast
              | some o =>
                  rw [hlast] at hpop
                  cases hpop
            exact ⟨rfl, rfl, ham, rfl, rfl, rfl, rfl, rfl, le_rfl,
              fun _ => Or.inr hnil⟩
        | some pr =>
            obtain ⟨o, am2⟩ := pr
            dsimp only
            obtain ⟨hinv2, hsize2, hlen2, hpos⟩ :=
              stack_pop_back_spec hpop ham
            obtain ⟨h1, h2, h3, h4, h5, h6, h7, h8, h9, h10⟩ :=
              ih ({ c with am := am2 } : TwoQCache) hinv2
            refine ⟨h1, h2, h3, h4, h5, h6, h7, h8, ?_, ?_⟩
            · apply le_trans h9
              show c.ain.size + c.aout.size + am2.size ≤
                c.ain.size + c.aout.size + c.am.size
              omega
            · intro hlen
              apply h10
              show am2.stack.length ≤ n
              omega
      · rw [if_neg hgt]
        push_neg at hgt
        exact ⟨rfl, rfl, ham, rfl, rfl, rfl, rfl, rfl, le_rfl,
          fun _ => Or.inl hgt⟩

theorem twoq_reduce_spec (c : TwoQCache) (target : Nat)
    (hain : StackInv c.ain) (haout : StackInv c.aout) (ham : StackInv c.am)
    (hkin1 : c.kin ≤ 1) :
    StackInv (c.reduce target).ain ∧ StackInv (c.reduce target).aout ∧
    StackInv (c.reduce target).am ∧
    (c.reduce target).max_size = c.max_size ∧
    (c.reduce target).kin = c.kin ∧
    (c.reduce target).kout = c.kout ∧
    (c.reduce target).count = c.count ∧
    (c.reduce target).hits = c.hits ∧
    (c.reduce target).current_size ≤ c.current_size ∧
    (target ≤ c.max_size → (c.reduce target).current_size ≤ target) := by
  obtain ⟨a1, a2, a3, a4, a5, a6, a7, a8, a9, a10⟩ :=
    twoq_reduceAinFuel_spec c.ain.stack.length c (c.max_size - target)
      hain haout
  set c1 := TwoQCache.reduceAinFuel c.ain.stack.length c
    (c.max_size - target) with hc1
  obtain ⟨b1, b2, b3, b4, b5, b6, b7, b8, b9, b10⟩ :=
    twoq_reduceAoutFuel_spec c1.aout.stack.length target c1 a2
  set c2 := TwoQCache.reduceAoutFuel c1.aout.stack.length c1 target with hc2
  have ham2 : StackInv c2.am := by
    rw [b2, a3]
    exact ham
  obtain ⟨d1, d2, d3, d4, d5, d6, d7, d8, d9, d10⟩ :=
    twoq_reduceAmFuel_spec c2.am.stack.length target c2 ham2
  set r := TwoQCache.reduceAmFuel c2.am.stack.length c2 target with hr
  have hred : c.reduce target = r := rfl
  rw [hred]
  refine ⟨by rw [d1, b1]; exact a1, by rw [d2]; exact b3, d3,
    by rw [d4, b4, a4], by rw [d5, b5, a5], by rw [d6, b6, a6],
    by rw [d7, b7, a7], by rw [d8, b8, a8],
    le_trans d9 (le_trans b9 (le_of_eq a9)), ?_⟩
  intro ht
  rcases d10 le_rfl with hle | hamnil
  · exact hle
  · have hamsz : r.am.size = 0 := stack_empty_size d3 hamnil
    obtain ⟨hfull, hcase⟩ := b10 le_rfl
    rcases hcase with haoutnil | hle2
    · have haoutsz : c2.aout.size = 0 := stack_empty_size b3 haoutnil
      have hcur : r.current_size = c1.ain.size + c2.aout.size + r.am.size := by
        rw [TwoQCache.current_size, d1, b1, d2]
      rcases a10 le_rfl with hainnil | hfit
      · have hainsz : c1.ain.size = 0 := stack_empty_size a1 hainnil
        rw [hcur, hainsz, haoutsz, hamsz]
        exact Nat.zero_le _
      · simp only [TwoQCache.can_ain_fit, decide_eq_true_eq] at hfit
        have hm1 : c1.ain_max_size ≤ c.max_size := by
          rw [TwoQCache.ain_max_size, a5, a4]
          have hmul : c.kin * (c.max_size : ℚ) ≤ (c.max_size : ℚ) :=
            mul_le_of_le_one_left (by positivity) hkin1
          calc ⌊c.kin * (c.max_size : ℚ)⌋₊ ≤ ⌊((c.max_size : Nat) : ℚ)⌋₊ :=
                Nat.floor_le_floor hmul
            _ = c.max_size := Nat.floor_natCast _
        rw [hcur, haoutsz, hamsz]
        omega
    · exact le_trans d9 hle2

theorem twoq_get_eq (c : TwoQCache) (a : Access)
    (hov : ¬ a.size > TwoQCache.methods.size c) :
    (CacheMethods.get TwoQCache.methods c a).1 =
      match c.aout.removeKey a.key with
      | some pr =>
          { c with
            count := c.count + 1
            hits := c.hits + 1
            aout := pr.2
            am := c.am.push_front pr.1 }
      | none =>
          match c.am.removeKey a.key with
          | some pr =>
              { c with
                count := c.count + 1
                hits := c.hits + 1
                am := pr.2.push_front pr.1 }
          | none =>
              if c.ain.stack.any (fun o => o.key = a.key) then
                { c with count := c.count + 1, hits := c.hits + 1 }
              else { c with count := c.count + 1 } := by
  obtain ⟨m, kin, kout, cnt, hts, ain, aout, am⟩ := c
  rw [CacheMethods.get, if_neg hov]
  cases h1 : aout.removeKey a.key with
  | some pr =>
      obtain ⟨o, aout2⟩ := pr
      simp only [TwoQCache.methods, TwoQCache.increment_count,
        TwoQCache.process_get, TwoQCache.increment_hits, h1]
      simp
  | none =>
      cases h2 : am.removeKey a.key with
      | some pr =>
          obtain ⟨o, am2⟩ := pr
          simp only [TwoQCache.methods, TwoQCache.increment_count,
            TwoQCache.process_get, TwoQCache.increment_hits, h1, h2]
          simp
      | none =>
          cases h3 : ain.stack.any (fun o => o.key = a.key) with
          | true =>
              simp only [TwoQCache.methods, TwoQCache.increment_count,
                TwoQCache.process_get, TwoQCache.increment_hits, h1, h2, h3]
              simp
          | false =>
              simp only [TwoQCache.methods, TwoQCache.increment_count,
                TwoQCache.process_get, TwoQCache.increment_hits, h1, h2, h3]
              simp

theorem twoq_applyOp_inv (c : TwoQCache) (op : CacheOp) (h : TwoQInv c) :
    TwoQInv (applyOp TwoQCache.methods c op) := by
  obtain ⟨hain, haout, ham, hkp, hop, hks, hfit, hh0, hhc⟩ := h
  have hkin1 : c.kin ≤ 1 := by linarith
  cases op with
  | get a =>
      show TwoQInv (CacheMethods.get TwoQCache.methods c a).1
      by_cases hov : a.size > TwoQCache.methods.size c
      · rw [CacheMethods.get, if_pos hov]
        exact ⟨hain, haout, ham, hkp, hop, hks, hfit, hh0, hhc⟩
      · rw [twoq_get_eq c a hov]
        cases h1 : c.aout.removeKey a.key with
        | some pr =>
            obtain ⟨o, aout2⟩ := pr
            obtain ⟨hinv2, hsz2⟩ := stack_removeKey_spec h1 haout
            refine ⟨hain, hinv2, ham.push_front o, hkp, hop, hks, ?_,
              by show (0:ℚ) ≤ c.hits + 1; linarith,
              by show c.hits + 1 ≤ c.count + 1; linarith⟩
            show c.ain.size + aout2.size + (c.am.size + o.size) ≤ c.max_size
            rw [TwoQCache.current_size] at hfit
            omega
        | none =>
            cases h2 : c.am.removeKey a.key with
            | some pr =>
                obtain ⟨o, am2⟩ := pr
                obtain ⟨hinv2, hsz2⟩ := stack_removeKey_spec h2 ham
                refine ⟨hain, haout, hinv2.push_front o, hkp, hop, hks, ?_,
                  by show (0:ℚ) ≤ c.hits + 1; linarith,
                  by show c.hits + 1 ≤ c.count + 1; linarith⟩
                show c.ain.size + c.aout.size + (am2.size + o.size) ≤
                  c.max_size
                rw [TwoQCache.current_size] at hfit
                omega
            | none =>
                cases h3 : c.ain.stack.any (fun o => o.key = a.key) with
                | true =>
                    rw [if_pos rfl]
                    exact ⟨hain, haout, ham, hkp, hop, hks, hfit,
                      by show (0:ℚ) ≤ c.hits + 1; linarith,
                      by show c.hits + 1 ≤ c.count + 1; linarith⟩
                | false =>
                    rw [if_neg (by simp)]
                    exact ⟨hain, haout, ham, hkp, hop, hks, hfit, hh0,
                      by show c.hits ≤ c.count + 1; linarith⟩
  | set a =>
      show TwoQInv (CacheMethods.set TwoQCache.methods c a)
      rw [CacheMethods.set]
      by_cases hov : a.size > TwoQCache.methods.size c
      · rw [if_pos hov]
        exact ⟨hain, haout, ham, hkp, hop, hks, hfit, hh0, hhc⟩
      · rw [if_neg hov]
        show TwoQInv (TwoQCache.process_set c a)
        rw [TwoQCache.process_set]
        by_cases hrej : a.size > c.max_size ∨ c.process_has a.key = true
        · rw [if_pos hrej]
          exact ⟨hain, haout, ham, hkp, hop, hks, hfit, hh0, hhc⟩
        · rw [if_neg hrej]
          push_neg at hrej
          have hsmall : a.size ≤ c.max_size := by
            have := hrej.1
            omega
          obtain ⟨r1, r2, r3, r4, r5, r6, r7, r8, r9, r10⟩ :=
            twoq_reduce_spec c (c.max_size - a.size) hain haout ham hkin1
          have hred := r10 (Nat.sub_le _ _)
          refine ⟨r1.push_front _, r2, r3,
            by rw [r5]; exact hkp, by rw [r6]; exact hop,
            by rw [r5, r6]; exact hks, ?_,
            by rw [r8]; exact hh0, by rw [r8, r7]; exact hhc⟩
          show (c.reduce (c.max_size - a.size)).ain.size + a.size +
              (c.reduce (c.max_size - a.size)).aout.size +
              (c.reduce (c.max_size - a.size)).am.size ≤
            (c.reduce (c.max_size - a.size)).max_size
          rw [r4]
          rw [TwoQCache.current_size] at hred
          omega
  | del k =>
      show TwoQInv (TwoQCache.process_del c k)
      rw [TwoQCache.process_del]
      cases h1 : c.ain.removeKey k with
      | some pr =>
          obtain ⟨o, ain2⟩ := pr
          obtain ⟨hinv2, hsz2⟩ := stack_removeKey_spec h1 hain
          refine ⟨hinv2, haout, ham, hkp, hop, hks, ?_, hh0, hhc⟩
          show ain2.size + c.aout.size + c.am.size ≤ c.max_size
          rw [TwoQCache.current_size] at hfit
          omega
      | none =>
          cases h2 : c.aout.removeKey k with
          | some pr =>
              obtain ⟨o, aout2⟩ := pr
              obtain ⟨hinv2, hsz2⟩ := stack_removeKey_spec h2 haout
              refine ⟨hain, hinv2, ham, hkp, hop, hks, ?_, hh0, hhc⟩
              show c.ain.size + aout2.size + c.am.size ≤ c.max_size
              rw [TwoQCache.current_size] at hfit
              omega
          | none =>
              cases h3 : c.am.removeKey k with
              | some pr =>
                  obtain ⟨o, am2⟩ := pr
                  obtain ⟨hinv2, hsz2⟩ := stack_removeKey_spec h3 ham
                  refine ⟨hain, haout, hinv2, hkp, hop, hks, ?_, hh0, hhc⟩
                  show c.ain.size + c.aout.size + am2.size ≤ c.max_size
                  rw [TwoQCache.current_size] at hfit
                  omega
              | none =>
                  exact ⟨hain, haout, ham, hkp, hop, hks, hfit, hh0, hhc⟩
  | reduce n =>
      show TwoQInv (c.reduce n)
      obtain ⟨r1, r2, r3, r4, r5, r6, r7, r8, r9, r10⟩ :=
        twoq_reduce_spec c n hain haout ham hkin1
      exact ⟨r1, r2, r3, by rw [r5]; exact hkp, by rw [r6]; exact hop,
        by rw [r5, r6]; exact hks,
        by rw [r4]; exact le_trans r9 hfit,
        by rw [r8]; exact hh0, by rw [r8, r7]; exact hhc⟩
  | resize n =>
      show TwoQInv { c.reduce n with max_size := n }
      obtain ⟨r1, r2, r3, r4, r5, r6, r7, r8, r9, r10⟩ :=
        twoq_reduce_spec c n hain haout ham hkin1
      refine ⟨r1, r2, r3, by rw [r5]; exact hkp, by rw [r6]; exact hop,
        by rw [r5, r6]; exact hks, ?_,
        by
          show (0:ℚ) ≤ (c.reduce n).hits
          rw [r8]
          exact hh0,
        by
          show (c.reduce n).hits ≤ (c.reduce n).count
          rw [r8, r7]
          exact hhc⟩
      show (c.reduce n).ain.size + (c.reduce n).aout.size +
        (c.reduce n).am.size ≤ n
      by_cases hcmp : n ≤ c.max_size
      · have := r10 hcmp
        rw [TwoQCache.current_size] at this
        omega
      · have h1 : (c.reduce n).current_size ≤ c.current_size := r9
        rw [TwoQCache.current_size, TwoQCache.current_size] at h1
        rw [TwoQCache.current_size] at hfit
        omega

theorem twoq_runOps_inv (ops : List CacheOp) (c : TwoQCache)
    (h : TwoQInv c) : TwoQInv (runOps TwoQCache.methods c ops) := by
  induction ops generalizing c with
  | nil => exact h
  | cons op rest ih => exact ih _ (twoq_applyOp_inv c op h)

/-! ## LRFU invariant preservation (claim C8) -/

theorem foldl_pick_mem (x : LrfuObject) (rest : List LrfuObject) :
    rest.foldl (fun acc o => if LrfuCache.ordAfter o acc then o else acc) x ∈
      x :: rest := by
  induction rest generalizing x with
  | nil => exact List.mem_singleton.mpr rfl
  | cons y ys ih =>
      rw [List.foldl_cons]
      have h := ih (if LrfuCache.ordAfter y x then y else x)
      rcases List.mem_cons.mp h with he | hmem
      · by_cases hc : LrfuCache.ordAfter y x
        · rw [if_pos hc] at he
          rw [if_pos hc, he]
          exact List.mem_cons_of_mem x (List.mem_cons_self y ys)
        · rw [if_neg hc] at he
          rw [if_neg hc, he]
          exact List.mem_cons_self _ _
      · exact List.mem_cons_of_mem x (List.mem_cons_of_mem y hmem)

theorem victim_mem (l : List LrfuObject) (v : LrfuObject)
    (h : LrfuCache.victim l = some v) : v ∈ l := by
  cases l with
  | nil => cases h
  | cons x rest =>
      rw [LrfuCache.victim] at h
      injection h with h
      rw [← h]
      exact foldl_pick_mem x rest

theorem lrfu_reduceFuel_spec (fuel target : Nat) (c : LrfuCache)
    (hsz : c.current_size = sizesSum (fun o => o.object.size) c.stack) :
    (LrfuCache.reduceFuel fuel c target).current_size =
        sizesSum (fun o => o.object.size)
          (LrfuCache.reduceFuel fuel c target).stack ∧
    (LrfuCache.reduceFuel fuel c target).max_size = c.max_size ∧
    (LrfuCache.reduceFuel fuel c target).count = c.count ∧
    (LrfuCache.reduceFuel fuel c target).hits = c.hits ∧
    (LrfuCache.reduceFuel fuel c target).f = c.f ∧
    (LrfuCache.reduceFuel fuel c target).intrinsic_timestamp =
      c.intrinsic_timestamp ∧
    (LrfuCache.reduceFuel fuel c target).current_size ≤ c.current_size ∧
    (c.stack.length ≤ fuel →
      (LrfuCache.reduceFuel fuel c target).current_size ≤ target) := by
  induction fuel generalizing c with
  | zero =>
      refine ⟨hsz, rfl, rfl, rfl, rfl, rfl, le_rfl, ?_⟩
      intro hlen
      have hnil : c.stack = [] := List.length_eq_zero.mp (Nat.le_zero.mp hlen)
      show c.current_size ≤ target
      rw [hsz, hnil, sizesSum_nil]
      exact Nat.zero_le _
  | succ n ih =>
      rw [LrfuCache.reduceFuel]
      by_cases hle : c.current_size ≤ target
      · rw [if_pos hle]
        exact ⟨hsz, rfl, rfl, rfl, rfl, rfl, le_rfl, fun _ => hle⟩
      · rw [if_neg hle]
        cases hvic : LrfuCache.victim c.stack with
        | none =>
            exfalso
            apply hle
            cases hstk : c.stack with
            | nil =>
                rw [hsz, hstk, sizesSum_nil]
                exact Nat.zero_le _
            | cons x rest =>
                rw [hstk, LrfuCache.victim] at hvic
                cases hvic
        | some v =>
            have hmem := victim_mem c.stack v hvic
            have hsum : sizesSum (fun o => o.object.size) c.stack =
                v.object.size +
                  sizesSum (fun o => o.object.size) (c.stack.erase v) :=
              sizesSum_erase _ _ _ hmem
            have hlen2 : (c.stack.erase v).length = c.stack.length - 1 :=
              List.length_erase_of_mem hmem
            have hpos : 0 < c.stack.length :=
              List.length_pos.mpr (List.ne_nil_of_mem hmem)
            have hsz2 : ({ c with
                stack := c.stack.erase v,
                current_size := c.current_size - v.object.size } :
                  LrfuCache).current_size =
                sizesSum (fun o => o.object.size)
                  ({ c with
                    stack := c.stack.erase v,
                    current_size := c.current_size - v.object.size } :
                      LrfuCache).stack := by
              show c.current_size - v.object.size =
                sizesSum (fun o => o.object.size) (c.stack.erase v)
              omega
            obtain ⟨ha, hb, hc2, hd, he2, hf2, hg, hh⟩ := ih _ hsz2
            refine ⟨ha, hb, hc2, hd, he2, hf2,
              le_trans hg (Nat.sub_le _ _), ?_⟩
            intro hlen
            apply hh
            show (c.stack.erase v).length ≤ n
            omega

theorem lrfu_get_eq (c : LrfuCache) (a : Access)
    (hov : ¬ a.size > LrfuCache.methods.size c) :
    (CacheMethods.get LrfuCache.methods c a).1 =
      match c.stack.find? (fun o => o.object.key = a.key) with
      | none =>
          { c with
            count := c.count + 1
            intrinsic_timestamp := c.intrinsic_timestamp + 1 }
      | some o =>
          { c with
            count := c.count + 1
            hits := c.hits + 1
            intrinsic_timestamp := c.intrinsic_timestamp + 1
            stack := { o with
              last_access := c.intrinsic_timestamp + 1,
              crf := c.f 0 +
                c.f (c.intrinsic_timestamp + 1 - o.last_access) * o.crf } ::
              c.stack.erase o } := by
  obtain ⟨m, cur, cnt, hts, stk, f0, ts⟩ := c
  rw [CacheMethods.get, if_neg hov]
  cases hf : stk.find? (fun o => o.object.key = a.key) with
  | none =>
      simp only [LrfuCache.methods, LrfuCache.increment_count,
        LrfuCache.process_get, LrfuCache.increment_hits,
        LrfuCache.get_updated_crf, hf]
      simp
  | some o =>
      simp only [LrfuCache.methods, LrfuCache.increment_count,
        LrfuCache.process_get, LrfuCache.increment_hits,
        LrfuCache.get_updated_crf, hf]
      simp

theorem lrfu_applyOp_inv (c : LrfuCache) (op : CacheOp) (h : LrfuInv c) :
    LrfuInv (applyOp LrfuCache.methods c op) := by
  obtain ⟨hsz, hfit, hh0, hhc⟩ := h
  cases op with
  | get a =>
      show LrfuInv (CacheMethods.get LrfuCache.methods c a).1
      by_cases hov : a.size > LrfuCache.methods.size c
      · rw [CacheMethods.get, if_pos hov]
        exact ⟨hsz, hfit, hh0, hhc⟩
      · rw [lrfu_get_eq c a hov]
        cases hf : c.stack.find? (fun o => o.object.key = a.key) with
        | none =>
            exact ⟨hsz, hfit, hh0, by show c.hits ≤ c.count + 1; linarith⟩
        | some o =>
            have hmem := List.mem_of_find?_eq_some hf
            have hsum : sizesSum (fun o => o.object.size) c.stack =
                o.object.size +
                  sizesSum (fun o => o.object.size) (c.stack.erase o) :=
              sizesSum_erase _ _ _ hmem
            refine ⟨?_, hfit, by show (0:ℚ) ≤ c.hits + 1; linarith,
              by show c.hits + 1 ≤ c.count + 1; linarith⟩
            show c.current_size = sizesSum (fun o => o.object.size)
              ({ o with
                last_access := c.intrinsic_timestamp + 1,
                crf := c.f 0 +
                  c.f (c.intrinsic_timestamp + 1 - o.last_access) * o.crf } ::
                c.stack.erase o)
            rw [sizesSum_cons]
            show c.current_size = o.object.size +
              sizesSum (fun o => o.object.size) (c.stack.erase o)
            omega
  | set a =>
      show LrfuInv (CacheMethods.set LrfuCache.methods c a)
      rw [CacheMethods.set]
      by_cases hov : a.size > LrfuCache.methods.size c
      · rw [if_pos hov]
        exact ⟨hsz, hfit, hh0, hhc⟩
      · rw [if_neg hov]
        show LrfuInv (LrfuCache.process_set c a)
        rw [LrfuCache.process_set]
        dsimp only
        have hhas : LrfuCache.process_has
            ({ c with
              intrinsic_timestamp := c.intrinsic_timestamp + 1 } :
                LrfuCache) a.key = c.process_has a.key := rfl
        by_cases hrej : a.size > c.max_size ∨ c.process_has a.key = true
        · rw [if_pos (by
            rcases hrej with hr | hr
            · exact Or.inl hr
            · exact Or.inr (by rw [hhas]; exact hr))]
          exact ⟨hsz, hfit, hh0, hhc⟩
        · rw [if_neg (by
            intro hcon
            apply hrej
            rcases hcon with hr | hr
            · exact Or.inl hr
            · exact Or.inr (by rw [← hhas]; exact hr))]
          push_neg at hrej
          have hsmall : a.size ≤ c.max_size := by
            have := hrej.1
            omega
          obtain ⟨ha, hb, hc2, hd, he2, hf2, hg, hh⟩ :=
            lrfu_reduceFuel_spec c.stack.length (c.max_size - a.size)
              ({ c with
                intrinsic_timestamp := c.intrinsic_timestamp + 1 } :
                  LrfuCache) hsz
          have hred := hh le_rfl
          refine ⟨?_, ?_, ?_, ?_⟩
          · show _ + a.size = sizesSum (fun o => o.object.size)
              ((⟨⟨a.key, a.size⟩, _, _⟩ : LrfuObject) :: _)
            rw [sizesSum_cons]
            show (LrfuCache.reduceFuel c.stack.length _
              (c.max_size - a.size)).current_size + a.size =
              a.size + sizesSum (fun o => o.object.size)
                (LrfuCache.reduceFuel c.stack.length _
                  (c.max_size - a.size)).stack
            omega
          · show (LrfuCache.reduceFuel c.stack.length _
                (c.max_size - a.size)).current_size + a.size ≤
              (LrfuCache.reduceFuel c.stack.length _
                (c.max_size - a.size)).max_size
            rw [hb]
            show _ ≤ c.max_size
            exact le_trans (Nat.add_le_add_right hred _)
              (le_of_eq (Nat.sub_add_cancel hsmall))
          · show (0:ℚ) ≤ (LrfuCache.reduceFuel c.stack.length _
                (c.max_size - a.size)).hits
            rw [hd]
            exact hh0
          · show (LrfuCache.reduceFuel c.stack.length _
                  (c.max_size - a.size)).hits ≤
              (LrfuCache.reduceFuel c.stack.length _
                (c.max_size - a.size)).count
            rw [hd, hc2]
            exact hhc
  | del k =>
      show LrfuInv (LrfuCache.process_del c k)
      rw [LrfuCache.process_del]
      dsimp only
      cases hf : c.stack.find? (fun o => o.object.key = k) with
      | none => exact ⟨hsz, hfit, hh0, hhc⟩
      | some o =>
          have hmem := List.mem_of_find?_eq_some hf
          have hsum : sizesSum (fun o => o.object.size) c.stack =
              o.object.size +
                sizesSum (fun o => o.object.size) (c.stack.erase o) :=
            sizesSum_erase _ _ _ hmem
          refine ⟨?_, ?_, hh0, hhc⟩
          · show c.current_size - o.object.size =
              sizesSum (fun o => o.object.size) (c.stack.erase o)
            omega
          · show c.current_size - o.object.size ≤ c.max_size
            omega
  | reduce n =>
      show LrfuInv (LrfuCache.reduceFuel c.stack.length c n)
      obtain ⟨ha, hb, hc2, hd, he2, hf2, hg, hh⟩ :=
        lrfu_reduceFuel_spec c.stack.length n c hsz
      exact ⟨ha, by rw [hb]; exact le_trans hg hfit,
        by rw [hd]; exact hh0, by rw [hd, hc2]; exact hhc⟩
  | resize n =>
      show LrfuInv { LrfuCache.reduceFuel c.stack.length c n with
        max_size := n }
      obtain ⟨ha, hb, hc2, hd, he2, hf2, hg, hh⟩ :=
        lrfu_reduceFuel_spec c.stack.length n c hsz
      refine ⟨ha, hh le_rfl, ?_, ?_⟩
      · show (0:ℚ) ≤ (LrfuCache.reduceFuel c.stack.length c n).hits
        rw [hd]
        exact hh0
      · show (LrfuCache.reduceFuel c.stack.length c n).hits ≤
          (LrfuCache.reduceFuel c.stack.length c n).count
        rw [hd, hc2]
        exact hhc

theorem lrfu_runOps_inv (ops : List CacheOp) (c : LrfuCache)
    (h : LrfuInv c) : LrfuInv (runOps LrfuCache.methods c ops) := by
  induction ops generalizing c with
  | nil => exact h
  | cons op rest ih => exact ih _ (lrfu_applyOp_inv c op h)

/-! ## Claim C8: the cache invariants, assembled -/

theorem fifoInv_new (n : Nat) : FifoInv (FifoCache.new n) :=
  ⟨rfl, Nat.zero_le n, le_refl 0, le_refl 0⟩

theorem lfuInv_new (n : Nat) : LfuInv (LfuCache.new n) :=
  ⟨rfl, fun cl h => absurd h (List.not_mem_nil cl), Nat.zero_le n,
    le_refl 0, le_refl 0⟩

theorem twoqInv_new (n : Nat) (kin kout : ℚ)
    (h1 : 0 < kin) (h2 : 0 < kout) (h3 : kin + kout ≤ 1) :
    TwoQInv (TwoQCache.new n kin kout) :=
  ⟨StackInv_empty, StackInv_empty, StackInv_empty, h1, h2, h3,
    Nat.zero_le n, le_refl 0, le_refl 0⟩

theorem lrfuInv_new (n : Nat) (f : Nat → ℚ) : LrfuInv (LrfuCache.new n f) :=
  ⟨rfl, Nat.zero_le n, le_refl 0, le_refl 0⟩

/-- Claim C8: for each concrete cache (FIFO, LFU, 2Q, LRFU) and every
sequence of `get`/`set`/`del`/`reduce`/`resize` operations applied to a
freshly constructed cache (2Q under its constructor preconditions
`0 < kin`, `0 < kout`, `kin + kout ≤ 1`), the final state satisfies
`hits ≤ count`, `0 ≤ miss_ratio ≤ 1`, `miss_ratio = 1 - hits/count`
when `count > 0` and `miss_ratio = 0` when `count = 0`, and
`current_size ≤ max_size`. -/
theorem c8_cache_invariants (ops : List CacheOp)
    (nf nl nq nr : Nat) (kin kout : ℚ) (f : Nat → ℚ)
    (hkin : 0 < kin) (hkout : 0 < kout) (hsum : kin + kout ≤ 1) :
    (let c := runOps FifoCache.methods (FifoCache.new nf) ops
     c.hits ≤ c.count ∧ 0 ≤ c.miss_ratio ∧ c.miss_ratio ≤ 1 ∧
       (c.count > 0 → c.miss_ratio = 1 - c.hits / c.count) ∧
       (c.count = 0 → c.miss_ratio = 0) ∧
       c.current_size ≤ c.max_size) ∧
    (let c := runOps LfuCache.methods (LfuCache.new nl) ops
     c.hits ≤ c.count ∧ 0 ≤ c.miss_ratio ∧ c.miss_ratio ≤ 1 ∧
       (c.count > 0 → c.miss_ratio = 1 - c.hits / c.count) ∧
       (c.count = 0 → c.miss_ratio = 0) ∧
       c.current_size ≤ c.max_size) ∧
    (let c := runOps TwoQCache.methods (TwoQCache.new nq kin kout) ops
     c.hits ≤ c.count ∧ 0 ≤ c.miss_ratio ∧ c.miss_ratio ≤ 1 ∧
       (c.count > 0 → c.miss_ratio = 1 - c.hits / c.count) ∧
       (c.count = 0 → c.miss_ratio = 0) ∧
       c.current_size ≤ c.max_size) ∧
    (let c := runOps LrfuCache.methods (LrfuCache.new nr f) ops
     c.hits ≤ c.count ∧ 0 ≤ c.miss_ratio ∧ c.miss_ratio ≤ 1 ∧
       (c.count > 0 → c.miss_ratio = 1 - c.hits / c.count) ∧
       (c.count = 0 → c.miss_ratio = 0) ∧
       c.current_size ≤ c.max_size) := by
  obtain ⟨_, ffit, fh0, fhc⟩ :=
    fifo_runOps_inv ops (FifoCache.new nf) (fifoInv_new nf)
  obtain ⟨_, _, lfit, lh0, lhc⟩ :=
    lfu_runOps_inv ops (LfuCache.new nl) (lfuInv_new nl)
  obtain ⟨_, _, _, _, _, _, qfit, qh0, qhc⟩ :=
    twoq_runOps_inv ops (TwoQCache.new nq kin kout)
      (twoqInv_new nq kin kout hkin hkout hsum)
  obtain ⟨_, rfit, rh0, rhc⟩ :=
    lrfu_runOps_inv ops (LrfuCache.new nr f) (lrfuInv_new nr f)
  refine ⟨⟨fhc, ?_, ?_, ?_, ?_, ffit⟩, ⟨lhc, ?_, ?_, ?_, ?_, lfit⟩,
    ⟨qhc, ?_, ?_, ?_, ?_, qfit⟩, ⟨rhc, ?_, ?_, ?_, ?_, rfit⟩⟩
  · exact (missRatio_bounds _ _ fh0 fhc).1
  · exact (missRatio_bounds _ _ fh0 fhc).2
  · intro hpos
    rw [FifoCache.miss_ratio, if_pos hpos]
  · intro h0
    rw [FifoCache.miss_ratio, if_neg (by rw [h0]; exact lt_irrefl 0)]
  · exact (missRatio_bounds _ _ lh0 lhc).1
  · exact (missRatio_bounds _ _ lh0 lhc).2
  · intro hpos
    rw [LfuCache.miss_ratio, if_pos hpos]
  · intro h0
    rw [LfuCache.miss_ratio, if_neg (by rw [h0]; exact lt_irrefl 0)]
  · exact (missRatio_bounds _ _ qh0 qhc).1
  · exact (missRatio_bounds _ _ qh0 qhc).2
  · intro hpos
    rw [TwoQCache.miss_ratio, if_pos hpos]
  · intro h0
    rw [TwoQCache.miss_ratio, if_neg (by rw [h0]; exact lt_irrefl 0)]
  · exact (missRatio_bounds _ _ rh0 rhc).1
  · exact (missRatio_bounds _ _ rh0 rhc).2
  · intro hpos
    rw [LrfuCache.miss_ratio, if_pos hpos]
  · intro h0
    rw [LrfuCache.miss_ratio, if_neg (by rw [h0]; exact lt_irrefl 0)]

/-- Witness for C8 at a concrete operation sequence and parameters. -/
theorem c8_witness :
    (0 : ℚ) < 1/4 ∧ (0 : ℚ) < 1/2 ∧ (1/4 : ℚ) + 1/2 ≤ 1 ∧
    ((let c := runOps FifoCache.methods (FifoCache.new 10)
        [CacheOp.set ⟨1, 2, 0⟩, CacheOp.get ⟨1, 2, 0⟩, CacheOp.resize 1]
      c.hits ≤ c.count ∧ 0 ≤ c.miss_ratio ∧ c.miss_ratio ≤ 1 ∧
        (c.count > 0 → c.miss_ratio = 1 - c.hits / c.count) ∧
        (c.count = 0 → c.miss_ratio = 0) ∧
        c.current_size ≤ c.max_size) ∧
     (let c := runOps LfuCache.methods (LfuCache.new 10)
        [CacheOp.set ⟨1, 2, 0⟩, CacheOp.get ⟨1, 2, 0⟩, CacheOp.resize 1]
      c.hits ≤ c.count ∧ 0 ≤ c.miss_ratio ∧ c.miss_ratio ≤ 1 ∧
        (c.count > 0 → c.miss_ratio = 1 - c.hits / c.count) ∧
        (c.count = 0 → c.miss_ratio = 0) ∧
        c.current_size ≤ c.max_size) ∧
     (let c := runOps TwoQCache.methods (TwoQCache.new 10 (1/4) (1/2))
        [CacheOp.set ⟨1, 2, 0⟩, CacheOp.get ⟨1, 2, 0⟩, CacheOp.resize 1]
      c.hits ≤ c.count ∧ 0 ≤ c.miss_ratio ∧ c.miss_ratio ≤ 1 ∧
        (c.count > 0 → c.miss_ratio = 1 - c.hits / c.count) ∧
        (c.count = 0 → c.miss_ratio = 0) ∧
        c.current_size ≤ c.max_size) ∧
     (let c := runOps LrfuCache.methods (LrfuCache.new 10 (fun _ => 1))
        [CacheOp.set ⟨1, 2, 0⟩, CacheOp.get ⟨1, 2, 0⟩, CacheOp.resize 1]
      c.hits ≤ c.count ∧ 0 ≤ c.miss_ratio ∧ c.miss_ratio ≤ 1 ∧
        (c.count > 0 → c.miss_ratio = 1 - c.hits / c.count) ∧
        (c.count = 0 → c.miss_ratio = 0) ∧
        c.current_size ≤ c.max_size)) :=
  ⟨by norm_num, by norm_num, by norm_num,
    c8_cache_invariants
      [CacheOp.set ⟨1, 2, 0⟩, CacheOp.get ⟨1, 2, 0⟩, CacheOp.resize 1]
      10 10 10 10 (1/4) (1/2) (fun _ => 1)
      (by norm_num) (by norm_num) (by norm_num)⟩

/-! ## Claim C1: helper lemmas on the eviction driver -/

theorem getD_set_self {α : Type} (l : List α) (i : Nat) (a d : α)
    (h : i < l.length) : (l.set i a).getD i d = a := by
  rw [List.getD_eq_getElem?_getD, List.getElem?_set_self h]
  rfl

theorem getD_set_ne {α : Type} (l : List α) (i j : Nat) (a d : α)
    (h : i ≠ j) : (l.set i a).getD j d = l.getD j d := by
  rw [List.getD_eq_getElem?_getD, List.getElem?_set_ne h,
    ← List.getD_eq_getElem?_getD]

theorem getD_map_nil (ls : List (List Nat)) (j : Nat) :
    ((ls.map fun _ => ([] : List Nat)).getD j []) = [] := by
  rw [List.getD_eq_getElem?_getD, List.getElem?_map]
  cases ls[j]? with
  | none => rfl
  | some l => rfl

theorem stepRange_mem_iff (fuel lo hi step s : Nat)
    (hfuel : hi ≤ lo + fuel * step) :
    s ∈ stepRange fuel lo hi step ↔ ∃ j, s = lo + j * step ∧ s < hi := by
  induction fuel generalizing lo with
  | zero =>
      rw [Nat.zero_mul] at hfuel
      simp only [stepRange, List.not_mem_nil, false_iff]
      rintro ⟨j, rfl, hlt⟩
      omega
  | succ n ih =>
      rw [Nat.succ_mul] at hfuel
      rw [stepRange]
      by_cases hlt : lo < hi
      · rw [if_pos hlt, List.mem_cons, ih (lo + step) (by omega)]
        constructor
        · rintro (rfl | ⟨j, rfl, hj⟩)
          · exact ⟨0, by ring, hlt⟩
          · exact ⟨j + 1, by ring, hj⟩
        · rintro ⟨j, rfl, hj⟩
          cases j with
          | zero => left; simp
          | succ j2 => right; exact ⟨j2, by ring, hj⟩
      · rw [if_neg hlt]
        simp only [List.not_mem_nil, false_iff]
        rintro ⟨j, rfl, hj⟩
        exact hlt (lt_of_le_of_lt (Nat.le_add_right lo (j * step)) hj)

theorem stepRange_getElem (fuel lo hi step j : Nat)
    (hfuel : hi ≤ lo + fuel * step) :
    (stepRange fuel lo hi step)[j]? =
      if lo + j * step < hi then some (lo + j * step) else none := by
  induction fuel generalizing lo j with
  | zero =>
      rw [Nat.zero_mul] at hfuel
      rw [stepRange, if_neg (by omega)]
      rfl
  | succ n ih =>
      rw [Nat.succ_mul] at hfuel
      rw [stepRange]
      by_cases hlt : lo < hi
      · rw [if_pos hlt]
        cases j with
        | zero =>
            rw [List.getElem?_cons_zero, Nat.zero_mul, Nat.add_zero,
              if_pos hlt]
        | succ j2 =>
            rw [List.getElem?_cons_succ, ih (lo + step) j2 (by omega)]
            have harith : lo + step + j2 * step = lo + (j2 + 1) * step := by
              ring
            rw [harith]
      · rw [if_neg hlt, if_neg (by omega), List.getElem?_nil]

theorem cacheSizes_fuel (step simulate : Nat) (hstep : 0 < step) :
    simulate + step ≤ step + (simulate + step) * step := by
  have h : simulate + step ≤ (simulate + step) * step :=
    Nat.le_mul_of_pos_right _ hstep
  omega

theorem cacheSizes_mem_iff (step simulate s : Nat) (hstep : 0 < step) :
    s ∈ cacheSizes step simulate ↔
      ∃ m, 1 ≤ m ∧ s = m * step ∧ s < simulate + step := by
  rw [cacheSizes, stepRange_mem_iff _ _ _ _ _ (cacheSizes_fuel _ _ hstep)]
  constructor
  · rintro ⟨j, rfl, hj⟩
    exact ⟨j + 1, by omega, by ring, hj⟩
  · rintro ⟨m, hm, rfl, hj⟩
    obtain ⟨j, rfl⟩ : ∃ j, m = j + 1 := ⟨m - 1, by omega⟩
    exact ⟨j, by ring, hj⟩

theorem cacheSizes_getElem (step simulate j : Nat) (hstep : 0 < step) :
    (cacheSizes step simulate)[j]? =
      if (j + 1) * step < simulate + step then some ((j + 1) * step)
      else none := by
  rw [cacheSizes, stepRange_getElem _ _ _ _ _ (cacheSizes_fuel _ _ hstep)]
  have harith : step + j * step = (j + 1) * step := by ring
  rw [harith]

theorem cacheSizes_length_cond (step simulate j : Nat) (hstep : 0 < step) :
    j < (cacheSizes step simulate).length ↔
      (j + 1) * step < simulate + step := by
  constructor
  · intro hj
    have h := cacheSizes_getElem step simulate j hstep
    rw [List.getElem?_eq_getElem hj] at h
    by_contra hc
    rw [if_neg hc] at h
    cases h
  · intro hc
    by_contra hj
    have h := cacheSizes_getElem step simulate j hstep
    rw [List.getElem?_eq_none (by omega), if_pos hc] at h
    cases h

theorem range_map_cacheSizes (step simulate : Nat) (hstep : 0 < step) :
    (List.range (cacheSizes step simulate).length).map
        (fun idx => (idx + 1) * step) =
      cacheSizes step simulate := by
  apply List.ext_getElem?
  intro j
  rw [List.getElem?_map, cacheSizes_getElem _ _ _ hstep]
  by_cases hj : j < (cacheSizes step simulate).length
  · rw [List.getElem?_range hj,
      if_pos ((cacheSizes_length_cond _ _ _ hstep).mp hj)]
    rfl
  · rw [List.getElem?_eq_none (by simpa using hj),
      if_neg (fun hc => hj ((cacheSizes_length_cond _ _ _ hstep).mpr hc))]
    rfl

theorem stepSize_pos (granularity accessSize simulate : Nat) :
    0 < stepSize granularity accessSize simulate := by
  rw [stepSize]
  have h : 0 < MIN_RECONSTRUCTED_STACK_SIZE := by
    rw [MIN_RECONSTRUCTED_STACK_SIZE]; omega
  omega

theorem setIns_length {M : Type} (ins : M → Nat → M) (maps : List M)
    (i size : Nat) : (setIns ins maps i size).length = maps.length := by
  rw [setIns]
  cases h : maps[i]? with
  | none => rfl
  | some m => exact List.length_set maps i (ins m size)

theorem setIns_getElem {M : Type} (ins : M → Nat → M) (maps : List M)
    (i size j : Nat) :
    (setIns ins maps i size)[j]? =
      if i = j then maps[j]?.map (fun m => ins m size) else maps[j]? := by
  rw [setIns]
  cases h : maps[i]? with
  | none =>
      by_cases hij : i = j
      · subst hij
        rw [if_pos rfl, h]
        rfl
      · rw [if_neg hij]
  | some m =>
      by_cases hij : i = j
      · subst hij
        have hlt : i < maps.length := by
          by_contra hc
          rw [List.getElem?_eq_none (by omega)] at h
          cases h
        rw [if_pos rfl, h, List.getElem?_set_self hlt]
        rfl
      · rw [if_neg hij, List.getElem?_set_ne hij]

theorem mapSlots_getElem {M : Type} (f : Nat → M → M) (l : List M) :
    ∀ (n j : Nat), (mapSlots f n l)[j]? = l[j]?.map (f (n + j)) := by
  induction l with
  | nil => intro n j; simp [mapSlots]
  | cons m rest ih =>
      intro n j
      rw [mapSlots]
      cases j with
      | zero => simp
      | succ j2 =>
          rw [List.getElem?_cons_succ, List.getElem?_cons_succ, ih (n + 1) j2]
          have harith : n + 1 + j2 = n + (j2 + 1) := by omega
          rw [harith]

theorem entry_fold_keys {M : Type} (ins : M → Nat → M) (i size : Nat)
    (L : List Nat) :
    ∀ (p : Nat × List M), L.Nodup →
      L.foldl (fun q k => entryEvict ins i k size q) p =
        if p.1 ∈ L then (p.1, setIns ins p.2 i size) else p := by
  induction L with
  | nil => intro p _; simp
  | cons a L ih =>
      intro p hnd
      rw [List.foldl_cons]
      have hnd2 : L.Nodup := (List.nodup_cons.mp hnd).2
      have hna : a ∉ L := (List.nodup_cons.mp hnd).1
      by_cases hpa : p.1 = a
      · rw [entryEvict, if_pos hpa, ih _ hnd2]
        rw [if_neg (show (p.1, setIns ins p.2 i size).1 ∉ L from by
          show p.1 ∉ L
          rw [hpa]
          exact hna)]
        rw [if_pos (show p.1 ∈ a :: L from by rw [hpa]; exact List.mem_cons_self a L)]
      · rw [entryEvict, if_neg hpa, ih _ hnd2]
        by_cases hm : p.1 ∈ L
        · rw [if_pos hm, if_pos (List.mem_cons_of_mem a hm)]
        · rw [if_neg hm, if_neg (show p.1 ∉ a :: L from by
            rw [List.mem_cons]
            rintro (h | h)
            · exact hpa h
            · exact hm h)]

theorem foldl_evict_eq_map {M : Type} (ins : M → Nat → M) (i size : Nat)
    (L : List Nat) :
    ∀ (t : List (Nat × List M)),
      L.foldl (fun t2 k => evict_with_key ins t2 i k size) t =
        t.map (fun p => L.foldl (fun q k => entryEvict ins i k size q) p) := by
  induction L with
  | nil => intro t; simp
  | cons a L ih =>
      intro t
      rw [List.foldl_cons, ih, evict_with_key, List.map_map]
      rfl

theorem drainLoop_spec {M : Type} (ins : M → Nat → M) (i size : Nat)
    (evs : List Nat) :
    ∀ (seen : List Nat) (e : Evictions) (t : List (Nat × List M)),
      e.policy_evictions.getD i [] = evs →
      e.evicted_policy_keys.getD i [] = seen →
      i < e.policy_evictions.length →
      i < e.evicted_policy_keys.length →
      evs.Nodup →
      (∀ k ∈ evs, k ∉ seen) →
      (drainLoop ins evs.length e i size t).2 =
          evs.reverse.foldl (fun t2 k => evict_with_key ins t2 i k size) t ∧
      (drainLoop ins evs.length e i size t).1.policy_evictions.length =
          e.policy_evictions.length ∧
      (drainLoop ins evs.length e i size t).1.evicted_policy_keys.length =
          e.evicted_policy_keys.length ∧
      ∀ j, j ≠ i →
        (drainLoop ins evs.length e i size t).1.policy_evictions.getD j [] =
            e.policy_evictions.getD j [] ∧
        (drainLoop ins evs.length e i size t).1.evicted_policy_keys.getD j [] =
            e.evicted_policy_keys.getD j [] := by
  induction evs using List.reverseRecOn with
  | nil =>
      intro seen e t _ _ _ _ _ _
      exact ⟨rfl, rfl, rfl, fun j _ => ⟨rfl, rfl⟩⟩
  | append_singleton xs x ih =>
      intro seen e t hvec hseen hi1 hi2 hnd hdis
      have hlen : (xs ++ [x]).length = xs.length + 1 := by simp
      rw [hlen, drainLoop]
      simp only [Evictions.get_key, hvec, hseen, List.getLast?_concat,
        List.dropLast_concat]
      have hxseen : x ∉ seen :=
        hdis x (List.mem_append.mpr (Or.inr (List.mem_singleton.mpr rfl)))
      rw [if_neg hxseen]
      dsimp only
      have hnd2 : xs.Nodup := hnd.of_append_left
      have hdisj : List.Disjoint xs [x] := (List.nodup_append.mp hnd).2.2
      have hdis2 : ∀ k ∈ xs, k ∉ x :: seen := by
        intro k hk
        rw [List.mem_cons]
        rintro (rfl | h)
        · exact hdisj hk (List.mem_singleton.mpr rfl)
        · exact hdis k (List.mem_append.mpr (Or.inl hk)) h
      obtain ⟨htab, hl1, hl2, hpres⟩ :=
        ih (x :: seen)
          ⟨e.policy_evictions.set i xs,
            e.evicted_policy_keys.set i (x :: seen)⟩
          (evict_with_key ins t i x size)
          (getD_set_self _ _ _ _ hi1)
          (getD_set_self _ _ _ _ hi2)
          (by rw [List.length_set]; exact hi1)
          (by rw [List.length_set]; exact hi2)
          hnd2 hdis2
      refine ⟨?_, ?_, ?_, ?_⟩
      · rw [htab, List.reverse_append]
        simp only [List.reverse_cons, List.reverse_nil, List.nil_append,
          List.singleton_append, List.foldl_cons]
      · rw [hl1, List.length_set]
      · rw [hl2, List.length_set]
      · intro j hj
        obtain ⟨hp1, hp2⟩ := hpres j hj
        constructor
        · rw [hp1]
          exact getD_set_ne _ _ _ _ _ (fun h => hj h.symm)
        · rw [hp2]
          exact getD_set_ne _ _ _ _ _ (fun h => hj h.symm)

theorem getD_mem_of_lt {α : Type} (l : List α) (n : Nat) (d : α)
    (h : n < l.length) : l.getD n d ∈ l := by
  rw [List.getD_eq_getElem?_getD, List.getElem?_eq_getElem h]
  exact List.getElem_mem h

theorem rangeFold_spec {M : Type} (ins : M → Nat → M) (size : Nat)
    (ls : List (List Nat)) (hnd : ∀ l ∈ ls, l.Nodup) :
    ∀ (m n : Nat) (e : Evictions) (t : List (Nat × List M)),
      n + m ≤ ls.length →
      e.policy_evictions.length = ls.length →
      e.evicted_policy_keys.length = ls.length →
      (∀ j, n ≤ j → e.policy_evictions.getD j [] = ls.getD j [] ∧
        e.evicted_policy_keys.getD j [] = []) →
      ((List.range' n m).foldl
          (fun p i =>
            drainLoop ins (p.1.policy_evictions.getD i []).length p.1 i size p.2)
          (e, t)).2 =
        (List.range' n m).foldl
          (fun t2 i => ((ls.getD i []).reverse).foldl
            (fun t3 k => evict_with_key ins t3 i k size) t2) t := by
  intro m
  induction m with
  | zero => intro n e t _ _ _ _; rfl
  | succ m2 ih =>
      intro n e t hmn hlen1 hlen2 hinv
      rw [List.range'_succ, List.foldl_cons, List.foldl_cons]
      have hn : n < ls.length := by omega
      have hvec : e.policy_evictions.getD n [] = ls.getD n [] := (hinv n le_rfl).1
      have hseen : e.evicted_policy_keys.getD n [] = [] := (hinv n le_rfl).2
      have hi1 : n < e.policy_evictions.length := by rw [hlen1]; exact hn
      have hi2 : n < e.evicted_policy_keys.length := by rw [hlen2]; exact hn
      have hnodup : (ls.getD n []).Nodup := hnd _ (getD_mem_of_lt _ _ _ hn)
      obtain ⟨htab, hl1, hl2, hpres⟩ :=
        drainLoop_spec ins n size (ls.getD n []) [] e t hvec hseen hi1 hi2
          hnodup (fun k _ h => List.not_mem_nil k h)
      rw [hvec]
      have hstep := ih (n + 1)
        (drainLoop ins (ls.getD n []).length e n size t).1
        (drainLoop ins (ls.getD n []).length e n size t).2
        (by omega)
        (by rw [hl1, hlen1])
        (by rw [hl2, hlen2])
        (by
          intro j hj
          have hjn : j ≠ n := by omega
          obtain ⟨hp1, hp2⟩ := hpres j hjn
          rw [hp1, hp2]
          exact hinv j (by omega))
      rw [← htab]
      exact hstep

theorem getD_of_ge_length {α : Type} (l : List α) (j : Nat) (d : α)
    (h : l.length ≤ j) : l.getD j d = d := by
  rw [List.getD_eq_getElem?_getD, List.getElem?_eq_none h]
  rfl

theorem getD_map_of_lt {α β : Type} (l : List α) (f : α → β) (i : Nat)
    (d : β) (d2 : α) (h : i < l.length) :
    (l.map f).getD i d = f (l.getD i d2) := by
  rw [List.getD_eq_getElem?_getD, List.getElem?_map,
    List.getElem?_eq_getElem h, List.getD_eq_getElem?_getD,
    List.getElem?_eq_getElem h]
  rfl

theorem cacheSizes_getD (step simulate idx : Nat) (hstep : 0 < step)
    (h : idx < (cacheSizes step simulate).length) :
    (cacheSizes step simulate).getD idx 0 = (idx + 1) * step := by
  rw [List.getD_eq_getElem?_getD, cacheSizes_getElem _ _ _ hstep,
    if_pos ((cacheSizes_length_cond _ _ _ hstep).mp h)]
  rfl

theorem applyAt_new {M : Type} (ins : M → Nat → M) (nP : Nat)
    (ls : List (List Nat)) (size : Nat) (t : List (Nat × List M))
    (hlen : ls.length = nP) (hnd : ∀ l ∈ ls, l.Nodup) :
    (applyEvictionsAt ins nP (Evictions.new ls) size t).2 =
      (List.range' 0 nP).foldl
        (fun t2 i => ((ls.getD i []).reverse).foldl
          (fun t3 k => evict_with_key ins t3 i k size) t2) t := by
  rw [applyEvictionsAt, List.range_eq_range']
  exact rangeFold_spec ins size ls hnd nP 0 (Evictions.new ls) t
    (by omega) rfl (by simp [Evictions.new])
    (fun j _ => ⟨rfl, getD_map_nil ls j⟩)

theorem policyFold_eq_map {M : Type} (ins : M → Nat → M) (size : Nat)
    (ls : List (List Nat)) :
    ∀ (m n : Nat) (t : List (Nat × List M)),
      (List.range' n m).foldl
          (fun t2 i => ((ls.getD i []).reverse).foldl
            (fun t3 k => evict_with_key ins t3 i k size) t2) t =
        t.map (fun p => (List.range' n m).foldl
          (fun q i => ((ls.getD i []).reverse).foldl
            (fun q2 k => entryEvict ins i k size q2) q) p) := by
  intro m
  induction m with
  | zero => intro n t; simp [List.range']
  | succ m2 ih =>
      intro n t
      rw [List.range'_succ, List.foldl_cons, foldl_evict_eq_map, ih (n + 1),
        List.map_map]
      rfl

theorem entry_policyFold_slot {M : Type} (ins : M → Nat → M) (size : Nat)
    (ls : List (List Nat)) (hnd : ∀ l ∈ ls, l.Nodup) :
    ∀ (m n : Nat) (p : Nat × List M),
      ((List.range' n m).foldl
          (fun q i => ((ls.getD i []).reverse).foldl
            (fun q2 k => entryEvict ins i k size q2) q) p).1 = p.1 ∧
      ∀ j : Nat,
        ((List.range' n m).foldl
            (fun q i => ((ls.getD i []).reverse).foldl
              (fun q2 k => entryEvict ins i k size q2) q) p).2[j]? =
          if n ≤ j ∧ j < n + m ∧ p.1 ∈ ls.getD j [] then
            p.2[j]?.map (fun m0 => ins m0 size)
          else p.2[j]? := by
  intro m
  induction m with
  | zero =>
      intro n p
      refine ⟨rfl, fun j => ?_⟩
      rw [if_neg (by rintro ⟨h1, h2, _⟩; omega)]
      rfl
  | succ m2 ih =>
      intro n p
      rw [List.range'_succ, List.foldl_cons]
      have hndn : ((ls.getD n []).reverse).Nodup := by
        by_cases hn : n < ls.length
        · exact List.nodup_reverse.mpr (hnd _ (getD_mem_of_lt _ _ _ hn))
        · rw [getD_of_ge_length _ _ _ (by omega)]
          exact List.nodup_nil
      rw [entry_fold_keys ins n size ((ls.getD n []).reverse) p hndn]
      obtain ⟨hfst, hslot⟩ := ih (n + 1)
        (if p.1 ∈ (ls.getD n []).reverse then (p.1, setIns ins p.2 n size)
          else p)
      by_cases hm : p.1 ∈ (ls.getD n []).reverse
      · rw [if_pos hm] at hfst hslot ⊢
        refine ⟨hfst, fun j => ?_⟩
        rw [hslot j]
        dsimp only
        rw [setIns_getElem]
        have hmem : p.1 ∈ ls.getD n [] := List.mem_reverse.mp hm
        by_cases hj : j = n
        · rw [if_neg (show ¬(n + 1 ≤ j ∧ j < n + 1 + m2 ∧
              p.1 ∈ ls.getD j []) from by rintro ⟨h1, _, _⟩; omega)]
          rw [if_pos (show n = j from hj.symm)]
          rw [if_pos (show n ≤ j ∧ j < n + (m2 + 1) ∧ p.1 ∈ ls.getD j [] from
            ⟨by omega, by omega, by rw [hj]; exact hmem⟩)]
        · by_cases hA : n + 1 ≤ j ∧ j < n + 1 + m2 ∧ p.1 ∈ ls.getD j []
          · rw [if_pos hA]
            rw [if_neg (show ¬(n = j) from fun h => hj h.symm)]
            rw [if_pos (show n ≤ j ∧ j < n + (m2 + 1) ∧ p.1 ∈ ls.getD j []
              from ⟨by omega, by omega, hA.2.2⟩)]
          · rw [if_neg hA]
            rw [if_neg (show ¬(n = j) from fun h => hj h.symm)]
            rw [if_neg (show ¬(n ≤ j ∧ j < n + (m2 + 1) ∧ p.1 ∈ ls.getD j [])
              from by rintro ⟨h1, h2, h3⟩; exact hA ⟨by omega, by omega, h3⟩)]
      · rw [if_neg hm] at hfst hslot ⊢
        refine ⟨hfst, fun j => ?_⟩
        rw [hslot j]
        have hnmem : p.1 ∉ ls.getD n [] := fun h => hm (List.mem_reverse.mpr h)
        by_cases hj : j = n
        · rw [if_neg (show ¬(n + 1 ≤ j ∧ j < n + 1 + m2 ∧
              p.1 ∈ ls.getD j []) from by rintro ⟨h1, _, _⟩; omega)]
          rw [if_neg (show ¬(n ≤ j ∧ j < n + (m2 + 1) ∧ p.1 ∈ ls.getD j [])
            from by
              rintro ⟨h1, h2, h3⟩
              rw [hj] at h3
              exact hnmem h3)]
        · by_cases hA : n + 1 ≤ j ∧ j < n + 1 + m2 ∧ p.1 ∈ ls.getD j []
          · rw [if_pos hA]
            rw [if_pos (show n ≤ j ∧ j < n + (m2 + 1) ∧ p.1 ∈ ls.getD j []
              from ⟨by omega, by omega, hA.2.2⟩)]
          · rw [if_neg hA]
            rw [if_neg (show ¬(n ≤ j ∧ j < n + (m2 + 1) ∧ p.1 ∈ ls.getD j [])
              from by rintro ⟨h1, h2, h3⟩; exact hA ⟨by omega, by omega, h3⟩)]

theorem outer_fold_eq_map {M : Type} (ins : M → Nat → M) (nP : Nat)
    (step simulate : Nat) (reconstruct : Nat → List (List Nat))
    (hstep : 0 < step)
    (hrec : ∀ s, (reconstruct s).length = nP)
    (hnd : ∀ s, ∀ l ∈ reconstruct s, l.Nodup) :
    ∀ (R : List Nat) (t : List (Nat × List M)),
      (∀ idx ∈ R, idx < (cacheSizes step simulate).length) →
      R.foldl (fun t2 idx =>
          (applyEvictionsAt ins nP
            (((cacheSizes step simulate).map fun s =>
              Evictions.new (reconstruct s)).getD idx (Evictions.new []))
            ((idx + 1) * step) t2).2) t =
        t.map (fun p => R.foldl (fun q idx =>
          (List.range' 0 nP).foldl
            (fun q2 i => (((reconstruct ((idx + 1) * step)).getD i []).reverse).foldl
              (fun q3 k => entryEvict ins i k ((idx + 1) * step) q3) q2) q) p) := by
  intro R
  induction R with
  | nil => intro t _; simp
  | cons idx R ih =>
      intro t hR
      have hidx : idx < (cacheSizes step simulate).length :=
        hR idx (List.mem_cons_self idx R)
      rw [List.foldl_cons]
      have hget : ((cacheSizes step simulate).map fun s =>
          Evictions.new (reconstruct s)).getD idx (Evictions.new []) =
          Evictions.new (reconstruct ((idx + 1) * step)) := by
        rw [getD_map_of_lt _ _ _ _ 0 hidx, cacheSizes_getD _ _ _ hstep hidx]
      rw [hget, applyAt_new ins nP _ _ _ (hrec _) (hnd _),
        policyFold_eq_map, ih _ (fun i hi => hR i (List.mem_cons_of_mem _ hi)),
        List.map_map]
      rfl

theorem entry_sizes_slot {M : Type} (ins : M → Nat → M) (nP step : Nat)
    (reconstruct : Nat → List (List Nat))
    (hrec : ∀ s, (reconstruct s).length = nP)
    (hnd : ∀ s, ∀ l ∈ reconstruct s, l.Nodup) :
    ∀ (R : List Nat) (p : Nat × List M),
      (R.foldl (fun q idx =>
          (List.range' 0 nP).foldl
            (fun q2 i => (((reconstruct ((idx + 1) * step)).getD i []).reverse).foldl
              (fun q3 k => entryEvict ins i k ((idx + 1) * step) q3) q2) q) p).1 =
        p.1 ∧
      ∀ j : Nat,
        (R.foldl (fun q idx =>
            (List.range' 0 nP).foldl
              (fun q2 i => (((reconstruct ((idx + 1) * step)).getD i []).reverse).foldl
                (fun q3 k => entryEvict ins i k ((idx + 1) * step) q3) q2) q) p).2[j]? =
          p.2[j]?.map (fun m0 =>
            ((R.map (fun idx => (idx + 1) * step)).filter
              (fun s => decide (p.1 ∈ (reconstruct s).getD j []))).foldl ins m0) := by
  intro R
  induction R with
  | nil =>
      intro p
      refine ⟨rfl, fun j => ?_⟩
      simp only [List.foldl_nil, List.map_nil, List.filter_nil]
      cases p.2[j]? with
      | none => rfl
      | some m => rfl
  | cons idx R ih =>
      intro p
      rw [List.foldl_cons]
      obtain ⟨hfst1, hslot1⟩ :=
        entry_policyFold_slot ins ((idx + 1) * step)
          (reconstruct ((idx + 1) * step)) (hnd _) nP 0 p
      obtain ⟨hfst2, hslot2⟩ := ih
        ((List.range' 0 nP).foldl
          (fun q2 i => (((reconstruct ((idx + 1) * step)).getD i []).reverse).foldl
            (fun q3 k => entryEvict ins i k ((idx + 1) * step) q3) q2) p)
      refine ⟨hfst2.trans hfst1, fun j => ?_⟩
      rw [hslot2 j, hfst1, hslot1 j, List.map_cons, List.filter_cons]
      by_cases hmem : p.1 ∈ (reconstruct ((idx + 1) * step)).getD j []
      · have hjnP : j < nP := by
          by_contra hc
          rw [getD_of_ge_length _ _ _ (by rw [hrec]; omega)] at hmem
          exact List.not_mem_nil _ hmem
        rw [if_pos (show (0:Nat) ≤ j ∧ j < 0 + nP ∧
            p.1 ∈ (reconstruct ((idx + 1) * step)).getD j [] from
          ⟨Nat.zero_le j, by omega, hmem⟩)]
        rw [if_pos (show (fun s => decide (p.1 ∈ (reconstruct s).getD j []))
            ((idx + 1) * step) = true from by
          simp only [decide_eq_true_eq]
          exact hmem)]
        rw [Option.map_map]
        rfl
      · rw [if_neg (show ¬((0:Nat) ≤ j ∧ j < 0 + nP ∧
            p.1 ∈ (reconstruct ((idx + 1) * step)).getD j []) from by
          rintro ⟨h1, h2, h3⟩
          exact hmem h3)]
        rw [if_neg (show ¬((fun s => decide (p.1 ∈ (reconstruct s).getD j []))
            ((idx + 1) * step) = true) from by
          simp only [decide_eq_true_eq]
          exact hmem)]

/-- Claim C1 (amended): for the eviction phase of `Kosmo::process`,
(1) if `step_size > simulate_size` no evictions are performed (the table
is untouched); (2) the cache sizes actually used are exactly the
multiples `m * step_size` (`m ≥ 1`) strictly below
`simulate_size + step_size` — in particular (3) the endpoint
`simulate_size + step_size` claimed by the spec is never used; and
(4) otherwise every object's per-policy eviction map receives exactly
one insert per cache size at which the reconstruction emits its key for
that policy, the cache sizes being applied in descending order
(hypotheses: the reconstruction emits one duplicate-free key list per
policy — a duplicate would end the drain loop early via
`Evictions::save_key`). -/
theorem c1_perform_evictions {M : Type} (ins : M → Nat → M)
    (nPolicies granularity : Nat) (reconstruct : Nat → List (List Nat))
    (t : List (Nat × List M)) (accessSize simulate : Nat)
    (hrec : ∀ s, (reconstruct s).length = nPolicies)
    (hnd : ∀ s, ∀ l ∈ reconstruct s, l.Nodup) :
    (stepSize granularity accessSize simulate > simulate →
      perform_evictions ins nPolicies granularity reconstruct t accessSize
        simulate = t) ∧
    (∀ s, s ∈ cacheSizes (stepSize granularity accessSize simulate) simulate ↔
      ∃ m, 1 ≤ m ∧ s = m * stepSize granularity accessSize simulate ∧
        s < simulate + stepSize granularity accessSize simulate) ∧
    simulate + stepSize granularity accessSize simulate ∉
      cacheSizes (stepSize granularity accessSize simulate) simulate ∧
    (¬ stepSize granularity accessSize simulate > simulate →
      perform_evictions ins nPolicies granularity reconstruct t accessSize
        simulate =
        t.map (fun p => (p.1, mapSlots (fun i m =>
          ((emittedSizes reconstruct
            (cacheSizes (stepSize granularity accessSize simulate) simulate)
            p.1 i).reverse).foldl ins m) 0 p.2))) := by
  refine ⟨?_, ?_, ?_, ?_⟩
  · intro h
    simp only [perform_evictions]
    rw [if_pos h]
  · intro s
    exact cacheSizes_mem_iff _ _ s (stepSize_pos _ _ _)
  · intro hmem
    obtain ⟨m, hm1, heq, hlt⟩ :=
      (cacheSizes_mem_iff _ _ _ (stepSize_pos _ _ _)).mp hmem
    exact absurd hlt (lt_irrefl _)
  · intro hskip
    simp only [perform_evictions]
    rw [if_neg hskip, List.length_map]
    rw [outer_fold_eq_map ins nPolicies _ simulate reconstruct
      (stepSize_pos _ _ _) hrec hnd _ t
      (by
        intro idx h
        rw [List.mem_reverse, List.mem_range] at h
        exact h)]
    apply List.map_congr_left
    intro p hp
    obtain ⟨hfst, hslot⟩ := entry_sizes_slot ins nPolicies
      (stepSize granularity accessSize simulate) reconstruct hrec hnd
      ((List.range (cacheSizes (stepSize granularity accessSize simulate)
        simulate).length).reverse) p
    refine Prod.ext hfst ?_
    dsimp only
    apply List.ext_getElem?
    intro j
    rw [hslot j, mapSlots_getElem, List.map_reverse,
      range_map_cacheSizes _ _ (stepSize_pos _ _ _), List.filter_reverse,
      Nat.zero_add]
    rfl

/-- Counterexample to the literal claim C1: with `access.size = 1` and
`simulate_size = 1024`, `step_size = 1024` and the code computes
evictions only at cache size 1024 — the spec's sequence
`{step, 2·step, …, simulate_size + step_size}` additionally contains
`2048 = simulate_size + step_size`, which the exclusive Rust range never
reaches, so a key emitted at every size is applied at 1024 only. -/
theorem c1_counterexample :
    stepSize GRANULARITY 1 1024 = 1024 ∧
    cacheSizes (stepSize GRANULARITY 1 1024) 1024 = [1024] ∧
    1024 + 1024 ∉ cacheSizes (stepSize GRANULARITY 1 1024) 1024 ∧
    perform_evictions (fun (m : List Nat) s => s :: m) 1 GRANULARITY
        (fun _ => [[7]]) [(7, [[]])] 1 1024 =
      [(7, [[1024]])] := by
  refine ⟨by decide, ?_, ?_, ?_⟩
  · decide
  · decide
  · decide

/-- Witness for C1 at `simulate_size = 2048`: `step_size = 1024`, the
used sizes are 1024 and 2048, and the single policy's key 7 receives
inserts at 2048 first, then 1024. -/
theorem c1_witness :
    (∀ s : Nat, ((fun _ : Nat => [[7]]) s : List (List Nat)).length = 1) ∧
    (∀ s : Nat, ∀ l ∈ ((fun _ : Nat => [[7]]) s : List (List Nat)),
      l.Nodup) ∧
    ((stepSize 10 1 2048 > 2048 →
      perform_evictions (fun (m : List Nat) s => s :: m) 1 10 (fun _ => [[7]])
        [(7, [[]])] 1 2048 = [(7, [[]])]) ∧
    (∀ s, s ∈ cacheSizes (stepSize 10 1 2048) 2048 ↔
      ∃ m, 1 ≤ m ∧ s = m * stepSize 10 1 2048 ∧
        s < 2048 + stepSize 10 1 2048) ∧
    2048 + stepSize 10 1 2048 ∉ cacheSizes (stepSize 10 1 2048) 2048 ∧
    (¬ stepSize 10 1 2048 > 2048 →
      perform_evictions (fun (m : List Nat) s => s :: m) 1 10 (fun _ => [[7]])
        [(7, [[]])] 1 2048 =
        [(7, [[]])].map (fun p => (p.1, mapSlots (fun i m =>
          ((emittedSizes (fun _ => [[7]])
            (cacheSizes (stepSize 10 1 2048) 2048)
            p.1 i).reverse).foldl (fun (m : List Nat) s => s :: m) m)
          0 p.2)))) :=
  ⟨fun _ => rfl,
    fun s l h => by
      rw [List.mem_singleton] at h
      subst h
      decide,
    c1_perform_evictions (fun (m : List Nat) s => s :: m) 1 10
      (fun _ => [[7]]) [(7, [[]])] 1 2048 (fun _ => rfl)
      (fun s l h => by
        rw [List.mem_singleton] at h
        subst h
        decide)⟩

end Kosmo
